import Mathlib

/-!
# csf2det: expansion of a configuration state function into determinants

A shallow embedding of `csf2det.c` (the functions `gcd`, `simplify`,
`combination` and `csf2det`) together with proofs about it.

Modelling conventions.

* A C `int` is an unbounded `Int`; counters and array indices that only ever
  count upwards from `0` are `Nat`.  Overflow of the host integer is outside
  the model.
* C `/` and `%` on `int` truncate towards zero: `Int.tdiv` and `Int.tmod`.
* A `malloc`ed array is a `List`; a read `x[i]` is `x.getD i 0`, a write is
  `List.set`, and an array that is filled front to back is built by appending.
* `const char *stepvec` is the `List Char` of the characters before the
  terminating NUL.
* What the program prints is returned as a value of type `Outcome`.
* Recursion and loops whose trip count is not a syntactic bound carry a step
  budget; the theorems `gcd_unfold` and `doWhile_budget` show that the budgets
  used are never exhausted.
-/

namespace Csf2det

/-! ## `gcd` and `simplify` -/

/-- The recursion `b == 0 ? a : gcd(b, a % b)` with a budget of recursive calls. -/
def gcdAux : Nat → Int → Int → Int
  | 0, a, _ => a
  | fuel + 1, a, b => if b = 0 then a else gcdAux fuel b (a.tmod b)

/-- The function `gcd` of the source: the absolute value of the second argument
strictly decreases, so `|b| + 1` calls are enough (theorem `gcd_unfold`). -/
def gcd (a b : Int) : Int := gcdAux (b.natAbs + 1) a b

/-- The function `simplify` of the source: the returned `int` and the array
`frac` after the call. -/
def simplify (frac : Int × Int) : Int × (Int × Int) :=
  if frac.1 = 0 then (0, frac)
  else
    let div := gcd frac.1 frac.2
    (div, (frac.1.tdiv div, frac.2.tdiv div))

/-! ## `combination` -/

/-- The C struct `kCn`. -/
structure kCn where
  n : Int
  k : Int
  lex : List Nat
deriving DecidableEq

/-- The loop `while (ptr >= 0 && lex[ptr] == n - k + ptr) --ptr;`.
The argument and the result are `ptr + 1`. -/
def searchBack (comb : kCn) : Nat → Nat
  | 0 => 0
  | p + 1 =>
    if ((comb.lex.getD p 0 : Nat) : Int) = comb.n - comb.k + (p : Int) then searchBack comb p
    else p + 1

/-- The loop `for (i = 1; i < k - ptr; ++i) lex[ptr + i] = lex[ptr] + i;`
with `cnt` iterations left and loop variable `i`. -/
def resetTail (ptr : Nat) : Nat → Nat → List Nat → List Nat
  | 0, _, lex => lex
  | cnt + 1, i, lex => resetTail ptr cnt (i + 1) (lex.set (ptr + i) (lex.getD ptr 0 + i))

/-- The function `combination` of the source: the returned `int` and the
struct after the call. -/
def combination (comb : kCn) : Int × kCn :=
  match searchBack comb comb.k.toNat with
  | 0 => (0, comb)
  | ptr + 1 =>
    let lex1 := comb.lex.set ptr (comb.lex.getD ptr 0 + 1)
    (1, { comb with lex := resetTail ptr (comb.k.toNat - ptr - 1) 1 lex1 })

/-- The loop `do { body } while (combination (&comb));` with a budget of
iterations; `none` when the budget is exhausted.  The outputs of the bodies
are collected in order. -/
def doWhile {β : Type} (body : List Nat → List β) (n k : Int) : Nat → List Nat → Option (List β)
  | 0, _ => none
  | fuel + 1, lex =>
    let out := body lex
    let r := combination ⟨n, k, lex⟩
    if r.1 ≠ 0 then (doWhile body n k fuel r.2.lex).map (fun rest => out ++ rest)
    else some out

/-! ## `csf2det` -/

/-- One printed determinant line: the sign character, the fraction
`num/den` and the symbols of `det`. -/
structure Line where
  sign : Char
  num : Int
  den : Int
  det : List Char
deriving DecidableEq

/-- What a call of `csf2det` does. -/
inductive Outcome where
  /-- Prints "illegal character 'c' in stepvector", returns 1. -/
  | invalidStepVectorSymbol (c : Char)
  /-- Prints "invalid ud ordering in stepvector", returns 1. -/
  | negativeSpinCounter
  /-- Prints "exceeded maximum Ms value" with the value of `spin`, returns 1. -/
  | spinProjectionOutOfRange (spin : Int)
  /-- Prints "Ms should be an EVEN/ODD number of half integers", returns 1. -/
  | spinProjectionParityMismatch (word : String)
  /-- Prints the header with `n_e` and `n_mo` and the determinant lines, returns 0. -/
  | ok (n_e : Int) (n_mo : Nat) (lines : List Line)
  /-- The arrays have length `n_mo = 0` and `a[0]` is written: no defined behaviour. -/
  | outOfBounds
  /-- The iteration budget of the determinant loop was exhausted. -/
  | budgetExhausted
deriving DecidableEq

/-- The first loop: `n_mo` counts the characters other than the space. -/
def countMo (stepvec : List Char) : Nat :=
  stepvec.foldl (fun n_mo ch => if ch ≠ ' ' then n_mo + 1 else n_mo) 0

/-- The second loop: fills `csf` and counts `n_somo` and `n_domo`; stops with
the offending character at the `default` branch. -/
def parseLoop : List Char → List Nat → Nat → Nat → Except Char (List Nat × Nat × Nat)
  | [], csf, n_somo, n_domo => .ok (csf, n_somo, n_domo)
  | ch :: rest, csf, n_somo, n_domo =>
    if ch = '0' then parseLoop rest (csf ++ [0]) n_somo n_domo
    else if ch = 'u' then parseLoop rest (csf ++ [1]) (n_somo + 1) n_domo
    else if ch = 'd' then parseLoop rest (csf ++ [2]) (n_somo + 1) n_domo
    else if ch = '2' then parseLoop rest (csf ++ [3]) n_somo (n_domo + 1)
    else if ch = ' ' then parseLoop rest csf n_somo n_domo
    else .error ch

/-- The `switch` that updates the Paldus counters `(a, b, c)` of one orbital. -/
def paldusUpdate (code : Nat) (abc : Int × Int × Int) : Int × Int × Int :=
  match code with
  | 0 => (abc.1, abc.2.1, abc.2.2 + 1)
  | 1 => (abc.1, abc.2.1 + 1, abc.2.2)
  | 2 => (abc.1 + 1, abc.2.1 - 1, abc.2.2 + 1)
  | 3 => (abc.1 + 1, abc.2.1, abc.2.2)
  | _ => abc

/-- The loop `for (i = 1; i < n_mo; i++)`: entry `i` is entry `i - 1` updated
by `csf[i]`. -/
def paldusLoop : Int × Int × Int → List Nat → List (Int × Int × Int)
  | _, [] => []
  | prev, code :: rest =>
    let cur := paldusUpdate code prev
    cur :: paldusLoop cur rest

/-- The Paldus table: position `i` holds `(a[i], b[i], c[i])`.  Entry `0` is
`(0, 0, 0)` updated by `csf[0]`. -/
def paldus : List Nat → List (Int × Int × Int)
  | [] => []
  | code :: rest =>
    let first := paldusUpdate code (0, 0, 0)
    first :: paldusLoop first rest

/-- The array `a`. -/
def aArr (csf : List Nat) : List Int := (paldus csf).map (fun t => t.1)

/-- The array `b`. -/
def bArr (csf : List Nat) : List Int := (paldus csf).map (fun t => t.2.1)

/-- The array `c`. -/
def cArr (csf : List Nat) : List Int := (paldus csf).map (fun t => t.2.2)

/-- The array `spin_eigv`: all `-1`, then `1` at the positions in `lex`. -/
def spinEigv (n_somo : Nat) (n_alpha : Int) (lex : List Nat) : List Int :=
  (List.range n_alpha.toNat).foldl (fun ev i => ev.set (lex.getD i 0) 1)
    (List.replicate n_somo (-1))

/-- The incremental variables of the loop over the orbitals. -/
structure Walk where
  phase : Int
  frac : Int × Int
  i_somo : Nat
  i_alpha : Int
  i_beta : Int
  det : List Char
deriving DecidableEq

/-- The variables as initialised before the loop over the orbitals. -/
def Walk.init : Walk := ⟨1, (1, 1), 0, 0, 0, []⟩

/-- The `switch (csf[i])` in the loop over the orbitals, before `simplify`. -/
def orbitalSwitch (csf : List Nat) (a b : List Int) (spin_eigv : List Int) (i : Nat)
    (w : Walk) : Walk :=
  match csf.getD i 0 with
  | 0 => { w with det := w.det ++ ['0'] }
  | 1 =>
    if spin_eigv.getD w.i_somo 0 = 1 then
      { w with
        i_somo := w.i_somo + 1
        det := w.det ++ ['a']
        frac := (w.frac.1 * (a.getD i 0 + b.getD i 0 - w.i_beta), w.frac.2 * b.getD i 0)
        i_alpha := w.i_alpha + 1 }
    else
      { w with
        i_somo := w.i_somo + 1
        det := w.det ++ ['b']
        frac := (w.frac.1 * (a.getD i 0 + b.getD i 0 - w.i_alpha), w.frac.2 * b.getD i 0)
        i_beta := w.i_beta + 1 }
  | 2 =>
    if spin_eigv.getD w.i_somo 0 = 1 then
      { w with
        i_somo := w.i_somo + 1
        det := w.det ++ ['a']
        frac := (w.frac.1 * (w.i_beta - a.getD i 0 + 1), w.frac.2 * (b.getD i 0 + 2))
        i_alpha := w.i_alpha + 1
        phase := if (b.getD i 0).tmod 2 = 0 then w.phase * (-1) else w.phase }
    else
      { w with
        i_somo := w.i_somo + 1
        det := w.det ++ ['b']
        frac := (w.frac.1 * (w.i_alpha - a.getD i 0 + 1), w.frac.2 * (b.getD i 0 + 2))
        i_beta := w.i_beta + 1
        phase := if (b.getD i 0).tmod 2 ≠ 0 then w.phase * (-1) else w.phase }
  | 3 =>
    { w with
      det := w.det ++ ['2']
      phase := if (b.getD i 0).tmod 2 ≠ 0 then w.phase * (-1) else w.phase
      i_alpha := w.i_alpha + 1
      i_beta := w.i_beta + 1 }
  | _ => w

/-- One iteration of the loop over the orbitals: the `switch`, then
`simplify (frac)`. -/
def orbital (csf : List Nat) (a b : List Int) (spin_eigv : List Int) (i : Nat) (w : Walk) : Walk :=
  let w1 := orbitalSwitch csf a b spin_eigv i w
  { w1 with frac := (simplify w1.frac).2 }

/-- The variables after the first `m` iterations of
`for (i = 0; i < n_mo; ++i)`. -/
def walkUpTo (csf : List Nat) (a b : List Int) (spin_eigv : List Int) (m : Nat) : Walk :=
  (List.range m).foldl (fun w i => orbital csf a b spin_eigv i w) Walk.init

/-- The body of the `do ... while` loop for the combination `lex`: the line
that is printed, if any. -/
def determinant (csf : List Nat) (a b : List Int) (n_mo n_somo : Nat) (n_alpha : Int)
    (lex : List Nat) : List Line :=
  let w := walkUpTo csf a b (spinEigv n_somo n_alpha lex) n_mo
  if w.frac.1 ≠ 0 then
    [{ sign := if w.phase > 0 then '+' else '-', num := w.frac.1, den := w.frac.2, det := w.det }]
  else []

/-- The function `csf2det` of the source. -/
def csf2det (stepvec : List Char) (twoms : Int) : Outcome :=
  let n_mo := countMo stepvec
  match parseLoop stepvec [] 0 0 with
  | .error ch => .invalidStepVectorSymbol ch
  | .ok (csf, n_somo, _) =>
    if n_mo = 0 then .outOfBounds
    else
      let a := aArr csf
      let b := bArr csf
      if b.any (fun x => x < 0) then .negativeSpinCounter
      else
        let n_e := 2 * a.getD (n_mo - 1) 0 + b.getD (n_mo - 1) 0
        let spin := b.getD (n_mo - 1) 0
        if (twoms.natAbs : Int) > spin then .spinProjectionOutOfRange spin
        else if (spin + twoms).tmod 2 ≠ 0 then
          .spinProjectionParityMismatch (["EVEN", "ODD"].getD (spin.tmod 2).toNat "")
        else
          let n_alpha := ((n_somo : Int) + twoms).tdiv 2
          match doWhile (determinant csf a b n_mo n_somo n_alpha) n_somo n_alpha
              (2 ^ n_somo) (List.range n_alpha.toNat) with
          | some lines => .ok n_e n_mo lines
          | none => .budgetExhausted

/-! ## Combinations (specification side) -/

/-- A strictly increasing sequence of `k` indices in `[0, n)`. -/
def IsComb (n k : Nat) (s : List Nat) : Prop :=
  s.length = k ∧ s.Pairwise (· < ·) ∧ ∀ x ∈ s, x < n

instance (n k : Nat) (s : List Nat) : Decidable (IsComb n k s) := by
  unfold IsComb; infer_instance

/-- The sequence `{n-k, ..., n-1}`. -/
def lastComb (n k : Nat) : List Nat := List.range' (n - k) k

/-- The successor of a combination, by recursion on the sequence: advance the
tail if it can be advanced, otherwise raise the head and restart behind it. -/
def nextComb (n : Nat) : List Nat → Option (List Nat)
  | [] => none
  | x :: rest =>
    match nextComb n rest with
    | some rest' => some (x :: rest')
    | none =>
      if x + rest.length + 1 < n then some (List.range' (x + 1) (rest.length + 1)) else none

/-! ## Step-vectors (specification side) -/

/-- The five characters a step-vector may contain. -/
def validSymbol (ch : Char) : Bool :=
  ch == '0' || ch == 'u' || ch == 'd' || ch == '2' || ch == ' '

/-- The orbital sequence of a step-vector as characters: the spaces dropped. -/
def orbitalSymbols (stepvec : List Char) : List Char :=
  stepvec.filter (fun ch => ch != ' ')

/-- The number the second loop stores in `csf` for a symbol. -/
def codeOf (ch : Char) : Nat :=
  if ch = '0' then 0 else if ch = 'u' then 1 else if ch = 'd' then 2 else 3

/-- The array `csf` after the second loop (empty if the loop stops at an
illegal character). -/
def csfOf (stepvec : List Char) : List Nat :=
  match parseLoop stepvec [] 0 0 with
  | .ok (csf, _, _) => csf
  | .error _ => []

/-- The counter `n_somo` after the second loop. -/
def nSomoOf (stepvec : List Char) : Nat :=
  match parseLoop stepvec [] 0 0 with
  | .ok (_, n_somo, _) => n_somo
  | .error _ => 0

/-- The counter `n_domo` after the second loop. -/
def nDomoOf (stepvec : List Char) : Nat :=
  match parseLoop stepvec [] 0 0 with
  | .ok (_, _, n_domo) => n_domo
  | .error _ => 0

/-- The counts behind the Paldus counters of a sequence of codes:
`(#2 + #3, #1 - #2, #0 + #2)`, that is `(#'d' + #'2', #'u' - #'d', #'0' + #'d')`. -/
def tally (p : List Nat) : Int × Int × Int :=
  ((p.count 2 : Int) + (p.count 3 : Int), (p.count 1 : Int) - (p.count 2 : Int),
    (p.count 0 : Int) + (p.count 2 : Int))

/-! ## The step rules without reduction (specification side) -/

/-- The numerator factor of the step rule of one orbital: `SingleUp` gives
`a[i] + b[i] - i_beta` if alpha and `a[i] + b[i] - i_alpha` if beta, `SingleDown`
gives `i_beta - a[i] + 1` if alpha and `i_alpha - a[i] + 1` if beta; the other
orbitals contribute no factor. -/
def numFactor (code : Nat) (alpha : Bool) (ai bi i_alpha i_beta : Int) : Int :=
  match code, alpha with
  | 1, true => ai + bi - i_beta
  | 1, false => ai + bi - i_alpha
  | 2, true => i_beta - ai + 1
  | 2, false => i_alpha - ai + 1
  | _, _ => 1

/-- The denominator factor of the step rule of one orbital: `b[i]` for
`SingleUp`, `b[i] + 2` for `SingleDown`. -/
def denFactor (code : Nat) (bi : Int) : Int :=
  match code with
  | 1 => bi
  | 2 => bi + 2
  | _ => 1

/-- The running counts of the step rules and the products `P` of the numerator
factors and `Q` of the denominator factors, never reduced. -/
structure Unreduced where
  i_somo : Nat
  i_alpha : Int
  i_beta : Int
  P : Int
  Q : Int
deriving DecidableEq

/-- Before the first orbital. -/
def Unreduced.init : Unreduced := ⟨0, 0, 0, 1, 1⟩

/-- The step rule of orbital `i`, where `alpha j` tells whether the `j`-th
singly-occupied orbital is assigned alpha: a doubly-occupied orbital counts as
one alpha and one beta. -/
def stepRule (csf : List Nat) (a b : List Int) (alpha : Nat → Bool) (i : Nat)
    (u : Unreduced) : Unreduced :=
  let code := csf.getD i 0
  let somo : Bool := code == 1 || code == 2
  let al := alpha u.i_somo
  { i_somo := if somo then u.i_somo + 1 else u.i_somo
    i_alpha := if code == 3 || (somo && al) then u.i_alpha + 1 else u.i_alpha
    i_beta := if code == 3 || (somo && !al) then u.i_beta + 1 else u.i_beta
    P := u.P * numFactor code al (a.getD i 0) (b.getD i 0) u.i_alpha u.i_beta
    Q := u.Q * denFactor code (b.getD i 0) }

/-- The step rules applied to the orbitals `0, ..., m-1`. -/
def unreducedUpTo (csf : List Nat) (a b : List Int) (alpha : Nat → Bool) (m : Nat) : Unreduced :=
  (List.range m).foldl (fun u i => stepRule csf a b alpha i u) Unreduced.init

/-- The numerator factors of the orbitals `0, ..., m-1`. -/
def numFactors (csf : List Nat) (a b : List Int) (alpha : Nat → Bool) (m : Nat) : List Int :=
  (List.range m).map (fun i =>
    numFactor (csf.getD i 0) (alpha (unreducedUpTo csf a b alpha i).i_somo) (a.getD i 0)
      (b.getD i 0) (unreducedUpTo csf a b alpha i).i_alpha (unreducedUpTo csf a b alpha i).i_beta)

/-- The denominator factors of the orbitals `0, ..., m-1`. -/
def denFactors (csf : List Nat) (b : List Int) (m : Nat) : List Int :=
  (List.range m).map (fun i => denFactor (csf.getD i 0) (b.getD i 0))

/-- The relation between the reduced fraction of the code and the unreduced
products: the same value, in lowest terms, and zero together. -/
def Reduced (frac : Int × Int) (P Q : Int) : Prop :=
  (P = 0 → frac.1 = 0) ∧
  (P ≠ 0 → frac.1 ≠ 0 ∧ frac.1 * Q = P * frac.2 ∧ Int.gcd frac.1 frac.2 = 1)

/-- The weight `P / Q` of the alpha subset `A` after `m` orbitals, as a rational. -/
def weight (csf : List Nat) (m : Nat) (A : Finset Nat) : ℚ :=
  ((unreducedUpTo csf (aArr csf) (bArr csf) (fun j => decide (j ∈ A)) m).P : ℚ)
    / ((unreducedUpTo csf (aArr csf) (bArr csf) (fun j => decide (j ∈ A)) m).Q : ℚ)

/-- The recursion `b == 0 ? a : gcd(b, a % b)` with a budget of calls; `none`
when the budget is exhausted before the recursion ends. -/
def gcdOpt : Nat → Int → Int → Option Int
  | 0, _, _ => none
  | fuel + 1, a, b => if b = 0 then some a else gcdOpt fuel b (a.tmod b)

/-- The symbol of the determinant at an orbital with step-vector symbol `ch`:
`0` for unoccupied, `2` for doubly occupied, and for a singly-occupied orbital
`a` if it is assigned alpha and `b` otherwise. -/
def detSymbol (ch : Char) (alpha : Bool) : Char :=
  if ch = '0' then '0' else if ch = '2' then '2' else if alpha then 'a' else 'b'

/-- The index of orbital `i` among the singly-occupied orbitals: the number of
`u` and `d` before position `i` of the orbital sequence. -/
def somoIndex (orb : List Char) (i : Nat) : Nat :=
  (orb.take i).count 'u' + (orb.take i).count 'd'

/-- The argument pairs of the successive calls of `gcd`, within a budget of
calls: the call on `(a, b)`, then, unless `b == 0`, those of `gcd(b, a % b)`.
With a budget above `|b|` the list is complete (theorem `gcdArgs_last`). -/
def gcdArgs : Nat → Int → Int → List (Int × Int)
  | 0, _, _ => []
  | fuel + 1, a, b => (a, b) :: (if b = 0 then [] else gcdArgs fuel b (a.tmod b))

/-! ## Proofs -/

theorem natAbs_tmod (a b : Int) : (a.tmod b).natAbs = a.natAbs % b.natAbs := by
  cases a <;> cases b <;> simp [Int.tmod, Int.natAbs_neg] <;> rfl

theorem gcdAux_budget : ∀ (f g : Nat) (a b : Int), b.natAbs < f → b.natAbs < g →
    gcdAux f a b = gcdAux g a b := by
  intro f
  induction f with
  | zero => intro g a b h; omega
  | succ f ih =>
    intro g a b hf hg
    cases g with
    | zero => omega
    | succ g =>
      simp only [gcdAux]
      by_cases hb : b = 0
      · simp [hb]
      · simp only [hb, if_false]
        have hlt : (a.tmod b).natAbs < b.natAbs := by
          rw [natAbs_tmod]
          exact Nat.mod_lt _ (Int.natAbs_pos.mpr hb)
        exact ih g b (a.tmod b) (by omega) (by omega)

/-- The defining equation of the C function `gcd`. -/
theorem gcd_unfold (a b : Int) : gcd a b = if b = 0 then a else gcd b (a.tmod b) := by
  unfold gcd
  by_cases hb : b = 0
  · simp [hb, gcdAux]
  · simp only [gcdAux, hb, if_false]
    have hlt : (a.tmod b).natAbs < b.natAbs := by
      rw [natAbs_tmod]
      exact Nat.mod_lt _ (Int.natAbs_pos.mpr hb)
    exact gcdAux_budget _ _ _ _ hlt (Nat.lt_succ_self _)

theorem gcdAux_natAbs : ∀ (f : Nat) (a b : Int), b.natAbs < f →
    (gcdAux f a b).natAbs = Nat.gcd a.natAbs b.natAbs := by
  intro f
  induction f with
  | zero => intro a b h; omega
  | succ f ih =>
    intro a b hf
    simp only [gcdAux]
    by_cases hb : b = 0
    · simp [hb]
    · simp only [hb, if_false]
      have hlt : (a.tmod b).natAbs < b.natAbs := by
        rw [natAbs_tmod]
        exact Nat.mod_lt _ (Int.natAbs_pos.mpr hb)
      rw [ih b (a.tmod b) (by omega), natAbs_tmod, Nat.gcd_comm, ← Nat.gcd_rec]
      exact Nat.gcd_comm _ _

theorem gcd_natAbs (a b : Int) : (gcd a b).natAbs = Int.gcd a b := by
  unfold gcd
  rw [gcdAux_natAbs _ _ _ (Nat.lt_succ_self _)]
  rfl

theorem gcd_ne_zero (a b : Int) (ha : a ≠ 0) : gcd a b ≠ 0 := by
  intro h
  have h1 := gcd_natAbs a b
  rw [h] at h1
  have : Int.gcd a b = 0 := by simpa using h1.symm
  rw [Int.gcd_eq_zero_iff] at this
  exact ha this.1

theorem gcd_dvd_left (a b : Int) : gcd a b ∣ a := by
  rw [← Int.natAbs_dvd_natAbs, gcd_natAbs]
  exact Nat.gcd_dvd_left _ _

theorem gcd_dvd_right (a b : Int) : gcd a b ∣ b := by
  rw [← Int.natAbs_dvd_natAbs, gcd_natAbs]
  exact Nat.gcd_dvd_right _ _

theorem simplify_zero (d : Int) : simplify (0, d) = (0, (0, d)) := by
  simp [simplify]

/-- What `simplify` does to a fraction with non-zero numerator: both entries are
divided exactly by a common divisor `g` whose absolute value is the gcd. -/
theorem simplify_spec (n d : Int) (hn : n ≠ 0) :
    ∃ g n1 d1 : Int, simplify (n, d) = (g, (n1, d1)) ∧ g ≠ 0 ∧ g.natAbs = Int.gcd n d ∧
      n = n1 * g ∧ d = d1 * g ∧ n1 ≠ 0 ∧ Int.gcd n1 d1 = 1 := by
  have hg : gcd n d ≠ 0 := gcd_ne_zero n d hn
  have h1 : n = n.tdiv (gcd n d) * gcd n d := (Int.tdiv_mul_cancel (gcd_dvd_left n d)).symm
  have h2 : d = d.tdiv (gcd n d) * gcd n d := (Int.tdiv_mul_cancel (gcd_dvd_right n d)).symm
  refine ⟨gcd n d, n.tdiv (gcd n d), d.tdiv (gcd n d), ?_, hg, gcd_natAbs n d, h1, h2, ?_, ?_⟩
  · simp [simplify, hn]
  · intro h
    rw [h] at h1
    simp at h1
    exact hn h1
  · have hpos : 0 < (gcd n d).natAbs := Int.natAbs_pos.mpr hg
    have key : Int.gcd (n.tdiv (gcd n d) * gcd n d) (d.tdiv (gcd n d) * gcd n d)
        = Int.gcd (n.tdiv (gcd n d)) (d.tdiv (gcd n d)) * (gcd n d).natAbs :=
      Int.gcd_mul_right _ _ _
    rw [← h1, ← h2, ← gcd_natAbs] at key
    have h3 : Int.gcd (n.tdiv (gcd n d)) (d.tdiv (gcd n d)) * (gcd n d).natAbs
        = 1 * (gcd n d).natAbs := by omega
    exact Nat.eq_of_mul_eq_mul_right hpos h3

theorem searchBack_cons (n k : Int) (x : Nat) (rest : List Nat) (p : Nat) :
    searchBack ⟨n, k, x :: rest⟩ (p + 1) =
      match searchBack ⟨n, k - 1, rest⟩ p with
      | 0 => if (x : Int) = n - k then 0 else 1
      | q + 1 => q + 2 := by
  induction p with
  | zero => simp [searchBack]
  | succ p ih =>
    rw [searchBack]
    conv_rhs => rw [searchBack]
    have hc : (((x :: rest).getD (p + 1) 0 : Nat) : Int) = n - k + ((p + 1 : Nat) : Int) ↔
        ((rest.getD p 0 : Nat) : Int) = n - (k - 1) + (p : Int) := by
      simp only [List.getD_cons_succ]
      push_cast
      constructor <;> intro h <;> linarith
    by_cases h : ((rest.getD p 0 : Nat) : Int) = n - (k - 1) + (p : Int)
    · simp only [kCn.lex, kCn.n, kCn.k] at *
      rw [if_pos (hc.mpr h), if_pos h, ih]
    · simp only [kCn.lex, kCn.n, kCn.k] at *
      rw [if_neg (fun h2 => h (hc.mp h2)), if_neg h]

theorem resetTail_cons (ptr : Nat) (x : Nat) : ∀ (cnt i : Nat) (l : List Nat),
    resetTail (ptr + 1) cnt i (x :: l) = x :: resetTail ptr cnt i l := by
  intro cnt
  induction cnt with
  | zero => intro i l; rfl
  | succ cnt ih =>
    intro i l
    simp only [resetTail]
    have h1 : ptr + 1 + i = (ptr + i) + 1 := by omega
    rw [h1, List.getD_cons_succ, List.set_cons_succ, ih]

theorem set_length_append (pre : List Nat) (y z : Nat) (l : List Nat) :
    (pre ++ y :: l).set pre.length z = pre ++ z :: l := by
  induction pre with
  | nil => rfl
  | cons a pre ih => simp [ih]

theorem resetTail_zero (w : Nat) : ∀ (cnt : Nat) (pre l : List Nat), l.length = cnt →
    resetTail 0 cnt (pre.length + 1) (w :: pre ++ l) =
      w :: pre ++ List.range' (w + (pre.length + 1)) cnt := by
  intro cnt
  induction cnt with
  | zero =>
    intro pre l hl
    have : l = [] := List.length_eq_zero.mp hl
    subst this
    simp [resetTail]
  | succ cnt ih =>
    intro pre l hl
    cases l with
    | nil => simp at hl
    | cons y l =>
      simp only [List.length_cons, Nat.add_right_cancel_iff] at hl
      simp only [resetTail]
      have h0 : (w :: pre ++ y :: l).getD 0 0 = w := by simp
      have h1 : (w :: pre ++ y :: l).set (0 + (pre.length + 1)) (w + (pre.length + 1))
          = w :: (pre ++ [w + (pre.length + 1)]) ++ l := by
        have := set_length_append (w :: pre) y (w + (pre.length + 1)) l
        simp only [List.length_cons] at this
        rw [Nat.zero_add]
        simp
      rw [h0, h1]
      have h2 := ih (pre ++ [w + (pre.length + 1)]) l hl
      simp only [List.length_append, List.length_singleton] at h2
      rw [h2]
      simp [List.range'_succ, Nat.add_assoc]

theorem head_bound (n : Nat) : ∀ (s : List Nat) (x : Nat), (x :: s).Pairwise (· < ·) →
    (∀ y ∈ x :: s, y < n) → x + s.length + 1 ≤ n := by
  intro s
  induction s with
  | nil =>
    intro x _ hb
    have := hb x (List.mem_cons_self _ _)
    simp; omega
  | cons y s ih =>
    intro x hp hb
    have hxy : x < y := (List.pairwise_cons.mp hp).1 y (List.mem_cons_self _ _)
    have := ih y (List.pairwise_cons.mp hp).2 (fun z hz => hb z (List.mem_cons_of_mem _ hz))
    simp only [List.length_cons]
    omega

/-- On a strictly increasing sequence below `n` the array code of `combination`
computes `nextComb`. -/
theorem combination_eq_nextComb (n : Nat) : ∀ (s : List Nat), s.Pairwise (· < ·) →
    (∀ y ∈ s, y < n) →
    combination ⟨n, s.length, s⟩ =
      match nextComb n s with
      | some s' => (1, ⟨n, s.length, s'⟩)
      | none => (0, ⟨n, s.length, s⟩) := by
  intro s
  induction s with
  | nil => intro _ _; simp [combination, searchBack, nextComb]
  | cons x rest ih =>
    intro hp hb
    have ih' := ih (List.pairwise_cons.mp hp).2 (fun z hz => hb z (List.mem_cons_of_mem _ hz))
    have hhead := head_bound n rest x hp hb
    have hk : (((x :: rest).length : Nat) : Int) - 1 = (rest.length : Int) := by
      simp
    have hsb := searchBack_cons n ((x :: rest).length : Nat) x rest rest.length
    rw [hk] at hsb
    unfold combination at ih' ⊢
    simp only [Int.toNat_ofNat, List.length_cons] at ih' ⊢
    simp only [List.length_cons] at hsb
    rw [hsb]
    cases hq : searchBack ⟨n, rest.length, rest⟩ rest.length with
    | zero =>
      rw [hq] at ih'
      simp only at ih'
      cases hn : nextComb n rest with
      | some r => rw [hn] at ih'; simp at ih'
      | none =>
        simp only [nextComb, hn]
        by_cases hx : x + rest.length + 1 < n
        · have hne : ¬ ((x : Int) = (n : Int) - ((rest.length + 1 : Nat) : Int)) := by
            push_cast; omega
          simp only [hne, if_false, hx, if_true]
          have h3 := resetTail_zero (x + 1) rest.length [] rest rfl
          simp only [List.length_nil, List.nil_append, Nat.zero_add, List.cons_append] at h3
          simp only [List.set_cons_zero, List.getD_cons_zero, Nat.sub_zero, Nat.add_sub_cancel]
          rw [h3]
          simp [List.range'_succ]
        · have he : (x : Int) = (n : Int) - ((rest.length + 1 : Nat) : Int) := by
            push_cast; omega
          simp only [he, if_true, hx, if_false]
    | succ q =>
      rw [hq] at ih'
      simp only at ih'
      cases hn : nextComb n rest with
      | none => rw [hn] at ih'; simp at ih'
      | some r =>
        rw [hn] at ih'
        simp only [nextComb, hn]
        simp only [List.getD_cons_succ, List.set_cons_succ]
        have h5 : rest.length + 1 - (q + 1) - 1 = rest.length - q - 1 := by omega
        rw [h5, resetTail_cons]
        simp only [Prod.mk.injEq, kCn.mk.injEq, true_and] at ih' ⊢
        rw [ih']

theorem lex_rel {x y : Nat} (h : x < y) (l1 l2 : List Nat) : x :: l1 < y :: l2 :=
  List.Lex.rel h

theorem lex_cons {x : Nat} {l1 l2 : List Nat} (h : l1 < l2) : x :: l1 < x :: l2 :=
  List.Lex.cons h

theorem lex_cases {x y : Nat} {l1 l2 : List Nat} (h : x :: l1 < y :: l2) :
    x < y ∨ (x = y ∧ l1 < l2) := by
  cases h with
  | cons h => exact Or.inr ⟨rfl, h⟩
  | rel h => exact Or.inl h

/-- The sequence `lo, lo+1, ...` is the least strictly increasing sequence of
its length with entries from `lo` on. -/
theorem range'_le_of_inc : ∀ (t : List Nat) (lo : Nat), t.Pairwise (· < ·) →
    (∀ y ∈ t, lo ≤ y) → List.range' lo t.length ≤ t := by
  intro t
  induction t with
  | nil => intro lo _ _; simp
  | cons y t ih =>
    intro lo hp hlo
    have hy : lo ≤ y := hlo y (List.mem_cons_self _ _)
    simp only [List.length_cons, List.range'_succ]
    rcases Nat.lt_or_eq_of_le hy with h | h
    · exact le_of_lt (lex_rel h _ _)
    · subst h
      apply List.cons_le_cons
      apply ih (lo + 1) (List.pairwise_cons.mp hp).2
      intro z hz
      exact (List.pairwise_cons.mp hp).1 z hz

/-- Every strictly increasing sequence below `n` is at most the last one. -/
theorem le_lastComb (n : Nat) : ∀ (t : List Nat), t.Pairwise (· < ·) → (∀ y ∈ t, y < n) →
    t ≤ lastComb n t.length := by
  intro t
  induction t with
  | nil => intro _ _; simp [lastComb]
  | cons x t ih =>
    intro hp hb
    have hh := head_bound n t x hp hb
    have ih' := ih (List.pairwise_cons.mp hp).2 (fun z hz => hb z (List.mem_cons_of_mem _ hz))
    unfold lastComb at ih' ⊢
    simp only [List.length_cons, List.range'_succ]
    rcases Nat.lt_or_ge x (n - (t.length + 1)) with h | h
    · exact le_of_lt (lex_rel h _ _)
    · have hx : x = n - (t.length + 1) := by omega
      have h2 : n - (t.length + 1) + 1 = n - t.length := by omega
      rw [← hx] at h2 ⊢
      rw [h2]
      exact List.cons_le_cons _ ih'

theorem nextComb_none (n : Nat) : ∀ (s : List Nat), s.Pairwise (· < ·) → (∀ y ∈ s, y < n) →
    nextComb n s = none → s = lastComb n s.length := by
  intro s
  induction s with
  | nil => intro _ _ _; simp [lastComb]
  | cons x rest ih =>
    intro hp hb hn
    have hh := head_bound n rest x hp hb
    simp only [nextComb] at hn
    cases hr : nextComb n rest with
    | some r => rw [hr] at hn; simp at hn
    | none =>
      rw [hr] at hn
      simp only [ite_eq_right_iff, reduceCtorEq, imp_false, not_lt] at hn
      have ih' := ih (List.pairwise_cons.mp hp).2 (fun z hz => hb z (List.mem_cons_of_mem _ hz)) hr
      unfold lastComb at ih' ⊢
      simp only [List.length_cons, List.range'_succ]
      have hx : x = n - (rest.length + 1) := by omega
      have h2 : n - (rest.length + 1) + 1 = n - rest.length := by omega
      rw [h2, ← hx, ← ih']

/-- The successor computed by `nextComb`: a strictly increasing sequence of the
same length below `n`, greater than `s`, and least among those. -/
theorem nextComb_some (n : Nat) : ∀ (s s' : List Nat), s.Pairwise (· < ·) → (∀ y ∈ s, y < n) →
    nextComb n s = some s' →
    s'.length = s.length ∧ s'.Pairwise (· < ·) ∧ (∀ y ∈ s', y < n) ∧ s < s' ∧
    (∀ lo, (∀ y ∈ s, lo ≤ y) → ∀ y ∈ s', lo ≤ y) ∧
    (∀ t : List Nat, t.Pairwise (· < ·) → (∀ y ∈ t, y < n) → t.length = s.length →
      s < t → s' ≤ t) := by
  intro s
  induction s with
  | nil => intro s' _ _ h; simp [nextComb] at h
  | cons x rest ih =>
    intro s' hp hb hn
    have hh := head_bound n rest x hp hb
    have hp2 := (List.pairwise_cons.mp hp).2
    have hp1 := (List.pairwise_cons.mp hp).1
    have hb2 : ∀ z ∈ rest, z < n := fun z hz => hb z (List.mem_cons_of_mem _ hz)
    simp only [nextComb] at hn
    cases hr : nextComb n rest with
    | some r =>
      rw [hr] at hn
      simp only [Option.some.injEq] at hn
      subst hn
      obtain ⟨hl, hrp, hrb, hlt, hlo, hmin⟩ := ih r hp2 hb2 hr
      refine ⟨by simp [hl], ?_, ?_, lex_cons hlt, ?_, ?_⟩
      · rw [List.pairwise_cons]
        refine ⟨?_, hrp⟩
        intro y hy
        exact hlo (x + 1) (fun z hz => hp1 z hz) y hy
      · intro y hy
        rcases List.mem_cons.mp hy with h | h
        · subst h; exact hb _ (List.mem_cons_self _ _)
        · exact hrb y h
      · intro lo hlo' y hy
        rcases List.mem_cons.mp hy with h | h
        · subst h; exact hlo' _ (List.mem_cons_self _ _)
        · exact hlo lo (fun z hz => hlo' z (List.mem_cons_of_mem _ hz)) y h
      · intro t htp htb htl hst
        cases t with
        | nil => simp at htl
        | cons y t =>
          rcases lex_cases hst with h | ⟨h, h2⟩
          · exact le_of_lt (lex_rel h _ _)
          · subst h
            apply List.cons_le_cons
            apply hmin t (List.pairwise_cons.mp htp).2
              (fun z hz => htb z (List.mem_cons_of_mem _ hz)) _ h2
            simpa using htl
    | none =>
      rw [hr] at hn
      by_cases hx : x + rest.length + 1 < n
      · simp only [hx, if_true, Option.some.injEq] at hn
        subst hn
        refine ⟨by simp, List.pairwise_lt_range' _ _, ?_, ?_, ?_, ?_⟩
        · intro y hy
          rw [List.mem_range'_1] at hy
          omega
        · rw [List.range'_succ]
          exact lex_rel (Nat.lt_succ_self x) _ _
        · intro lo hlo' y hy
          rw [List.mem_range'_1] at hy
          have := hlo' x (List.mem_cons_self _ _)
          omega
        · intro t htp htb htl hst
          cases t with
          | nil => simp at htl
          | cons y t =>
            rcases lex_cases hst with h | ⟨h, h2⟩
            · have hlen : rest.length + 1 = (y :: t).length := by simpa using htl.symm
              rw [hlen]
              apply range'_le_of_inc (y :: t) (x + 1) htp
              intro z hz
              rcases List.mem_cons.mp hz with h3 | h3
              · subst h3; exact h
              · have := (List.pairwise_cons.mp htp).1 z h3
                omega
            · exfalso
              have hlast := nextComb_none n rest hp2 hb2 hr
              have hle := le_lastComb n t (List.pairwise_cons.mp htp).2
                (fun z hz => htb z (List.mem_cons_of_mem _ hz))
              have hl2 : t.length = rest.length := by simpa using htl
              rw [hl2, ← hlast] at hle
              exact absurd h2 (not_lt.mpr hle)
      · simp [hx] at hn

theorem nextComb_lastComb (n k : Nat) (hk : k ≤ n) : nextComb n (lastComb n k) = none := by
  have hp : (lastComb n k).Pairwise (· < ·) := List.pairwise_lt_range' _ _
  have hb : ∀ y ∈ lastComb n k, y < n := by
    intro y hy
    unfold lastComb at hy
    rw [List.mem_range'_1] at hy
    omega
  cases h : nextComb n (lastComb n k) with
  | none => rfl
  | some s' =>
    exfalso
    obtain ⟨hl, hsp, hsb, hlt, _, _⟩ := nextComb_some n _ s' hp hb h
    have hle := le_lastComb n s' hsp hsb
    rw [hl] at hle
    have hlen : (lastComb n k).length = k := by simp [lastComb]
    rw [hlen] at hle
    exact absurd hlt (not_lt.mpr hle)

theorem isComb_iff_mem (n k : Nat) (s : List Nat) :
    IsComb n k s ↔ s ∈ List.sublistsLen k (List.range n) := by
  rw [List.mem_sublistsLen]
  constructor
  · rintro ⟨hl, hp, hb⟩
    refine ⟨?_, hl⟩
    have hnd : s.Nodup := hp.imp (fun h => Nat.ne_of_lt h)
    have hsub : s ⊆ List.range n := fun x hx => List.mem_range.mpr (hb x hx)
    have hperm := List.subperm_of_subset hnd hsub
    have hs1 : s.Sorted (· ≤ ·) := hp.imp (fun h => Nat.le_of_lt h)
    have hs2 : (List.range n).Sorted (· ≤ ·) :=
      (List.pairwise_lt_range n).imp (fun h => Nat.le_of_lt h)
    exact List.sublist_of_subperm_of_sorted hperm hs1 hs2
  · rintro ⟨hsub, hl⟩
    refine ⟨hl, List.Pairwise.sublist hsub (List.pairwise_lt_range n), ?_⟩
    intro x hx
    exact List.mem_range.mp (hsub.subset hx)

theorem isComb_first (n k : Nat) (hk : k ≤ n) : IsComb n k (List.range k) := by
  refine ⟨List.length_range k, List.pairwise_lt_range k, ?_⟩
  intro x hx
  have := List.mem_range.mp hx
  omega

theorem isComb_last (n k : Nat) (hk : k ≤ n) : IsComb n k (lastComb n k) := by
  refine ⟨by simp [lastComb], List.pairwise_lt_range' _ _, ?_⟩
  intro y hy
  unfold lastComb at hy
  rw [List.mem_range'_1] at hy
  omega

theorem first_le (n k : Nat) (t : List Nat) (ht : IsComb n k t) : List.range k ≤ t := by
  have := range'_le_of_inc t 0 ht.2.1 (fun _ _ => Nat.zero_le _)
  rw [ht.1, ← List.range_eq_range'] at this
  exact this

/-- One iteration of the loop on a combination: what `combination` returns. -/
theorem doWhile_step {β : Type} (body : List Nat → List β) (n k : Nat) (s : List Nat)
    (hs : IsComb n k s) (fuel : Nat) :
    doWhile body n k (fuel + 1) s =
      match nextComb n s with
      | some s' => (doWhile body n k fuel s').map (fun rest => body s ++ rest)
      | none => some (body s) := by
  have h := combination_eq_nextComb n s hs.2.1 hs.2.2
  rw [hs.1] at h
  simp only [doWhile]
  rw [h]
  cases nextComb n s with
  | none => simp
  | some s' => simp

/-- The loop with an arbitrary body prints the bodies of the visited states. -/
theorem doWhile_body {β : Type} (body : List Nat → List β) (n k : Int) :
    ∀ (fuel : Nat) (s : List Nat),
    doWhile body n k fuel s =
      (doWhile (fun l => [l]) n k fuel s).map (fun L => L.flatMap body) := by
  intro fuel
  induction fuel with
  | zero => intro s; simp [doWhile]
  | succ fuel ih =>
    intro s
    simp only [doWhile]
    split
    · rw [ih]
      cases doWhile (fun l => [l]) n k fuel (combination ⟨n, k, s⟩).2.lex with
      | none => simp
      | some L => simp
    · simp

/-- Starting at a combination `s` the loop visits, in increasing order, exactly
the combinations from `s` on, and stops at the last one. -/
theorem doWhile_from (n k : Nat) : ∀ (m : Nat) (s : List Nat), IsComb n k s →
    (((List.sublistsLen k (List.range n)).toFinset.filter (fun t => s < t)).card ≤ m) →
    ∃ L : List (List Nat),
      (∀ fuel, L.length ≤ fuel → doWhile (fun l => [l]) n k fuel s = some L) ∧
      L.head? = some s ∧ L.Pairwise (· < ·) ∧
      (∀ t, t ∈ L ↔ IsComb n k t ∧ s ≤ t) ∧
      L.getLast? = some (lastComb n k) := by
  intro m
  induction m with
  | zero =>
    intro s hs hm
    cases hn : nextComb n s with
    | none =>
      have hlast := nextComb_none n s hs.2.1 hs.2.2 hn
      rw [hs.1] at hlast
      refine ⟨[s], ?_, rfl, List.pairwise_singleton _ _, ?_, by simp [hlast]⟩
      · intro fuel hf
        cases fuel with
        | zero => simp at hf
        | succ fuel => rw [doWhile_step _ n k s hs, hn]
      · intro t
        simp only [List.mem_singleton]
        constructor
        · rintro rfl; exact ⟨hs, le_refl _⟩
        · rintro ⟨ht, hle⟩
          have h2 := le_lastComb n t ht.2.1 ht.2.2
          rw [ht.1, ← hlast] at h2
          exact le_antisymm h2 hle
    | some s' =>
      exfalso
      obtain ⟨hl, hp, hb, hlt, _, _⟩ := nextComb_some n s s' hs.2.1 hs.2.2 hn
      have hs' : IsComb n k s' := ⟨by rw [hl, hs.1], hp, hb⟩
      have hmem : s' ∈ (List.sublistsLen k (List.range n)).toFinset.filter (fun t => s < t) := by
        rw [Finset.mem_filter, List.mem_toFinset, ← isComb_iff_mem]
        exact ⟨hs', hlt⟩
      have := Finset.card_pos.mpr ⟨s', hmem⟩
      omega
  | succ m ih =>
    intro s hs hm
    cases hn : nextComb n s with
    | none =>
      have hlast := nextComb_none n s hs.2.1 hs.2.2 hn
      rw [hs.1] at hlast
      refine ⟨[s], ?_, rfl, List.pairwise_singleton _ _, ?_, by simp [hlast]⟩
      · intro fuel hf
        cases fuel with
        | zero => simp at hf
        | succ fuel => rw [doWhile_step _ n k s hs, hn]
      · intro t
        simp only [List.mem_singleton]
        constructor
        · rintro rfl; exact ⟨hs, le_refl _⟩
        · rintro ⟨ht, hle⟩
          have h2 := le_lastComb n t ht.2.1 ht.2.2
          rw [ht.1, ← hlast] at h2
          exact le_antisymm h2 hle
    | some s' =>
      obtain ⟨hl, hp, hb, hlt, _, hmin⟩ := nextComb_some n s s' hs.2.1 hs.2.2 hn
      have hs' : IsComb n k s' := ⟨by rw [hl, hs.1], hp, hb⟩
      have hmem : s' ∈ (List.sublistsLen k (List.range n)).toFinset.filter (fun t => s < t) := by
        rw [Finset.mem_filter, List.mem_toFinset, ← isComb_iff_mem]
        exact ⟨hs', hlt⟩
      have hss : (List.sublistsLen k (List.range n)).toFinset.filter (fun t => s' < t) ⊂
          (List.sublistsLen k (List.range n)).toFinset.filter (fun t => s < t) := by
        rw [Finset.ssubset_iff_of_subset]
        · refine ⟨s', hmem, ?_⟩
          rw [Finset.mem_filter]
          exact fun h => lt_irrefl _ h.2
        · intro t ht
          rw [Finset.mem_filter] at ht ⊢
          exact ⟨ht.1, lt_trans hlt ht.2⟩
      have hcard := Finset.card_lt_card hss
      obtain ⟨L, hrun, hhead, hpw, hmemL, hlastL⟩ := ih s' hs' (by omega)
      have hne : L ≠ [] := by
        intro h; rw [h] at hhead; simp at hhead
      refine ⟨s :: L, ?_, rfl, ?_, ?_, ?_⟩
      · intro fuel hf
        cases fuel with
        | zero => simp at hf
        | succ fuel =>
          rw [doWhile_step _ n k s hs, hn]
          simp only
          rw [hrun fuel (by simpa using hf)]
          simp
      · rw [List.pairwise_cons]
        refine ⟨?_, hpw⟩
        intro t ht
        exact lt_of_lt_of_le hlt ((hmemL t).mp ht).2
      · intro t
        rw [List.mem_cons, hmemL]
        constructor
        · rintro (rfl | ⟨ht, hle⟩)
          · exact ⟨hs, le_refl _⟩
          · exact ⟨ht, le_of_lt (lt_of_lt_of_le hlt hle)⟩
        · rintro ⟨ht, hle⟩
          rcases eq_or_lt_of_le hle with h | h
          · exact Or.inl h.symm
          · exact Or.inr ⟨ht, hmin t ht.2.1 ht.2.2 (by rw [ht.1, hs.1]) h⟩
      · cases L with
        | nil => exact absurd rfl hne
        | cons y L' => rw [List.getLast?_cons_cons]; exact hlastL

/-- The states visited by the loop from the first combination. -/
theorem doWhile_visits (n k : Nat) (hk : k ≤ n) :
    ∃ L : List (List Nat),
      (∀ fuel, Nat.choose n k ≤ fuel →
        doWhile (fun l => [l]) n k fuel (List.range k) = some L) ∧
      L.length = Nat.choose n k ∧ L.Nodup ∧ (∀ s, s ∈ L ↔ IsComb n k s) ∧
      L.Pairwise (· < ·) ∧
      L.head? = some (List.range k) ∧ L.getLast? = some (lastComb n k) := by
  obtain ⟨L, hrun, hhead, hpw, hmem, hlast⟩ :=
    doWhile_from n k _ (List.range k) (isComb_first n k hk) (le_refl _)
  have hmem' : ∀ s, s ∈ L ↔ IsComb n k s := by
    intro s
    rw [hmem]
    exact ⟨fun h => h.1, fun h => ⟨h, first_le n k s h⟩⟩
  have hnd : L.Nodup := hpw.imp (fun h => ne_of_lt h)
  have hperm : L.Perm (List.sublistsLen k (List.range n)) := by
    rw [List.perm_ext_iff_of_nodup hnd (List.nodup_sublistsLen k (List.nodup_range n))]
    intro s
    rw [hmem', isComb_iff_mem]
  have hlen : L.length = Nat.choose n k := by
    rw [hperm.length_eq, List.length_sublistsLen, List.length_range]
  refine ⟨L, ?_, hlen, hnd, hmem', hpw, hhead, hlast⟩
  intro fuel hf
  exact hrun fuel (by omega)

/-- Claim C2.  For `0 ≤ k ≤ n`, the loop `do ... while (combination (&comb))`
started at `{0,...,k-1}` terminates (any budget of at least `C(n,k)` iterations
is enough) and visits exactly `C(n,k)` states, pairwise distinct, which are
exactly the strictly increasing sequences of `k` indices in `[0,n)`, in
lexicographic order; the first is `{0,...,k-1}` and the last is `{n-k,...,n-1}`.
For `k = 0` and for `k = n` exactly one state is visited. -/
theorem enumeration_complete (n k : Nat) (hk : k ≤ n) :
    ∃ L : List (List Nat),
      (∀ fuel, Nat.choose n k ≤ fuel →
        doWhile (fun l => [l]) (n : Int) (k : Int) fuel (List.range k) = some L) ∧
      L.length = Nat.choose n k ∧ L.Nodup ∧ (∀ s, s ∈ L ↔ IsComb n k s) ∧
      L.Pairwise (List.Lex (· < ·)) ∧
      L.head? = some (List.range k) ∧ L.getLast? = some (lastComb n k) ∧
      ((k = 0 ∨ k = n) → L.length = 1) := by
  obtain ⟨L, hrun, hlen, hnd, hmem, hpw, hhead, hlast⟩ := doWhile_visits n k hk
  refine ⟨L, hrun, hlen, hnd, hmem, hpw, hhead, hlast, ?_⟩
  rintro (rfl | rfl)
  · rw [hlen, Nat.choose_zero_right]
  · rw [hlen, Nat.choose_self]

/-- The theorem `enumeration_complete` at a concrete input. -/
theorem enumeration_complete_witness :
    2 ≤ 4 ∧ ∃ L : List (List Nat),
      (∀ fuel, Nat.choose 4 2 ≤ fuel →
        doWhile (fun l => [l]) ((4 : Nat) : Int) ((2 : Nat) : Int) fuel (List.range 2) = some L) ∧
      L.length = Nat.choose 4 2 ∧ L.Nodup ∧ (∀ s, s ∈ L ↔ IsComb 4 2 s) ∧
      L.Pairwise (List.Lex (· < ·)) ∧
      L.head? = some (List.range 2) ∧ L.getLast? = some (lastComb 4 2) ∧
      (((2 : Nat) = 0 ∨ (2 : Nat) = 4) → L.length = 1) :=
  ⟨by decide, enumeration_complete 4 2 (by decide)⟩

/-- Claim C3.  On a strictly increasing sequence `s` of `k` indices in `[0,n)`:
if `s` is not `{n-k,...,n-1}` then `combination` returns 1 and replaces `s` by
a strictly increasing `k`-sequence `s'` in `[0,n)` that is lexicographically
greater than `s` and at most every such sequence greater than `s` (so none lies
strictly between); if `s` is `{n-k,...,n-1}` it returns 0 and leaves `s`
unchanged. -/
theorem combination_lex_successor (n k : Nat) (s : List Nat) (hs : IsComb n k s) :
    (s ≠ lastComb n k →
      ∃ s', combination ⟨(n : Int), (k : Int), s⟩ = (1, ⟨(n : Int), (k : Int), s'⟩) ∧
        IsComb n k s' ∧ List.Lex (· < ·) s s' ∧
        (∀ t, IsComb n k t → List.Lex (· < ·) s t → t = s' ∨ List.Lex (· < ·) s' t) ∧
        (∀ t, IsComb n k t → ¬ (List.Lex (· < ·) s t ∧ List.Lex (· < ·) t s'))) ∧
    (s = lastComb n k →
      combination ⟨(n : Int), (k : Int), s⟩ = (0, ⟨(n : Int), (k : Int), s⟩)) := by
  have h := combination_eq_nextComb n s hs.2.1 hs.2.2
  rw [hs.1] at h
  constructor
  · intro hne
    cases hn : nextComb n s with
    | none =>
      have := nextComb_none n s hs.2.1 hs.2.2 hn
      rw [hs.1] at this
      exact absurd this hne
    | some s' =>
      rw [hn] at h
      obtain ⟨hl, hp, hb, hlt, _, hmin⟩ := nextComb_some n s s' hs.2.1 hs.2.2 hn
      have hmin' : ∀ t, IsComb n k t → s < t → s' ≤ t :=
        fun t ht hst => hmin t ht.2.1 ht.2.2 (by rw [ht.1, hs.1]) hst
      refine ⟨s', h, ⟨by rw [hl, hs.1], hp, hb⟩, hlt, ?_, ?_⟩
      · intro t ht hst
        rcases eq_or_lt_of_le (hmin' t ht hst) with h2 | h2
        · exact Or.inl h2.symm
        · exact Or.inr h2
      · rintro t ht ⟨hst, hts⟩
        exact absurd hts (not_lt.mpr (hmin' t ht hst))
  · intro he
    cases hn : nextComb n s with
    | none => rw [hn] at h; exact h
    | some s' =>
      exfalso
      obtain ⟨hl, hp, hb, hlt, _, _⟩ := nextComb_some n s s' hs.2.1 hs.2.2 hn
      have hle := le_lastComb n s' hp hb
      rw [hl, hs.1, ← he] at hle
      exact absurd hlt (not_lt.mpr hle)

/-- The theorem `combination_lex_successor` at a concrete input. -/
theorem combination_lex_successor_witness :
    IsComb 5 3 [0, 3, 4] ∧
    (([0, 3, 4] : List Nat) ≠ lastComb 5 3 →
      ∃ s', combination ⟨((5 : Nat) : Int), ((3 : Nat) : Int), [0, 3, 4]⟩
          = (1, ⟨((5 : Nat) : Int), ((3 : Nat) : Int), s'⟩) ∧
        IsComb 5 3 s' ∧ List.Lex (· < ·) [0, 3, 4] s' ∧
        (∀ t, IsComb 5 3 t → List.Lex (· < ·) [0, 3, 4] t → t = s' ∨ List.Lex (· < ·) s' t) ∧
        (∀ t, IsComb 5 3 t → ¬ (List.Lex (· < ·) [0, 3, 4] t ∧ List.Lex (· < ·) t s'))) ∧
    (([0, 3, 4] : List Nat) = lastComb 5 3 →
      combination ⟨((5 : Nat) : Int), ((3 : Nat) : Int), [0, 3, 4]⟩
        = (0, ⟨((5 : Nat) : Int), ((3 : Nat) : Int), [0, 3, 4]⟩)) :=
  ⟨by decide, combination_lex_successor 5 3 [0, 3, 4] (by decide)⟩

/-! ### The two loops over the characters -/

theorem countMo_foldl (s : List Char) : ∀ acc : Nat,
    s.foldl (fun n_mo ch => if ch ≠ ' ' then n_mo + 1 else n_mo) acc
      = acc + (orbitalSymbols s).length := by
  induction s with
  | nil => intro acc; simp [orbitalSymbols]
  | cons ch s ih =>
    intro acc
    simp only [List.foldl_cons, ih, orbitalSymbols]
    by_cases h : ch = ' '
    · simp [h]
    · simp [h]; omega

theorem countMo_eq (s : List Char) : countMo s = (orbitalSymbols s).length := by
  unfold countMo
  rw [countMo_foldl]
  simp

theorem parseLoop_valid (s : List Char) (hv : ∀ ch ∈ s, validSymbol ch = true) :
    ∀ (csf : List Nat) (ns nd : Nat),
    parseLoop s csf ns nd = .ok (csf ++ (orbitalSymbols s).map codeOf,
      ns + (orbitalSymbols s).countP (fun ch => ch == 'u' || ch == 'd'),
      nd + (orbitalSymbols s).countP (fun ch => ch == '2')) := by
  induction s with
  | nil => intro csf ns nd; simp [parseLoop, orbitalSymbols]
  | cons ch s ih =>
    intro csf ns nd
    have hs := ih (fun c hc => hv c (List.mem_cons_of_mem _ hc))
    have hch := hv ch (List.mem_cons_self _ _)
    simp only [validSymbol, Bool.or_eq_true, beq_iff_eq] at hch
    rcases hch with (((h | h) | h) | h) | h <;> subst h <;>
      simp [parseLoop, hs, orbitalSymbols, codeOf, List.countP_cons] <;> omega

theorem parseLoop_invalid (pre post : List Char) (c : Char)
    (hpre : ∀ ch ∈ pre, validSymbol ch = true) (hc : validSymbol c = false) :
    ∀ (csf : List Nat) (ns nd : Nat), parseLoop (pre ++ c :: post) csf ns nd = .error c := by
  induction pre with
  | nil =>
    intro csf ns nd
    simp only [validSymbol, Bool.or_eq_false_iff, beq_eq_false_iff_ne, ne_eq] at hc
    obtain ⟨⟨⟨⟨h0, h1⟩, h2⟩, h3⟩, h4⟩ := hc
    simp [parseLoop, h0, h1, h2, h3, h4]
  | cons ch pre ih =>
    intro csf ns nd
    have hs := ih (fun c hc => hpre c (List.mem_cons_of_mem _ hc))
    have hch := hpre ch (List.mem_cons_self _ _)
    simp only [validSymbol, Bool.or_eq_true, beq_iff_eq] at hch
    rcases hch with (((h | h) | h) | h) | h <;> subst h <;>
      simp [parseLoop, hs]

/-- Either all characters are valid symbols, or there is a first one that is not. -/
theorem valid_or_first_invalid (s : List Char) :
    (∀ ch ∈ s, validSymbol ch = true) ∨
    ∃ pre c post, s = pre ++ c :: post ∧ (∀ ch ∈ pre, validSymbol ch = true) ∧
      validSymbol c = false := by
  induction s with
  | nil => left; simp
  | cons ch s ih =>
    by_cases h : validSymbol ch = true
    · rcases ih with h2 | ⟨pre, c, post, h2, h3, h4⟩
      · left
        intro x hx
        rcases List.mem_cons.mp hx with rfl | hx
        · exact h
        · exact h2 x hx
      · right
        refine ⟨ch :: pre, c, post, by simp [h2], ?_, h4⟩
        intro x hx
        rcases List.mem_cons.mp hx with rfl | hx
        · exact h
        · exact h3 x hx
    · right
      exact ⟨[], ch, s, rfl, by simp, by simpa using h⟩

theorem csfOf_valid (s : List Char) (hv : ∀ ch ∈ s, validSymbol ch = true) :
    csfOf s = (orbitalSymbols s).map codeOf := by
  simp [csfOf, parseLoop_valid s hv]

theorem nSomoOf_valid (s : List Char) (hv : ∀ ch ∈ s, validSymbol ch = true) :
    nSomoOf s = (orbitalSymbols s).countP (fun ch => ch == 'u' || ch == 'd') := by
  simp [nSomoOf, parseLoop_valid s hv]

theorem orbitalSymbols_valid (s : List Char) (hv : ∀ ch ∈ s, validSymbol ch = true) :
    ∀ ch ∈ orbitalSymbols s, ch = '0' ∨ ch = 'u' ∨ ch = 'd' ∨ ch = '2' := by
  intro ch hch
  simp only [orbitalSymbols, List.mem_filter, bne_iff_ne, ne_eq] at hch
  have := hv ch hch.1
  simp only [validSymbol, Bool.or_eq_true, beq_iff_eq] at this
  tauto

/-- Counting a code in the image of a list of orbital symbols is counting the
symbol. -/
theorem count_codeOf (p : List Char)
    (hp : ∀ ch ∈ p, ch = '0' ∨ ch = 'u' ∨ ch = 'd' ∨ ch = '2') :
    (p.map codeOf).count 0 = p.count '0' ∧ (p.map codeOf).count 1 = p.count 'u' ∧
    (p.map codeOf).count 2 = p.count 'd' ∧ (p.map codeOf).count 3 = p.count '2' := by
  induction p with
  | nil => simp
  | cons ch p ih =>
    have ih' := ih (fun c hc => hp c (List.mem_cons_of_mem _ hc))
    obtain ⟨i0, i1, i2, i3⟩ := ih'
    rcases hp ch (List.mem_cons_self _ _) with h | h | h | h <;> subst h <;>
      simp [codeOf, List.count_cons, i0, i1, i2, i3]

/-! ### The Paldus table -/

theorem paldusUpdate_eq (c : Nat) (prev : Int × Int × Int) :
    paldusUpdate c prev = (prev.1 + (tally [c]).1, prev.2.1 + (tally [c]).2.1,
      prev.2.2 + (tally [c]).2.2) := by
  match c with
  | 0 => simp [paldusUpdate, tally]
  | 1 => simp [paldusUpdate, tally]
  | 2 => simp [paldusUpdate, tally]; ring
  | 3 => simp [paldusUpdate, tally]
  | n + 4 => simp [paldusUpdate, tally]

theorem tally_cons (c : Nat) (p : List Nat) :
    tally (c :: p) = ((tally [c]).1 + (tally p).1, (tally [c]).2.1 + (tally p).2.1,
      (tally [c]).2.2 + (tally p).2.2) := by
  simp only [tally, List.count_cons, List.count_nil]
  push_cast
  refine Prod.ext ?_ (Prod.ext ?_ ?_) <;> simp <;> ring

theorem tally_append (p q : List Nat) :
    tally (p ++ q) = ((tally p).1 + (tally q).1, (tally p).2.1 + (tally q).2.1,
      (tally p).2.2 + (tally q).2.2) := by
  simp only [tally, List.count_append]
  push_cast
  refine Prod.ext ?_ (Prod.ext ?_ ?_) <;> simp <;> ring

theorem paldusLoop_length : ∀ (l : List Nat) (prev : Int × Int × Int),
    (paldusLoop prev l).length = l.length := by
  intro l
  induction l with
  | nil => intro prev; rfl
  | cons c l ih => intro prev; simp [paldusLoop, ih]

theorem paldusLoop_getElem? : ∀ (l : List Nat) (prev : Int × Int × Int) (i : Nat),
    i < l.length →
    (paldusLoop prev l)[i]? = some (prev.1 + (tally (l.take (i + 1))).1,
      prev.2.1 + (tally (l.take (i + 1))).2.1, prev.2.2 + (tally (l.take (i + 1))).2.2) := by
  intro l
  induction l with
  | nil => intro prev i hi; simp at hi
  | cons c l ih =>
    intro prev i hi
    cases i with
    | zero =>
      simp only [paldusLoop, List.getElem?_cons_zero, List.take_succ_cons, List.take_zero,
        Nat.zero_add]
      rw [paldusUpdate_eq]
    | succ i =>
      simp only [paldusLoop, List.getElem?_cons_succ, List.take_succ_cons]
      rw [ih _ i (by simpa using hi), paldusUpdate_eq, tally_cons c (List.take (i + 1) l)]
      simp only [Option.some.injEq, Prod.mk.injEq]
      refine ⟨by ring, by ring, by ring⟩

theorem paldus_eq_loop (csf : List Nat) : paldus csf = paldusLoop (0, 0, 0) csf := by
  cases csf <;> rfl

theorem paldus_length (csf : List Nat) : (paldus csf).length = csf.length := by
  rw [paldus_eq_loop, paldusLoop_length]

theorem paldus_getElem? (csf : List Nat) (i : Nat) (hi : i < csf.length) :
    (paldus csf)[i]? = some (tally (csf.take (i + 1))) := by
  rw [paldus_eq_loop, paldusLoop_getElem? csf _ i hi]
  simp

theorem aArr_getD (csf : List Nat) (i : Nat) (hi : i < csf.length) :
    (aArr csf).getD i 0 = (tally (csf.take (i + 1))).1 := by
  simp [aArr, paldus_getElem? csf i hi]

theorem bArr_getD (csf : List Nat) (i : Nat) (hi : i < csf.length) :
    (bArr csf).getD i 0 = (tally (csf.take (i + 1))).2.1 := by
  simp [bArr, paldus_getElem? csf i hi]

theorem cArr_getD (csf : List Nat) (i : Nat) (hi : i < csf.length) :
    (cArr csf).getD i 0 = (tally (csf.take (i + 1))).2.2 := by
  simp [cArr, paldus_getElem? csf i hi]

theorem bArr_length (csf : List Nat) : (bArr csf).length = csf.length := by
  simp [bArr, paldus_length]

theorem mem_bArr (csf : List Nat) (x : Int) :
    x ∈ bArr csf ↔ ∃ i, i < csf.length ∧ x = (tally (csf.take (i + 1))).2.1 := by
  constructor
  · intro hx
    obtain ⟨i, hi, hxi⟩ := List.getElem_of_mem hx
    rw [bArr_length] at hi
    refine ⟨i, hi, ?_⟩
    have h1 := bArr_getD csf i hi
    rw [List.getD_eq_getElem?_getD, List.getElem?_eq_getElem (by rw [bArr_length]; exact hi)] at h1
    simp only [Option.getD_some] at h1
    rw [← h1, hxi]
  · rintro ⟨i, hi, rfl⟩
    have h1 := bArr_getD csf i hi
    rw [List.getD_eq_getElem?_getD, List.getElem?_eq_getElem (by rw [bArr_length]; exact hi)] at h1
    simp only [Option.getD_some] at h1
    rw [← h1]
    exact List.getElem_mem _

theorem bArr_getLast? (csf : List Nat) (S : Int) :
    (bArr csf).getLast? = some S ↔ csf ≠ [] ∧ S = (tally csf).2.1 := by
  rw [List.getLast?_eq_getElem?, bArr_length]
  cases csf with
  | nil => simp [bArr, paldus]
  | cons c l =>
    have hi : (c :: l).length - 1 < (c :: l).length := by simp
    have h1 := paldus_getElem? (c :: l) _ hi
    have h2 : (c :: l).length - 1 + 1 = (c :: l).length := by simp
    rw [h2, List.take_length] at h1
    simp only [bArr, List.getElem?_map, h1, Option.map_some', Option.some.injEq, ne_eq,
      reduceCtorEq, not_false_eq_true, true_and]
    exact eq_comm

/-! ### Unfolding `csf2det` -/

theorem csf2det_invalid (pre post : List Char) (c : Char) (twoms : Int)
    (hpre : ∀ ch ∈ pre, validSymbol ch = true) (hc : validSymbol c = false) :
    csf2det (pre ++ c :: post) twoms = .invalidStepVectorSymbol c := by
  simp only [csf2det, parseLoop_invalid pre post c hpre hc]

theorem csf2det_valid (s : List Char) (twoms : Int) (hv : ∀ ch ∈ s, validSymbol ch = true) :
    csf2det s twoms =
      if countMo s = 0 then .outOfBounds
      else if (bArr (csfOf s)).any (fun x => x < 0) then .negativeSpinCounter
      else if (twoms.natAbs : Int) > (bArr (csfOf s)).getD (countMo s - 1) 0 then
        .spinProjectionOutOfRange ((bArr (csfOf s)).getD (countMo s - 1) 0)
      else if ((bArr (csfOf s)).getD (countMo s - 1) 0 + twoms).tmod 2 ≠ 0 then
        .spinProjectionParityMismatch
          (["EVEN", "ODD"].getD (((bArr (csfOf s)).getD (countMo s - 1) 0).tmod 2).toNat "")
      else
        match doWhile (determinant (csfOf s) (aArr (csfOf s)) (bArr (csfOf s)) (countMo s)
            (nSomoOf s) (((nSomoOf s : Int) + twoms).tdiv 2)) (nSomoOf s)
            (((nSomoOf s : Int) + twoms).tdiv 2) (2 ^ nSomoOf s)
            (List.range (((nSomoOf s : Int) + twoms).tdiv 2).toNat) with
        | some lines =>
          .ok (2 * (aArr (csfOf s)).getD (countMo s - 1) 0
            + (bArr (csfOf s)).getD (countMo s - 1) 0) (countMo s) lines
        | none => .budgetExhausted := by
  simp only [csf2det, csfOf, nSomoOf, parseLoop_valid s hv]

theorem countMo_eq_length (s : List Char) (hv : ∀ ch ∈ s, validSymbol ch = true) :
    countMo s = (csfOf s).length := by
  rw [countMo_eq, csfOf_valid s hv, List.length_map]

theorem countP_u_d (p : List Char) :
    p.countP (fun ch => ch == 'u' || ch == 'd') = p.count 'u' + p.count 'd' := by
  induction p with
  | nil => simp
  | cons ch p ih =>
    simp only [List.countP_cons, List.count_cons, ih]
    by_cases h1 : ch = 'u'
    · subst h1; simp; omega
    · by_cases h2 : ch = 'd'
      · subst h2; simp; omega
      · simp [h1, h2]

theorem nSomoOf_eq_count (s : List Char) (hv : ∀ ch ∈ s, validSymbol ch = true) :
    nSomoOf s = (csfOf s).count 1 + (csfOf s).count 2 := by
  have h := count_codeOf (orbitalSymbols s) (orbitalSymbols_valid s hv)
  rw [nSomoOf_valid s hv, csfOf_valid s hv, countP_u_d, h.2.1, h.2.2.1]

theorem spin_eq (csf : List Nat) (h : csf ≠ []) :
    (bArr csf).getD (csf.length - 1) 0 = (tally csf).2.1 := by
  have hlen : 0 < csf.length := List.length_pos.mpr h
  rw [bArr_getD csf _ (by omega)]
  have : csf.length - 1 + 1 = csf.length := by omega
  rw [this, List.take_length]

theorem choose_le_two_pow (n k : Nat) : Nat.choose n k ≤ 2 ^ n := by
  by_cases hk : k ≤ n
  · rw [← Nat.sum_range_choose]
    exact Finset.single_le_sum (f := fun m => Nat.choose n m) (fun _ _ => Nat.zero_le _)
      (Finset.mem_range.mpr (by omega))
  · rw [Nat.choose_eq_zero_of_lt (by omega)]
    exact Nat.zero_le _

/-- The budget `2 ^ n_somo` of the determinant loop is never exhausted: for
`0 ≤ k ≤ n` the loop with any body returns the bodies of all combinations. -/
theorem doWhile_budget {β : Type} (body : List Nat → List β) (n k : Nat) (hk : k ≤ n) :
    ∃ L : List (List Nat),
      doWhile body n k (2 ^ n) (List.range k) = some (L.flatMap body) ∧
      L.length = Nat.choose n k ∧ L.Nodup ∧ (∀ s, s ∈ L ↔ IsComb n k s) ∧
      L.Pairwise (· < ·) ∧
      L.head? = some (List.range k) ∧ L.getLast? = some (lastComb n k) := by
  obtain ⟨L, hrun, hrest⟩ := doWhile_visits n k hk
  refine ⟨L, ?_, hrest⟩
  rw [doWhile_body, hrun _ (choose_le_two_pow n k)]
  rfl

theorem tmod_two_ne_zero_iff (x : Int) : x.tmod 2 ≠ 0 ↔ Odd x := by
  rw [← Int.not_even_iff_odd, even_iff_two_dvd]
  constructor
  · intro h hd
    exact h (Int.tmod_eq_zero_of_dvd hd)
  · intro h hd
    exact h (Int.dvd_of_tmod_eq_zero hd)

/-! ### Validation of the input -/

/-- The alpha count of a validated input lies between the number of
down-coupled and the number of up-coupled orbitals. -/
theorem alpha_bounds (U Dn : Nat) (twoms : Int)
    (hr : |twoms| ≤ (U : Int) - Dn) (hp : Even ((U : Int) - Dn + twoms)) :
    (Dn : Int) ≤ (((U + Dn : Nat) : Int) + twoms).tdiv 2 ∧
    (((U + Dn : Nat) : Int) + twoms).tdiv 2 ≤ U ∧
    2 * (((U + Dn : Nat) : Int) + twoms).tdiv 2 - ((U + Dn : Nat) : Int) = twoms := by
  have h1 := abs_le.mp hr
  have hnn : 0 ≤ ((U + Dn : Nat) : Int) + twoms := by push_cast; omega
  rw [Int.tdiv_eq_ediv hnn (by norm_num)]
  obtain ⟨r, hr2⟩ := hp
  push_cast
  omega

/-- The outcome of `csf2det` on a step-vector of valid symbols with at least
one orbital, in terms of the counts of `u` and `d` codes. -/
theorem csf2det_cases (s : List Char) (twoms : Int) (hv : ∀ ch ∈ s, validSymbol ch = true)
    (hmo : 0 < countMo s) :
    (((∃ x ∈ bArr (csfOf s), x < 0) ∧ csf2det s twoms = .negativeSpinCounter) ∨
     ((∀ x ∈ bArr (csfOf s), 0 ≤ x) ∧ (tally (csfOf s)).2.1 < |twoms| ∧
        csf2det s twoms = .spinProjectionOutOfRange (tally (csfOf s)).2.1) ∨
     ((∀ x ∈ bArr (csfOf s), 0 ≤ x) ∧ |twoms| ≤ (tally (csfOf s)).2.1 ∧
        Odd ((tally (csfOf s)).2.1 + twoms) ∧
        csf2det s twoms = .spinProjectionParityMismatch
          (["EVEN", "ODD"].getD ((tally (csfOf s)).2.1.tmod 2).toNat "")) ∨
     ((∀ x ∈ bArr (csfOf s), 0 ≤ x) ∧ |twoms| ≤ (tally (csfOf s)).2.1 ∧
        Even ((tally (csfOf s)).2.1 + twoms) ∧
        ∃ L : List (List Nat),
          csf2det s twoms = .ok (2 * (tally (csfOf s)).1 + (tally (csfOf s)).2.1) (countMo s)
            (L.flatMap (determinant (csfOf s) (aArr (csfOf s)) (bArr (csfOf s)) (countMo s)
              (nSomoOf s) (((nSomoOf s : Int) + twoms).tdiv 2))) ∧
          L.Nodup ∧ L.length = Nat.choose (nSomoOf s) (((nSomoOf s : Int) + twoms).tdiv 2).toNat ∧
          (∀ l, l ∈ L ↔ IsComb (nSomoOf s) (((nSomoOf s : Int) + twoms).tdiv 2).toNat l))) := by
  have hlen := countMo_eq_length s hv
  have hne : csfOf s ≠ [] := by
    intro h; rw [h] at hlen; simp at hlen; omega
  have hspin := spin_eq (csfOf s) hne
  have ha : (aArr (csfOf s)).getD ((csfOf s).length - 1) 0 = (tally (csfOf s)).1 := by
    have hl : 0 < (csfOf s).length := List.length_pos.mpr hne
    rw [aArr_getD _ _ (by omega)]
    have : (csfOf s).length - 1 + 1 = (csfOf s).length := by omega
    rw [this, List.take_length]
  rw [csf2det_valid s twoms hv]
  rw [if_neg (by omega)]
  by_cases hany : (bArr (csfOf s)).any (fun x => x < 0) = true
  · left
    rw [if_pos hany]
    refine ⟨?_, rfl⟩
    simpa using hany
  · right
    rw [if_neg hany]
    have hb : ∀ x ∈ bArr (csfOf s), 0 ≤ x := by
      intro x hx
      simp only [List.any_eq_true, decide_eq_true_eq, not_exists, not_and, not_lt] at hany
      exact hany x hx
    rw [hlen, hspin, ha, Int.natCast_natAbs]
    by_cases hr : |twoms| > (tally (csfOf s)).2.1
    · left
      rw [if_pos hr]
      exact ⟨hb, hr, rfl⟩
    · right
      rw [if_neg hr]
      have hr' : |twoms| ≤ (tally (csfOf s)).2.1 := not_lt.mp hr
      by_cases hp : ((tally (csfOf s)).2.1 + twoms).tmod 2 ≠ 0
      · left
        rw [if_pos hp]
        exact ⟨hb, hr', (tmod_two_ne_zero_iff _).mp hp, rfl⟩
      · right
        rw [if_neg hp]
        have hev : Even ((tally (csfOf s)).2.1 + twoms) := by
          rw [← Int.not_odd_iff_even, ← tmod_two_ne_zero_iff]
          exact hp
        have hns := nSomoOf_eq_count s hv
        have hab := alpha_bounds ((csfOf s).count 1) ((csfOf s).count 2) twoms
          (by simpa [tally] using hr')
          (by simpa [tally] using hev)
        rw [← hns] at hab
        have hk0 : 0 ≤ ((nSomoOf s : Int) + twoms).tdiv 2 :=
          le_trans (Int.ofNat_nonneg _) hab.1
        have hkn : (((nSomoOf s : Int) + twoms).tdiv 2).toNat ≤ nSomoOf s := by
          have := hab.2.1
          omega
        obtain ⟨L, hrun, hlenL, hnd, hmem, _, _, _⟩ :=
          doWhile_budget (determinant (csfOf s) (aArr (csfOf s)) (bArr (csfOf s))
            (csfOf s).length (nSomoOf s) (((nSomoOf s : Int) + twoms).tdiv 2))
            (nSomoOf s) (((nSomoOf s : Int) + twoms).tdiv 2).toNat hkn
        rw [Int.toNat_of_nonneg hk0] at hrun
        rw [hrun]
        exact ⟨hb, hr', hev, L, rfl, hnd, hlenL, hmem⟩

/-- Claim C4, as amended.  `csf2det` fails with the illegal-character message
exactly when the string contains a character outside `0 u d 2` and the space;
the message then carries the first such character (and nothing else: no
position), no determinant is produced, and this holds for every `twoms`, so the
error takes precedence over every other error kind. -/
theorem invalid_symbol_rejection (s : List Char) (twoms : Int) :
    ((∃ c, csf2det s twoms = .invalidStepVectorSymbol c) ↔ ∃ ch ∈ s, validSymbol ch = false) ∧
    (∀ c, csf2det s twoms = .invalidStepVectorSymbol c ↔
      ∃ pre post, s = pre ++ c :: post ∧ (∀ ch ∈ pre, validSymbol ch = true) ∧
        validSymbol c = false) := by
  rcases valid_or_first_invalid s with hv | ⟨pre, c, post, hs, hpre, hc⟩
  · have hno : ∀ c, csf2det s twoms ≠ .invalidStepVectorSymbol c := by
      intro c
      rw [csf2det_valid s twoms hv]
      split_ifs <;> try exact Outcome.noConfusion
      split <;> exact Outcome.noConfusion
    constructor
    · constructor
      · rintro ⟨c, hc⟩; exact absurd hc (hno c)
      · rintro ⟨ch, hch, hf⟩
        rw [hv ch hch] at hf
        exact absurd hf (by simp)
    · intro c
      constructor
      · intro hc; exact absurd hc (hno c)
      · rintro ⟨pre, post, hs, _, hc⟩
        have := hv c (by rw [hs]; simp)
        rw [this] at hc
        exact absurd hc (by simp)
  · have hrun := csf2det_invalid pre post c twoms hpre hc
    rw [← hs] at hrun
    constructor
    · constructor
      · intro _
        exact ⟨c, by rw [hs]; simp, hc⟩
      · intro _
        exact ⟨c, hrun⟩
    · intro c'
      constructor
      · intro h
        rw [hrun] at h
        injection h with h
        subst h
        exact ⟨pre, post, hs, hpre, hc⟩
      · rintro ⟨pre', post', hs', hpre', hc'⟩
        have hrun' := csf2det_invalid pre' post' c' twoms hpre' hc'
        rw [← hs'] at hrun'
        exact hrun'

/-- Claim C4 as stated fails: the error does not identify the position of the
offending character.  `"2x"` (illegal character at position 1) and `"x"`
(illegal character at position 0) give the same outcome, which carries only
the character `x`; hence no function recovers the position from the outcome. -/
theorem invalid_symbol_position_counterexample :
    csf2det ['2', 'x'] 0 = Outcome.invalidStepVectorSymbol 'x' ∧
    csf2det ['x'] 0 = Outcome.invalidStepVectorSymbol 'x' ∧
    ['2', 'x'].findIdx (fun ch => !validSymbol ch) = 1 ∧
    ['x'].findIdx (fun ch => !validSymbol ch) = 0 ∧
    ¬ ∃ position : Outcome → Nat, ∀ (s : List Char) (twoms : Int),
      (∃ c, csf2det s twoms = Outcome.invalidStepVectorSymbol c) →
        position (csf2det s twoms) = s.findIdx (fun ch => !validSymbol ch) := by
  have h1 : csf2det ['2', 'x'] 0 = Outcome.invalidStepVectorSymbol 'x' := by decide
  have h2 : csf2det ['x'] 0 = Outcome.invalidStepVectorSymbol 'x' := by decide
  have h3 : ['2', 'x'].findIdx (fun ch => !validSymbol ch) = 1 := by decide
  have h4 : ['x'].findIdx (fun ch => !validSymbol ch) = 0 := by decide
  refine ⟨h1, h2, h3, h4, ?_⟩
  rintro ⟨position, hpos⟩
  have e1 := hpos ['2', 'x'] 0 ⟨'x', h1⟩
  have e2 := hpos ['x'] 0 ⟨'x', h2⟩
  rw [h1, h3] at e1
  rw [h2, h4] at e2
  rw [e1] at e2
  exact absurd e2 (by decide)

/-- Claim C5.  For a step-vector of valid symbols with at least one orbital,
`csf2det` fails with the invalid-ordering message exactly when some `b[i]` is
negative, which is exactly when some prefix of the orbital sequence contains
more `d` than `u`; whether it does is the same for every `twoms`. -/
theorem negative_spin_counter (s : List Char) (twoms : Int)
    (hv : ∀ ch ∈ s, validSymbol ch = true) (hmo : 0 < countMo s) :
    (csf2det s twoms = .negativeSpinCounter ↔ ∃ x ∈ bArr (csfOf s), x < 0) ∧
    ((∃ x ∈ bArr (csfOf s), x < 0) ↔
      ∃ i, ((orbitalSymbols s).take i).count 'u' < ((orbitalSymbols s).take i).count 'd') ∧
    (∀ twoms', csf2det s twoms' = .negativeSpinCounter ↔
      csf2det s twoms = .negativeSpinCounter) := by
  have key : ∀ t : Int, csf2det s t = .negativeSpinCounter ↔ ∃ x ∈ bArr (csfOf s), x < 0 := by
    intro t
    rcases csf2det_cases s t hv hmo with h | h | h | h
    · exact ⟨fun _ => h.1, fun _ => h.2⟩
    · constructor
      · intro h2; rw [h.2.2] at h2; exact Outcome.noConfusion h2
      · rintro ⟨x, hx, hlt⟩; exact absurd (h.1 x hx) (not_le.mpr hlt)
    · constructor
      · intro h2; rw [h.2.2.2] at h2; exact Outcome.noConfusion h2
      · rintro ⟨x, hx, hlt⟩; exact absurd (h.1 x hx) (not_le.mpr hlt)
    · obtain ⟨hb, _, _, L, hrun, _⟩ := h
      constructor
      · intro h2; rw [hrun] at h2; exact Outcome.noConfusion h2
      · rintro ⟨x, hx, hlt⟩; exact absurd (hb x hx) (not_le.mpr hlt)
  refine ⟨key twoms, ?_, fun t => (key t).trans (key twoms).symm⟩
  have hcsf := csfOf_valid s hv
  have hcount : ∀ i, (tally ((csfOf s).take i)).2.1
      = (((orbitalSymbols s).take i).count 'u' : Int) - ((orbitalSymbols s).take i).count 'd' := by
    intro i
    have hp : ∀ ch ∈ (orbitalSymbols s).take i, ch = '0' ∨ ch = 'u' ∨ ch = 'd' ∨ ch = '2' :=
      fun ch hch => orbitalSymbols_valid s hv ch (List.mem_of_mem_take hch)
    have h := count_codeOf _ hp
    rw [hcsf, ← List.map_take]
    simp only [tally, h.2.1, h.2.2.1]
  constructor
  · rintro ⟨x, hx, hlt⟩
    obtain ⟨i, _, rfl⟩ := (mem_bArr _ _).mp hx
    refine ⟨i + 1, ?_⟩
    rw [hcount] at hlt
    omega
  · rintro ⟨i, hi⟩
    have hlen : (csfOf s).length = (orbitalSymbols s).length := by rw [hcsf, List.length_map]
    cases i with
    | zero => simp at hi
    | succ i =>
      by_cases hil : i < (csfOf s).length
      · refine ⟨_, (mem_bArr _ _).mpr ⟨i, hil, rfl⟩, ?_⟩
        rw [hcount]
        omega
      · have hpos : 0 < (csfOf s).length := by
          rw [← countMo_eq_length s hv]; exact hmo
        refine ⟨_, (mem_bArr _ _).mpr ⟨(csfOf s).length - 1, by omega, rfl⟩, ?_⟩
        rw [hcount]
        have h1 : (orbitalSymbols s).take ((csfOf s).length - 1 + 1) = orbitalSymbols s := by
          rw [List.take_of_length_le (by omega)]
        have h2 : (orbitalSymbols s).take (i + 1) = orbitalSymbols s := by
          rw [List.take_of_length_le (by omega)]
        rw [h1]
        rw [h2] at hi
        omega

/-- The theorem `negative_spin_counter` at a concrete input. -/
theorem negative_spin_counter_witness :
    (∀ ch ∈ ['u', 'd', 'd', 'u'], validSymbol ch = true) ∧ 0 < countMo ['u', 'd', 'd', 'u'] ∧
    ((csf2det ['u', 'd', 'd', 'u'] 0 = .negativeSpinCounter ↔
        ∃ x ∈ bArr (csfOf ['u', 'd', 'd', 'u']), x < 0) ∧
    ((∃ x ∈ bArr (csfOf ['u', 'd', 'd', 'u']), x < 0) ↔
      ∃ i, ((orbitalSymbols ['u', 'd', 'd', 'u']).take i).count 'u'
        < ((orbitalSymbols ['u', 'd', 'd', 'u']).take i).count 'd') ∧
    (∀ twoms', csf2det ['u', 'd', 'd', 'u'] twoms' = .negativeSpinCounter ↔
      csf2det ['u', 'd', 'd', 'u'] 0 = .negativeSpinCounter)) :=
  ⟨by decide, by decide, negative_spin_counter ['u', 'd', 'd', 'u'] 0 (by decide) (by decide)⟩

theorem parity_word (S : Int) (hS : 0 ≤ S) :
    ["EVEN", "ODD"].getD (S.tmod 2).toNat "" = if Even S then "EVEN" else "ODD" := by
  rw [Int.tmod_eq_emod hS (by norm_num)]
  rcases Int.emod_two_eq_zero_or_one S with h | h
  · rw [h, if_pos (Int.even_iff.mpr h)]; rfl
  · rw [h, if_neg (by rw [Int.even_iff, h]; norm_num)]; rfl

/-- Claim C6.  For a step-vector that passes the symbol check and the `b ≥ 0`
check, with `S = b[last]`: `csf2det` fails with the out-of-range message
(reporting `S`) iff `|twoms| > S`, whatever the parity; it fails with the
parity message (naming the parity of `S`) iff `|twoms| ≤ S` and `S + twoms` is
odd; and it succeeds iff `|twoms| ≤ S` and `S + twoms` is even. -/
theorem spin_projection_validation (s : List Char) (twoms S : Int)
    (hv : ∀ ch ∈ s, validSymbol ch = true) (hb : ∀ x ∈ bArr (csfOf s), 0 ≤ x)
    (hS : (bArr (csfOf s)).getLast? = some S) :
    (csf2det s twoms = .spinProjectionOutOfRange S ↔ S < |twoms|) ∧
    (csf2det s twoms = .spinProjectionParityMismatch (if Even S then "EVEN" else "ODD") ↔
      |twoms| ≤ S ∧ Odd (S + twoms)) ∧
    ((∃ n_e n_mo lines, csf2det s twoms = .ok n_e n_mo lines) ↔
      |twoms| ≤ S ∧ Even (S + twoms)) ∧
    (∀ o, csf2det s twoms = o → (∃ x, o = .spinProjectionOutOfRange x) ∨
      (∃ w, o = .spinProjectionParityMismatch w) ∨ ∃ n_e n_mo lines, o = .ok n_e n_mo lines) := by
  obtain ⟨hne, hSeq⟩ := (bArr_getLast? _ _).mp hS
  have hmo : 0 < countMo s := by
    rw [countMo_eq_length s hv]; exact List.length_pos.mpr hne
  have hS0 : 0 ≤ S := by
    have : S ∈ bArr (csfOf s) := List.mem_of_getLast?_eq_some hS
    exact hb S this
  rw [hSeq] at hS0 ⊢
  rcases csf2det_cases s twoms hv hmo with h | h | h | h
  · obtain ⟨⟨x, hx, hlt⟩, _⟩ := h
    exact absurd (hb x hx) (not_le.mpr hlt)
  · obtain ⟨_, hr, hrun⟩ := h
    rw [hrun]
    refine ⟨⟨fun _ => hr, fun _ => rfl⟩, ⟨fun h2 => Outcome.noConfusion h2, ?_⟩,
      ⟨?_, ?_⟩, ?_⟩
    · rintro ⟨h2, _⟩; exact absurd hr (not_lt.mpr h2)
    · rintro ⟨_, _, _, h2⟩; exact Outcome.noConfusion h2
    · rintro ⟨h2, _⟩; exact absurd hr (not_lt.mpr h2)
    · rintro o rfl; exact Or.inl ⟨_, rfl⟩
  · obtain ⟨_, hr, hodd, hrun⟩ := h
    rw [hrun, parity_word _ hS0]
    refine ⟨⟨fun h2 => Outcome.noConfusion h2, ?_⟩, ⟨fun _ => ⟨hr, hodd⟩, fun _ => rfl⟩,
      ⟨?_, ?_⟩, ?_⟩
    · intro h2; exact absurd h2 (not_lt.mpr hr)
    · rintro ⟨_, _, _, h2⟩; exact Outcome.noConfusion h2
    · rintro ⟨_, h2⟩; exact absurd hodd (Int.not_odd_iff_even.mpr h2)
    · rintro o rfl; exact Or.inr (Or.inl ⟨_, rfl⟩)
  · obtain ⟨_, hr, hev, L, hrun, _⟩ := h
    rw [hrun]
    refine ⟨⟨fun h2 => Outcome.noConfusion h2, ?_⟩, ⟨fun h2 => Outcome.noConfusion h2, ?_⟩,
      ⟨fun _ => ⟨hr, hev⟩, fun _ => ⟨_, _, _, rfl⟩⟩, ?_⟩
    · intro h2; exact absurd h2 (not_lt.mpr hr)
    · rintro ⟨_, h2⟩; exact absurd h2 (Int.not_odd_iff_even.mpr hev)
    · rintro o rfl; exact Or.inr (Or.inr ⟨_, _, _, rfl⟩)

/-- The theorem `spin_projection_validation` at a concrete input. -/
theorem spin_projection_validation_witness :
    (∀ ch ∈ ['u', 'u'], validSymbol ch = true) ∧ (∀ x ∈ bArr (csfOf ['u', 'u']), 0 ≤ x) ∧
    (bArr (csfOf ['u', 'u'])).getLast? = some 2 ∧
    ((csf2det ['u', 'u'] 3 = .spinProjectionOutOfRange 2 ↔ (2 : Int) < |3|) ∧
    (csf2det ['u', 'u'] 3
        = .spinProjectionParityMismatch (if Even (2 : Int) then "EVEN" else "ODD") ↔
      |(3 : Int)| ≤ 2 ∧ Odd ((2 : Int) + 3)) ∧
    ((∃ n_e n_mo lines, csf2det ['u', 'u'] 3 = .ok n_e n_mo lines) ↔
      |(3 : Int)| ≤ 2 ∧ Even ((2 : Int) + 3)) ∧
    (∀ o, csf2det ['u', 'u'] 3 = o → (∃ x, o = .spinProjectionOutOfRange x) ∨
      (∃ w, o = .spinProjectionParityMismatch w) ∨ ∃ n_e n_mo lines, o = .ok n_e n_mo lines)) :=
  ⟨by decide, by decide, by decide,
    spin_projection_validation ['u', 'u'] 3 2 (by decide) (by decide) (by decide)⟩

/-- Claim C7.  For an input that passes all validation (valid symbols, all
`b[i] ≥ 0`, `|twoms| ≤ S`, `S + twoms` even, with `S = b[last]`): `n_somo` and
`S` have the same parity, `n_somo + twoms` is even, the truncating division
`n_alpha = (n_somo + twoms) / 2` is exact with `2 * n_alpha - n_somo = twoms`,
and `0 ≤ n_alpha ≤ n_somo`; the call succeeds. -/
theorem alpha_count_well_defined (s : List Char) (twoms S : Int)
    (hv : ∀ ch ∈ s, validSymbol ch = true) (hb : ∀ x ∈ bArr (csfOf s), 0 ≤ x)
    (hS : (bArr (csfOf s)).getLast? = some S) (hr : |twoms| ≤ S) (hp : Even (S + twoms)) :
    (nSomoOf s : Int) % 2 = S % 2 ∧ Even ((nSomoOf s : Int) + twoms) ∧
    2 * ((nSomoOf s : Int) + twoms).tdiv 2 = (nSomoOf s : Int) + twoms ∧
    2 * ((nSomoOf s : Int) + twoms).tdiv 2 - (nSomoOf s : Int) = twoms ∧
    0 ≤ ((nSomoOf s : Int) + twoms).tdiv 2 ∧
    ((nSomoOf s : Int) + twoms).tdiv 2 ≤ (nSomoOf s : Int) ∧
    ∃ n_e n_mo lines, csf2det s twoms = .ok n_e n_mo lines := by
  obtain ⟨hne, hSeq⟩ := (bArr_getLast? _ _).mp hS
  have hns := nSomoOf_eq_count s hv
  subst hSeq
  have hmo : 0 < countMo s := by
    rw [countMo_eq_length s hv]; exact List.length_pos.mpr hne
  have hsucc : ∃ n_e n_mo lines, csf2det s twoms = .ok n_e n_mo lines := by
    rcases csf2det_cases s twoms hv hmo with h | h | h | h
    · obtain ⟨⟨x, hx, hlt⟩, _⟩ := h
      exact absurd (hb x hx) (not_le.mpr hlt)
    · exact absurd h.2.1 (not_lt.mpr hr)
    · exact absurd h.2.2.1 (Int.not_odd_iff_even.mpr hp)
    · obtain ⟨_, _, _, L, hrun, _⟩ := h
      exact ⟨_, _, _, hrun⟩
  have hab := alpha_bounds ((csfOf s).count 1) ((csfOf s).count 2) twoms
    (by simpa [tally] using hr) (by simpa [tally] using hp)
  rw [← hns] at hab
  obtain ⟨h1, h2, h3⟩ := hab
  have hpar : (nSomoOf s : Int) % 2 = (tally (csfOf s)).2.1 % 2 := by
    rw [hns]; simp only [tally]; push_cast; omega
  refine ⟨hpar, ?_, by omega, h3, by omega, by omega, hsucc⟩
  exact ⟨((nSomoOf s : Int) + twoms).tdiv 2, by omega⟩

/-- The theorem `alpha_count_well_defined` at a concrete input. -/
theorem alpha_count_well_defined_witness :
    (∀ ch ∈ ['u', 'd', 'u'], validSymbol ch = true) ∧
    (∀ x ∈ bArr (csfOf ['u', 'd', 'u']), 0 ≤ x) ∧
    (bArr (csfOf ['u', 'd', 'u'])).getLast? = some 1 ∧ |(-1 : Int)| ≤ 1 ∧
    Even ((1 : Int) + (-1)) ∧
    ((nSomoOf ['u', 'd', 'u'] : Int) % 2 = (1 : Int) % 2 ∧
    Even ((nSomoOf ['u', 'd', 'u'] : Int) + (-1)) ∧
    2 * ((nSomoOf ['u', 'd', 'u'] : Int) + (-1)).tdiv 2 = (nSomoOf ['u', 'd', 'u'] : Int) + (-1) ∧
    2 * ((nSomoOf ['u', 'd', 'u'] : Int) + (-1)).tdiv 2 - (nSomoOf ['u', 'd', 'u'] : Int) = -1 ∧
    0 ≤ ((nSomoOf ['u', 'd', 'u'] : Int) + (-1)).tdiv 2 ∧
    ((nSomoOf ['u', 'd', 'u'] : Int) + (-1)).tdiv 2 ≤ (nSomoOf ['u', 'd', 'u'] : Int) ∧
    ∃ n_e n_mo lines, csf2det ['u', 'd', 'u'] (-1) = .ok n_e n_mo lines) :=
  ⟨by decide, by decide, by decide, by decide, by decide,
    alpha_count_well_defined ['u', 'd', 'u'] (-1) 1 (by decide) (by decide) (by decide)
      (by decide) (by decide)⟩

/-- The Paldus counters at position `i` as counts of symbols among the
orbitals `0..i`. -/
theorem paldus_chars (s : List Char) (hv : ∀ ch ∈ s, validSymbol ch = true) (i : Nat)
    (hi : i < (orbitalSymbols s).length) :
    (aArr (csfOf s)).getD i 0 = (((orbitalSymbols s).take (i + 1)).count 'd' : Int)
      + ((orbitalSymbols s).take (i + 1)).count '2' ∧
    (bArr (csfOf s)).getD i 0 = (((orbitalSymbols s).take (i + 1)).count 'u' : Int)
      - ((orbitalSymbols s).take (i + 1)).count 'd' ∧
    (cArr (csfOf s)).getD i 0 = (((orbitalSymbols s).take (i + 1)).count '0' : Int)
      + ((orbitalSymbols s).take (i + 1)).count 'd' := by
  have hcsf := csfOf_valid s hv
  have hlen : i < (csfOf s).length := by rw [hcsf, List.length_map]; exact hi
  have hp : ∀ ch ∈ (orbitalSymbols s).take (i + 1), ch = '0' ∨ ch = 'u' ∨ ch = 'd' ∨ ch = '2' :=
    fun ch hch => orbitalSymbols_valid s hv ch (List.mem_of_mem_take hch)
  have h := count_codeOf _ hp
  rw [List.map_take, ← hcsf] at h
  rw [aArr_getD _ _ hlen, bArr_getD _ _ hlen, cArr_getD _ _ hlen]
  simp only [tally, h.1, h.2.1, h.2.2.1, h.2.2.2]
  exact ⟨trivial, trivial, trivial⟩

theorem paldus_prev_chars (s : List Char) (hv : ∀ ch ∈ s, validSymbol ch = true) (i : Nat)
    (hi : i < (orbitalSymbols s).length) :
    (if i = 0 then ((0 : Int), (0 : Int), (0 : Int))
      else ((aArr (csfOf s)).getD (i - 1) 0, (bArr (csfOf s)).getD (i - 1) 0,
        (cArr (csfOf s)).getD (i - 1) 0))
    = ((((orbitalSymbols s).take i).count 'd' : Int) + ((orbitalSymbols s).take i).count '2',
       (((orbitalSymbols s).take i).count 'u' : Int) - ((orbitalSymbols s).take i).count 'd',
       (((orbitalSymbols s).take i).count '0' : Int) + ((orbitalSymbols s).take i).count 'd') := by
  cases i with
  | zero => simp
  | succ i =>
    obtain ⟨h1, h2, h3⟩ := paldus_chars s hv i (by omega)
    simp only [Nat.add_one_ne_zero, if_false, Nat.add_sub_cancel]
    rw [h1, h2, h3]

/-- Claim C8.  For a step-vector of valid symbols and a position `i` of its
orbital sequence: `a[i] = #d + #2`, `b[i] = #u - #d` and `c[i] = #0 + #d`,
counted over the orbitals `0..i`; the entry at `i` is the previous entry
(`(0,0,0)` before the first orbital) changed by the update of the symbol at
`i` (`0`: `c+1`; `u`: `b+1`; `d`: `a+1, b-1, c+1`; `2`: `a+1`); and `a` and
`c` are non-decreasing in `i`. -/
theorem paldus_table (s : List Char) (hv : ∀ ch ∈ s, validSymbol ch = true) (i : Nat)
    (hi : i < (orbitalSymbols s).length) :
    ((aArr (csfOf s)).getD i 0 = (((orbitalSymbols s).take (i + 1)).count 'd' : Int)
        + ((orbitalSymbols s).take (i + 1)).count '2' ∧
      (bArr (csfOf s)).getD i 0 = (((orbitalSymbols s).take (i + 1)).count 'u' : Int)
        - ((orbitalSymbols s).take (i + 1)).count 'd' ∧
      (cArr (csfOf s)).getD i 0 = (((orbitalSymbols s).take (i + 1)).count '0' : Int)
        + ((orbitalSymbols s).take (i + 1)).count 'd') ∧
    (∀ pa pb pc : Int,
      (pa, pb, pc) = (if i = 0 then ((0 : Int), (0 : Int), (0 : Int))
        else ((aArr (csfOf s)).getD (i - 1) 0, (bArr (csfOf s)).getD (i - 1) 0,
          (cArr (csfOf s)).getD (i - 1) 0)) →
      ((orbitalSymbols s).getD i ' ' = '0' → (aArr (csfOf s)).getD i 0 = pa ∧
        (bArr (csfOf s)).getD i 0 = pb ∧ (cArr (csfOf s)).getD i 0 = pc + 1) ∧
      ((orbitalSymbols s).getD i ' ' = 'u' → (aArr (csfOf s)).getD i 0 = pa ∧
        (bArr (csfOf s)).getD i 0 = pb + 1 ∧ (cArr (csfOf s)).getD i 0 = pc) ∧
      ((orbitalSymbols s).getD i ' ' = 'd' → (aArr (csfOf s)).getD i 0 = pa + 1 ∧
        (bArr (csfOf s)).getD i 0 = pb - 1 ∧ (cArr (csfOf s)).getD i 0 = pc + 1) ∧
      ((orbitalSymbols s).getD i ' ' = '2' → (aArr (csfOf s)).getD i 0 = pa + 1 ∧
        (bArr (csfOf s)).getD i 0 = pb ∧ (cArr (csfOf s)).getD i 0 = pc)) ∧
    (∀ j, j ≤ i → (aArr (csfOf s)).getD j 0 ≤ (aArr (csfOf s)).getD i 0 ∧
      (cArr (csfOf s)).getD j 0 ≤ (cArr (csfOf s)).getD i 0) := by
  obtain ⟨h1, h2, h3⟩ := paldus_chars s hv i hi
  refine ⟨⟨h1, h2, h3⟩, ?_, ?_⟩
  · intro pa pb pc hprev
    rw [paldus_prev_chars s hv i hi] at hprev
    simp only [Prod.mk.injEq] at hprev
    obtain ⟨ha, hb, hc⟩ := hprev
    have htake : (orbitalSymbols s).take (i + 1)
        = (orbitalSymbols s).take i ++ [(orbitalSymbols s).getD i ' '] := by
      rw [List.take_succ, List.getD_eq_getElem?_getD, List.getElem?_eq_getElem hi]
      rfl
    rw [h1, h2, h3, ha, hb, hc, htake]
    simp only [List.count_append]
    refine ⟨?_, ?_, ?_, ?_⟩ <;> intro hsym <;> rw [hsym] <;>
      simp [List.count_cons] <;> omega
  · intro j hj
    obtain ⟨g1, _, g3⟩ := paldus_chars s hv j (by omega)
    rw [h1, h3, g1, g3]
    have hsub := List.take_sublist_take_left (orbitalSymbols s) (show j + 1 ≤ i + 1 by omega)
    have c1 := hsub.count_le 'd'
    have c2 := hsub.count_le '2'
    have c3 := hsub.count_le '0'
    omega

/-- The theorem `paldus_table` at a concrete input. -/
theorem paldus_table_witness :
    (∀ ch ∈ ['2', 'u', ' ', 'd', '0'], validSymbol ch = true) ∧
    2 < (orbitalSymbols ['2', 'u', ' ', 'd', '0']).length ∧
    (((aArr (csfOf ['2', 'u', ' ', 'd', '0'])).getD 2 0
        = (((orbitalSymbols ['2', 'u', ' ', 'd', '0']).take (2 + 1)).count 'd' : Int)
        + ((orbitalSymbols ['2', 'u', ' ', 'd', '0']).take (2 + 1)).count '2' ∧
      (bArr (csfOf ['2', 'u', ' ', 'd', '0'])).getD 2 0
        = (((orbitalSymbols ['2', 'u', ' ', 'd', '0']).take (2 + 1)).count 'u' : Int)
        - ((orbitalSymbols ['2', 'u', ' ', 'd', '0']).take (2 + 1)).count 'd' ∧
      (cArr (csfOf ['2', 'u', ' ', 'd', '0'])).getD 2 0
        = (((orbitalSymbols ['2', 'u', ' ', 'd', '0']).take (2 + 1)).count '0' : Int)
        + ((orbitalSymbols ['2', 'u', ' ', 'd', '0']).take (2 + 1)).count 'd') ∧
    (∀ pa pb pc : Int,
      (pa, pb, pc) = (if 2 = 0 then ((0 : Int), (0 : Int), (0 : Int))
        else ((aArr (csfOf ['2', 'u', ' ', 'd', '0'])).getD (2 - 1) 0,
          (bArr (csfOf ['2', 'u', ' ', 'd', '0'])).getD (2 - 1) 0,
          (cArr (csfOf ['2', 'u', ' ', 'd', '0'])).getD (2 - 1) 0)) →
      ((orbitalSymbols ['2', 'u', ' ', 'd', '0']).getD 2 ' ' = '0' →
        (aArr (csfOf ['2', 'u', ' ', 'd', '0'])).getD 2 0 = pa ∧
        (bArr (csfOf ['2', 'u', ' ', 'd', '0'])).getD 2 0 = pb ∧
        (cArr (csfOf ['2', 'u', ' ', 'd', '0'])).getD 2 0 = pc + 1) ∧
      ((orbitalSymbols ['2', 'u', ' ', 'd', '0']).getD 2 ' ' = 'u' →
        (aArr (csfOf ['2', 'u', ' ', 'd', '0'])).getD 2 0 = pa ∧
        (bArr (csfOf ['2', 'u', ' ', 'd', '0'])).getD 2 0 = pb + 1 ∧
        (cArr (csfOf ['2', 'u', ' ', 'd', '0'])).getD 2 0 = pc) ∧
      ((orbitalSymbols ['2', 'u', ' ', 'd', '0']).getD 2 ' ' = 'd' →
        (aArr (csfOf ['2', 'u', ' ', 'd', '0'])).getD 2 0 = pa + 1 ∧
        (bArr (csfOf ['2', 'u', ' ', 'd', '0'])).getD 2 0 = pb - 1 ∧
        (cArr (csfOf ['2', 'u', ' ', 'd', '0'])).getD 2 0 = pc + 1) ∧
      ((orbitalSymbols ['2', 'u', ' ', 'd', '0']).getD 2 ' ' = '2' →
        (aArr (csfOf ['2', 'u', ' ', 'd', '0'])).getD 2 0 = pa + 1 ∧
        (bArr (csfOf ['2', 'u', ' ', 'd', '0'])).getD 2 0 = pb ∧
        (cArr (csfOf ['2', 'u', ' ', 'd', '0'])).getD 2 0 = pc)) ∧
    (∀ j, j ≤ 2 → (aArr (csfOf ['2', 'u', ' ', 'd', '0'])).getD j 0
        ≤ (aArr (csfOf ['2', 'u', ' ', 'd', '0'])).getD 2 0 ∧
      (cArr (csfOf ['2', 'u', ' ', 'd', '0'])).getD j 0
        ≤ (cArr (csfOf ['2', 'u', ' ', 'd', '0'])).getD 2 0)) :=
  ⟨by decide, by decide, paldus_table ['2', 'u', ' ', 'd', '0'] (by decide) 2 (by decide)⟩

/-! ### The loop over the orbitals -/

theorem walkUpTo_succ (csf : List Nat) (a b ev : List Int) (m : Nat) :
    walkUpTo csf a b ev (m + 1) = orbital csf a b ev m (walkUpTo csf a b ev m) := by
  simp [walkUpTo, List.range_succ, List.foldl_append]

theorem unreducedUpTo_succ (csf : List Nat) (a b : List Int) (alpha : Nat → Bool) (m : Nat) :
    unreducedUpTo csf a b alpha (m + 1)
      = stepRule csf a b alpha m (unreducedUpTo csf a b alpha m) := by
  simp [unreducedUpTo, List.range_succ, List.foldl_append]

/-- The `switch` multiplies the fraction by the factors of the step rule and
moves the counters as the step rule does. -/
theorem orbitalSwitch_spec (csf : List Nat) (a b ev : List Int) (alpha : Nat → Bool) (i : Nat)
    (w : Walk) (u : Unreduced) (hev : ∀ j, ev.getD j 0 = 1 ↔ alpha j = true)
    (h1 : w.i_somo = u.i_somo) (h2 : w.i_alpha = u.i_alpha) (h3 : w.i_beta = u.i_beta) :
    (orbitalSwitch csf a b ev i w).i_somo = (stepRule csf a b alpha i u).i_somo ∧
    (orbitalSwitch csf a b ev i w).i_alpha = (stepRule csf a b alpha i u).i_alpha ∧
    (orbitalSwitch csf a b ev i w).i_beta = (stepRule csf a b alpha i u).i_beta ∧
    (orbitalSwitch csf a b ev i w).frac =
      (w.frac.1 * numFactor (csf.getD i 0) (alpha u.i_somo) (a.getD i 0) (b.getD i 0)
          u.i_alpha u.i_beta,
        w.frac.2 * denFactor (csf.getD i 0) (b.getD i 0)) := by
  unfold orbitalSwitch stepRule
  rw [h1, h2, h3]
  rcases hc : csf.getD i 0 with _ | _ | _ | _ | n
  · simp [numFactor, denFactor]
  · by_cases hal : alpha u.i_somo = true
    · have hev1 : ev[u.i_somo]?.getD 0 = 1 := by simpa using (hev u.i_somo).mpr hal
      simp [numFactor, denFactor, hal, hev1]
    · have hne : ¬ ev[u.i_somo]?.getD 0 = 1 := fun h => hal ((hev _).mp (by simpa using h))
      simp only [Bool.not_eq_true] at hal
      simp [numFactor, denFactor, hal, hne]
  · by_cases hal : alpha u.i_somo = true
    · have hev1 : ev[u.i_somo]?.getD 0 = 1 := by simpa using (hev u.i_somo).mpr hal
      simp [numFactor, denFactor, hal, hev1]
    · have hne : ¬ ev[u.i_somo]?.getD 0 = 1 := fun h => hal ((hev _).mp (by simpa using h))
      simp only [Bool.not_eq_true] at hal
      simp [numFactor, denFactor, hal, hne]
  · simp [numFactor, denFactor]
  · simp [numFactor, denFactor, h1, h2, h3]

theorem reduced_step (frac : Int × Int) (P Q x y : Int) (h : Reduced frac P Q) :
    Reduced (simplify (frac.1 * x, frac.2 * y)).2 (P * x) (Q * y) := by
  constructor
  · intro hP
    have h0 : frac.1 * x = 0 := by
      rcases mul_eq_zero.mp hP with hp | hx
      · rw [h.1 hp, zero_mul]
      · rw [hx, mul_zero]
    rw [h0, simplify_zero]
  · intro hP
    have hp : P ≠ 0 := left_ne_zero_of_mul hP
    have hx : x ≠ 0 := right_ne_zero_of_mul hP
    obtain ⟨hf, heq, _⟩ := h.2 hp
    have hn : frac.1 * x ≠ 0 := mul_ne_zero hf hx
    obtain ⟨g, n1, d1, hsimp, hg, _, hn1, hd1, hn1ne, hcop⟩ :=
      simplify_spec (frac.1 * x) (frac.2 * y) hn
    rw [hsimp]
    refine ⟨hn1ne, ?_, hcop⟩
    have : n1 * (Q * y) * g = P * x * d1 * g := by
      calc n1 * (Q * y) * g = (n1 * g) * (Q * y) := by ring
        _ = frac.1 * x * (Q * y) := by rw [← hn1]
        _ = (frac.1 * Q) * (x * y) := by ring
        _ = (P * frac.2) * (x * y) := by rw [heq]
        _ = P * x * (frac.2 * y) := by ring
        _ = P * x * (d1 * g) := by rw [← hd1]
        _ = P * x * d1 * g := by ring
    exact mul_right_cancel₀ hg this

/-- After every number of orbitals the counters of the code are those of the
step rules and its fraction is the reduced form of `P / Q`. -/
theorem walk_unreduced (csf : List Nat) (a b ev : List Int) (alpha : Nat → Bool)
    (hev : ∀ j, ev.getD j 0 = 1 ↔ alpha j = true) (m : Nat) :
    (walkUpTo csf a b ev m).i_somo = (unreducedUpTo csf a b alpha m).i_somo ∧
    (walkUpTo csf a b ev m).i_alpha = (unreducedUpTo csf a b alpha m).i_alpha ∧
    (walkUpTo csf a b ev m).i_beta = (unreducedUpTo csf a b alpha m).i_beta ∧
    Reduced (walkUpTo csf a b ev m).frac (unreducedUpTo csf a b alpha m).P
      (unreducedUpTo csf a b alpha m).Q := by
  induction m with
  | zero =>
    refine ⟨rfl, rfl, rfl, ?_, ?_⟩
    · intro h; simp [unreducedUpTo, Unreduced.init] at h
    · intro _; simp [walkUpTo, Walk.init, unreducedUpTo, Unreduced.init]
  | succ m ih =>
    obtain ⟨h1, h2, h3, h4⟩ := ih
    obtain ⟨s1, s2, s3, s4⟩ := orbitalSwitch_spec csf a b ev alpha m _ _ hev h1 h2 h3
    rw [walkUpTo_succ, unreducedUpTo_succ]
    refine ⟨?_, ?_, ?_, ?_⟩
    · simpa [orbital] using s1
    · simpa [orbital] using s2
    · simpa [orbital] using s3
    · have := reduced_step _ _ _
        (numFactor (csf.getD m 0) (alpha (unreducedUpTo csf a b alpha m).i_somo) (a.getD m 0)
          (b.getD m 0) (unreducedUpTo csf a b alpha m).i_alpha
          (unreducedUpTo csf a b alpha m).i_beta)
        (denFactor (csf.getD m 0) (b.getD m 0)) h4
      simp only [orbital, s4]
      exact this

/-! ### The array `spin_eigv` -/

theorem map_getD_range (l : List Nat) : (List.range l.length).map (fun i => l.getD i 0) = l := by
  induction l with
  | nil => rfl
  | cons x l ih =>
    rw [List.length_cons, List.range_succ_eq_map, List.map_cons, List.map_map]
    simp only [List.getD_cons_zero]
    congr 1

theorem foldl_set_getD (lex : List Nat) : ∀ (ev : List Int) (j : Nat),
    (∀ x ∈ lex, x < ev.length) →
    (lex.foldl (fun ev x => ev.set x 1) ev).getD j 0 = if j ∈ lex then 1 else ev.getD j 0 := by
  induction lex with
  | nil => intro ev j _; simp
  | cons x lex ih =>
    intro ev j hb
    rw [List.foldl_cons, ih (ev.set x 1) j
      (by intro y hy; rw [List.length_set]; exact hb y (List.mem_cons_of_mem _ hy))]
    have hx : x < ev.length := hb x (List.mem_cons_self _ _)
    by_cases hj : j ∈ lex
    · simp [hj]
    · by_cases hjx : j = x
      · subst hjx
        simp [hj, List.getElem?_set, hx]
      · have hne : x ≠ j := fun h => hjx h.symm
        simp [hj, hjx, List.getElem?_set_ne hne]

/-- For a combination `lex`, `spin_eigv[j] == 1` exactly at the indices in `lex`. -/
theorem spinEigv_getD (n_somo : Nat) (n_alpha : Int) (lex : List Nat)
    (h : IsComb n_somo n_alpha.toNat lex) (j : Nat) :
    (spinEigv n_somo n_alpha lex).getD j 0 = 1 ↔ decide (j ∈ lex) = true := by
  unfold spinEigv
  have h1 : (List.range n_alpha.toNat).foldl (fun ev i => ev.set (lex.getD i 0) 1)
        (List.replicate n_somo (-1))
      = lex.foldl (fun ev x => ev.set x 1) (List.replicate n_somo (-1)) := by
    conv_rhs => rw [← map_getD_range lex, List.foldl_map]
    rw [h.1]
  rw [h1, foldl_set_getD lex _ j (by intro x hx; simpa using h.2.2 x hx)]
  by_cases hj : j ∈ lex
  · simp [hj]
  · simp only [hj, if_false, decide_False]
    constructor
    · intro h2
      exfalso
      rw [List.getD_eq_getElem?_getD, List.getElem?_replicate] at h2
      split_ifs at h2 <;> simp at h2
    · intro h2; exact absurd h2 (by simp)

/-! ### The products of the factors -/

theorem numFactors_prod (csf : List Nat) (a b : List Int) (alpha : Nat → Bool) (m : Nat) :
    (numFactors csf a b alpha m).prod = (unreducedUpTo csf a b alpha m).P := by
  induction m with
  | zero => rfl
  | succ m ih =>
    have h : numFactors csf a b alpha (m + 1) = numFactors csf a b alpha m ++
        [numFactor (csf.getD m 0) (alpha (unreducedUpTo csf a b alpha m).i_somo) (a.getD m 0)
          (b.getD m 0) (unreducedUpTo csf a b alpha m).i_alpha
          (unreducedUpTo csf a b alpha m).i_beta] := by
      simp [numFactors, List.range_succ]
    rw [h, List.prod_append, ih, unreducedUpTo_succ]
    simp [stepRule]

theorem denFactors_prod (csf : List Nat) (a b : List Int) (alpha : Nat → Bool) (m : Nat) :
    (denFactors csf b m).prod = (unreducedUpTo csf a b alpha m).Q := by
  induction m with
  | zero => rfl
  | succ m ih =>
    have h : denFactors csf b (m + 1) = denFactors csf b m ++
        [denFactor (csf.getD m 0) (b.getD m 0)] := by
      simp [denFactors, List.range_succ]
    rw [h, List.prod_append, ih, unreducedUpTo_succ]
    simp [stepRule]

/-- All `b[i] ≥ 0` means that no prefix of the codes has more `2` (`d`) than `1` (`u`). -/
theorem valid_initial (csf : List Nat) (hb : ∀ x ∈ bArr csf, 0 ≤ x) (m : Nat) :
    (csf.take m).count 2 ≤ (csf.take m).count 1 := by
  cases m with
  | zero => simp
  | succ m =>
    by_cases hm : m < csf.length
    · have := hb _ ((mem_bArr csf _).mpr ⟨m, hm, rfl⟩)
      simp only [tally] at this
      omega
    · by_cases h0 : csf.length = 0
      · rw [List.length_eq_zero.mp h0]; simp
      · have := hb _ ((mem_bArr csf _).mpr ⟨csf.length - 1, by omega, rfl⟩)
        have h1 : csf.length - 1 + 1 = csf.length := by omega
        rw [h1, List.take_length] at this
        rw [List.take_of_length_le (by omega)]
        simp only [tally] at this
        omega

theorem take_succ_getD (csf : List Nat) (m : Nat) (hm : m < csf.length) :
    csf.take (m + 1) = csf.take m ++ [csf.getD m 0] := by
  rw [List.take_succ, List.getD_eq_getElem?_getD, List.getElem?_eq_getElem hm]
  rfl

/-- With all `b[i] ≥ 0` every denominator factor is positive. -/
theorem denFactor_pos (csf : List Nat) (hb : ∀ x ∈ bArr csf, 0 ≤ x) (i : Nat)
    (hi : i < csf.length) : 0 < denFactor (csf.getD i 0) ((bArr csf).getD i 0) := by
  have hprev := valid_initial csf hb i
  have hcur := valid_initial csf hb (i + 1)
  rw [bArr_getD csf i hi]
  rw [take_succ_getD csf i hi] at hcur ⊢
  simp only [tally, List.count_append] at hcur ⊢
  rcases hc : csf.getD i 0 with _ | _ | _ | _ | n
  · simp [denFactor]
  · simp [denFactor]; omega
  · rw [hc] at hcur; simp [denFactor] at hcur ⊢; omega
  · simp [denFactor]
  · simp [denFactor]

theorem denFactors_pos (csf : List Nat) (hb : ∀ x ∈ bArr csf, 0 ≤ x) (m : Nat)
    (hm : m ≤ csf.length) : 0 < (denFactors csf (bArr csf) m).prod := by
  induction m with
  | zero => simp [denFactors]
  | succ m ih =>
    have h : denFactors csf (bArr csf) (m + 1) = denFactors csf (bArr csf) m ++
        [denFactor (csf.getD m 0) ((bArr csf).getD m 0)] := by
      simp [denFactors, List.range_succ]
    rw [h, List.prod_append, List.prod_singleton]
    exact mul_pos (ih (by omega)) (denFactor_pos csf hb m (by omega))

theorem determinant_eq (csf : List Nat) (a b : List Int) (n_mo n_somo : Nat) (n_alpha : Int)
    (lex : List Nat) :
    determinant csf a b n_mo n_somo n_alpha lex =
      if (walkUpTo csf a b (spinEigv n_somo n_alpha lex) n_mo).frac.1 ≠ 0 then
        [{ sign := if (walkUpTo csf a b (spinEigv n_somo n_alpha lex) n_mo).phase > 0 then '+'
              else '-'
           num := (walkUpTo csf a b (spinEigv n_somo n_alpha lex) n_mo).frac.1
           den := (walkUpTo csf a b (spinEigv n_somo n_alpha lex) n_mo).frac.2
           det := (walkUpTo csf a b (spinEigv n_somo n_alpha lex) n_mo).det }]
      else [] := rfl

/-- The fraction of the code after `m` orbitals against the products of the
factors, for a combination `lex`. -/
theorem walk_reduced (csf : List Nat) (a b : List Int) (n_somo : Nat) (n_alpha : Int)
    (lex : List Nat) (hlex : IsComb n_somo n_alpha.toNat lex) (m : Nat) :
    Reduced (walkUpTo csf a b (spinEigv n_somo n_alpha lex) m).frac
      (numFactors csf a b (fun j => decide (j ∈ lex)) m).prod (denFactors csf b m).prod := by
  rw [numFactors_prod, denFactors_prod csf a b (fun j => decide (j ∈ lex))]
  exact (walk_unreduced csf a b _ (fun j => decide (j ∈ lex))
    (spinEigv_getD n_somo n_alpha lex hlex) m).2.2.2

/-- Claim C9.  For a step-vector of valid symbols with all `b[i] ≥ 0` and an
alpha subset `lex` whose determinant is printed: with `P` the product of the
numerator factors and `Q` the product of the denominator factors of the step
rules, `Q` is positive and the printed `num/den` is the rational `P/Q` in
lowest terms (`gcd(num, den) = 1`): the reduction by the gcd after each orbital
does not change the value. -/
theorem coefficient_value (s : List Char) (twoms : Int) (lex : List Nat) (line : Line)
    (hv : ∀ ch ∈ s, validSymbol ch = true) (hb : ∀ x ∈ bArr (csfOf s), 0 ≤ x)
    (hlex : IsComb (nSomoOf s) (((nSomoOf s : Int) + twoms).tdiv 2).toNat lex)
    (hline : line ∈ determinant (csfOf s) (aArr (csfOf s)) (bArr (csfOf s)) (countMo s)
      (nSomoOf s) (((nSomoOf s : Int) + twoms).tdiv 2) lex) :
    0 < (denFactors (csfOf s) (bArr (csfOf s)) (countMo s)).prod ∧
    line.num * (denFactors (csfOf s) (bArr (csfOf s)) (countMo s)).prod
      = (numFactors (csfOf s) (aArr (csfOf s)) (bArr (csfOf s)) (fun j => decide (j ∈ lex))
          (countMo s)).prod * line.den ∧
    line.den ≠ 0 ∧
    (line.num : ℚ) / (line.den : ℚ)
      = ((numFactors (csfOf s) (aArr (csfOf s)) (bArr (csfOf s)) (fun j => decide (j ∈ lex))
          (countMo s)).prod : ℚ) / ((denFactors (csfOf s) (bArr (csfOf s)) (countMo s)).prod : ℚ) ∧
    Int.gcd line.num line.den = 1 := by
  have hQ := denFactors_pos (csfOf s) hb (countMo s) (le_of_eq (countMo_eq_length s hv))
  have hred := walk_reduced (csfOf s) (aArr (csfOf s)) (bArr (csfOf s)) (nSomoOf s)
    (((nSomoOf s : Int) + twoms).tdiv 2) lex hlex (countMo s)
  rw [determinant_eq] at hline
  by_cases h0 : (walkUpTo (csfOf s) (aArr (csfOf s)) (bArr (csfOf s))
      (spinEigv (nSomoOf s) (((nSomoOf s : Int) + twoms).tdiv 2) lex) (countMo s)).frac.1 ≠ 0
  · rw [if_pos h0, List.mem_singleton] at hline
    subst hline
    simp only
    have hP : (numFactors (csfOf s) (aArr (csfOf s)) (bArr (csfOf s))
        (fun j => decide (j ∈ lex)) (countMo s)).prod ≠ 0 := fun h => h0 (hred.1 h)
    obtain ⟨_, heq, hcop⟩ := hred.2 hP
    have hden : (walkUpTo (csfOf s) (aArr (csfOf s)) (bArr (csfOf s))
        (spinEigv (nSomoOf s) (((nSomoOf s : Int) + twoms).tdiv 2) lex) (countMo s)).frac.2 ≠ 0 := by
      intro hd
      rw [hd, mul_zero] at heq
      exact (mul_ne_zero h0 (ne_of_gt hQ)) heq
    refine ⟨hQ, heq, hden, ?_, hcop⟩
    rw [div_eq_div_iff (by exact_mod_cast hden) (by exact_mod_cast (ne_of_gt hQ))]
    exact_mod_cast heq
  · rw [if_neg h0] at hline
    simp at hline

/-- The theorem `coefficient_value` at a concrete input. -/
theorem coefficient_value_witness :
    (∀ ch ∈ ['u', 'd'], validSymbol ch = true) ∧ (∀ x ∈ bArr (csfOf ['u', 'd']), 0 ≤ x) ∧
    IsComb (nSomoOf ['u', 'd']) (((nSomoOf ['u', 'd'] : Int) + 0).tdiv 2).toNat [0] ∧
    (⟨'+', 1, 2, ['a', 'b']⟩ : Line) ∈ determinant (csfOf ['u', 'd']) (aArr (csfOf ['u', 'd']))
      (bArr (csfOf ['u', 'd'])) (countMo ['u', 'd']) (nSomoOf ['u', 'd'])
      (((nSomoOf ['u', 'd'] : Int) + 0).tdiv 2) [0] ∧
    (0 < (denFactors (csfOf ['u', 'd']) (bArr (csfOf ['u', 'd'])) (countMo ['u', 'd'])).prod ∧
    (⟨'+', 1, 2, ['a', 'b']⟩ : Line).num
        * (denFactors (csfOf ['u', 'd']) (bArr (csfOf ['u', 'd'])) (countMo ['u', 'd'])).prod
      = (numFactors (csfOf ['u', 'd']) (aArr (csfOf ['u', 'd'])) (bArr (csfOf ['u', 'd']))
          (fun j => decide (j ∈ [0])) (countMo ['u', 'd'])).prod
        * (⟨'+', 1, 2, ['a', 'b']⟩ : Line).den ∧
    (⟨'+', 1, 2, ['a', 'b']⟩ : Line).den ≠ 0 ∧
    (((⟨'+', 1, 2, ['a', 'b']⟩ : Line).num : Int) : ℚ) / (((⟨'+', 1, 2, ['a', 'b']⟩ : Line).den : Int) : ℚ)
      = ((numFactors (csfOf ['u', 'd']) (aArr (csfOf ['u', 'd'])) (bArr (csfOf ['u', 'd']))
          (fun j => decide (j ∈ [0])) (countMo ['u', 'd'])).prod : ℚ)
        / ((denFactors (csfOf ['u', 'd']) (bArr (csfOf ['u', 'd'])) (countMo ['u', 'd'])).prod : ℚ) ∧
    Int.gcd (⟨'+', 1, 2, ['a', 'b']⟩ : Line).num (⟨'+', 1, 2, ['a', 'b']⟩ : Line).den = 1) :=
  ⟨by decide, by decide, by decide, by decide,
    coefficient_value ['u', 'd'] 0 [0] ⟨'+', 1, 2, ['a', 'b']⟩ (by decide) (by decide)
      (by decide) (by decide)⟩

theorem walk_zero_succ (csf : List Nat) (a b : List Int) (n_somo : Nat) (n_alpha : Int)
    (lex : List Nat) (hlex : IsComb n_somo n_alpha.toNat lex) (m : Nat)
    (h : (walkUpTo csf a b (spinEigv n_somo n_alpha lex) m).frac.1 = 0) :
    (walkUpTo csf a b (spinEigv n_somo n_alpha lex) (m + 1)).frac.1 = 0 := by
  have h1 := walk_reduced csf a b n_somo n_alpha lex hlex m
  have h2 := walk_reduced csf a b n_somo n_alpha lex hlex (m + 1)
  apply h2.1
  have hP : (numFactors csf a b (fun j => decide (j ∈ lex)) m).prod = 0 := by
    by_contra hne
    exact (h1.2 hne).1 h
  have hsucc : numFactors csf a b (fun j => decide (j ∈ lex)) (m + 1)
      = numFactors csf a b (fun j => decide (j ∈ lex)) m ++
        [numFactor (csf.getD m 0) (decide ((unreducedUpTo csf a b
            (fun j => decide (j ∈ lex)) m).i_somo ∈ lex)) (a.getD m 0) (b.getD m 0)
          (unreducedUpTo csf a b (fun j => decide (j ∈ lex)) m).i_alpha
          (unreducedUpTo csf a b (fun j => decide (j ∈ lex)) m).i_beta] := by
    simp [numFactors, List.range_succ]
  rw [hsucc, List.prod_append, hP, zero_mul]

/-- Claim C10.  For every alpha subset `lex`, the determinant is printed iff
none of the per-orbital numerator factors is zero, iff the reduced numerator
after the last orbital is non-zero; once the running numerator is 0 it is 0
after every later orbital, and then nothing is printed for the subset. -/
theorem zero_suppression (s : List Char) (twoms : Int) (lex : List Nat)
    (hlex : IsComb (nSomoOf s) (((nSomoOf s : Int) + twoms).tdiv 2).toNat lex) :
    (determinant (csfOf s) (aArr (csfOf s)) (bArr (csfOf s)) (countMo s) (nSomoOf s)
        (((nSomoOf s : Int) + twoms).tdiv 2) lex ≠ [] ↔
      ∀ f ∈ numFactors (csfOf s) (aArr (csfOf s)) (bArr (csfOf s))
        (fun j => decide (j ∈ lex)) (countMo s), f ≠ 0) ∧
    (determinant (csfOf s) (aArr (csfOf s)) (bArr (csfOf s)) (countMo s) (nSomoOf s)
        (((nSomoOf s : Int) + twoms).tdiv 2) lex ≠ [] ↔
      (walkUpTo (csfOf s) (aArr (csfOf s)) (bArr (csfOf s))
        (spinEigv (nSomoOf s) (((nSomoOf s : Int) + twoms).tdiv 2) lex) (countMo s)).frac.1 ≠ 0) ∧
    (∀ m m', m ≤ m' →
      (walkUpTo (csfOf s) (aArr (csfOf s)) (bArr (csfOf s))
        (spinEigv (nSomoOf s) (((nSomoOf s : Int) + twoms).tdiv 2) lex) m).frac.1 = 0 →
      (walkUpTo (csfOf s) (aArr (csfOf s)) (bArr (csfOf s))
        (spinEigv (nSomoOf s) (((nSomoOf s : Int) + twoms).tdiv 2) lex) m').frac.1 = 0) ∧
    (∀ m, m ≤ countMo s →
      (walkUpTo (csfOf s) (aArr (csfOf s)) (bArr (csfOf s))
        (spinEigv (nSomoOf s) (((nSomoOf s : Int) + twoms).tdiv 2) lex) m).frac.1 = 0 →
      determinant (csfOf s) (aArr (csfOf s)) (bArr (csfOf s)) (countMo s) (nSomoOf s)
        (((nSomoOf s : Int) + twoms).tdiv 2) lex = []) := by
  have hmono : ∀ m m', m ≤ m' →
      (walkUpTo (csfOf s) (aArr (csfOf s)) (bArr (csfOf s))
        (spinEigv (nSomoOf s) (((nSomoOf s : Int) + twoms).tdiv 2) lex) m).frac.1 = 0 →
      (walkUpTo (csfOf s) (aArr (csfOf s)) (bArr (csfOf s))
        (spinEigv (nSomoOf s) (((nSomoOf s : Int) + twoms).tdiv 2) lex) m').frac.1 = 0 := by
    intro m m' hmm h0
    induction m' with
    | zero =>
      have : m = 0 := by omega
      subst this; exact h0
    | succ m' ih =>
      rcases Nat.lt_or_ge m (m' + 1) with hlt | hge
      · exact walk_zero_succ _ _ _ _ _ lex hlex m' (ih (by omega))
      · have : m = m' + 1 := by omega
        subst this; exact h0
  have hemit : determinant (csfOf s) (aArr (csfOf s)) (bArr (csfOf s)) (countMo s) (nSomoOf s)
        (((nSomoOf s : Int) + twoms).tdiv 2) lex ≠ [] ↔
      (walkUpTo (csfOf s) (aArr (csfOf s)) (bArr (csfOf s))
        (spinEigv (nSomoOf s) (((nSomoOf s : Int) + twoms).tdiv 2) lex) (countMo s)).frac.1 ≠ 0 := by
    rw [determinant_eq]
    by_cases h : (walkUpTo (csfOf s) (aArr (csfOf s)) (bArr (csfOf s))
        (spinEigv (nSomoOf s) (((nSomoOf s : Int) + twoms).tdiv 2) lex) (countMo s)).frac.1 ≠ 0
    · rw [if_pos h]
      exact ⟨fun _ => h, fun _ => List.cons_ne_nil _ _⟩
    · rw [if_neg h]
      exact ⟨fun h2 => absurd rfl h2, fun h2 => absurd h2 h⟩
  have hred := walk_reduced (csfOf s) (aArr (csfOf s)) (bArr (csfOf s)) (nSomoOf s)
    (((nSomoOf s : Int) + twoms).tdiv 2) lex hlex (countMo s)
  refine ⟨?_, hemit, hmono, ?_⟩
  · rw [hemit]
    constructor
    · intro h f hf hf0
      apply h
      apply hred.1
      rw [List.prod_eq_zero_iff]
      rw [hf0] at hf
      exact hf
    · intro h h0
      have hP : (numFactors (csfOf s) (aArr (csfOf s)) (bArr (csfOf s))
          (fun j => decide (j ∈ lex)) (countMo s)).prod = 0 := by
        by_contra hne
        exact (hred.2 hne).1 h0
      rw [List.prod_eq_zero_iff] at hP
      exact h 0 hP rfl
  · intro m hm h0
    have := hmono m (countMo s) hm h0
    by_contra hne
    exact (hemit.mp hne) this

/-- The theorem `zero_suppression` at a concrete input. -/
theorem zero_suppression_witness :
    IsComb (nSomoOf ['u', 'u', 'd', 'd'])
      (((nSomoOf ['u', 'u', 'd', 'd'] : Int) + 0).tdiv 2).toNat [0, 2] ∧
    ((determinant (csfOf ['u', 'u', 'd', 'd']) (aArr (csfOf ['u', 'u', 'd', 'd']))
        (bArr (csfOf ['u', 'u', 'd', 'd'])) (countMo ['u', 'u', 'd', 'd'])
        (nSomoOf ['u', 'u', 'd', 'd'])
        (((nSomoOf ['u', 'u', 'd', 'd'] : Int) + 0).tdiv 2) [0, 2] ≠ [] ↔
      ∀ f ∈ numFactors (csfOf ['u', 'u', 'd', 'd']) (aArr (csfOf ['u', 'u', 'd', 'd']))
        (bArr (csfOf ['u', 'u', 'd', 'd']))
        (fun j => decide (j ∈ [0, 2])) (countMo ['u', 'u', 'd', 'd']), f ≠ 0) ∧
    (determinant (csfOf ['u', 'u', 'd', 'd']) (aArr (csfOf ['u', 'u', 'd', 'd']))
        (bArr (csfOf ['u', 'u', 'd', 'd'])) (countMo ['u', 'u', 'd', 'd'])
        (nSomoOf ['u', 'u', 'd', 'd'])
        (((nSomoOf ['u', 'u', 'd', 'd'] : Int) + 0).tdiv 2) [0, 2] ≠ [] ↔
      (walkUpTo (csfOf ['u', 'u', 'd', 'd']) (aArr (csfOf ['u', 'u', 'd', 'd']))
        (bArr (csfOf ['u', 'u', 'd', 'd']))
        (spinEigv (nSomoOf ['u', 'u', 'd', 'd'])
          (((nSomoOf ['u', 'u', 'd', 'd'] : Int) + 0).tdiv 2) [0, 2])
        (countMo ['u', 'u', 'd', 'd'])).frac.1 ≠ 0) ∧
    (∀ m m', m ≤ m' →
      (walkUpTo (csfOf ['u', 'u', 'd', 'd']) (aArr (csfOf ['u', 'u', 'd', 'd']))
        (bArr (csfOf ['u', 'u', 'd', 'd']))
        (spinEigv (nSomoOf ['u', 'u', 'd', 'd'])
          (((nSomoOf ['u', 'u', 'd', 'd'] : Int) + 0).tdiv 2) [0, 2]) m).frac.1 = 0 →
      (walkUpTo (csfOf ['u', 'u', 'd', 'd']) (aArr (csfOf ['u', 'u', 'd', 'd']))
        (bArr (csfOf ['u', 'u', 'd', 'd']))
        (spinEigv (nSomoOf ['u', 'u', 'd', 'd'])
          (((nSomoOf ['u', 'u', 'd', 'd'] : Int) + 0).tdiv 2) [0, 2]) m').frac.1 = 0) ∧
    (∀ m, m ≤ countMo ['u', 'u', 'd', 'd'] →
      (walkUpTo (csfOf ['u', 'u', 'd', 'd']) (aArr (csfOf ['u', 'u', 'd', 'd']))
        (bArr (csfOf ['u', 'u', 'd', 'd']))
        (spinEigv (nSomoOf ['u', 'u', 'd', 'd'])
          (((nSomoOf ['u', 'u', 'd', 'd'] : Int) + 0).tdiv 2) [0, 2]) m).frac.1 = 0 →
      determinant (csfOf ['u', 'u', 'd', 'd']) (aArr (csfOf ['u', 'u', 'd', 'd']))
        (bArr (csfOf ['u', 'u', 'd', 'd'])) (countMo ['u', 'u', 'd', 'd'])
        (nSomoOf ['u', 'u', 'd', 'd'])
        (((nSomoOf ['u', 'u', 'd', 'd'] : Int) + 0).tdiv 2) [0, 2] = [])) :=
  ⟨by decide, zero_suppression ['u', 'u', 'd', 'd'] 0 [0, 2] (by decide)⟩

/-! ### The counters of the step rules in closed form -/

theorem countP_mem_range (n : Nat) (A : Finset Nat) (hA : A ⊆ Finset.range n) :
    (List.range n).countP (fun j => decide (j ∈ A)) = A.card := by
  rw [List.countP_eq_length_filter,
    ← List.toFinset_card_of_nodup ((List.nodup_range n).filter _), List.toFinset_filter]
  congr 1
  ext j
  simp only [Finset.mem_filter, List.mem_toFinset, List.mem_range, decide_eq_true_eq]
  constructor
  · exact fun h => h.2
  · exact fun h => ⟨Finset.mem_range.mp (hA h), h⟩

theorem countP_add_countP_not (p : Nat → Bool) (l : List Nat) :
    l.countP p + l.countP (fun j => !p j) = l.length := by
  induction l with
  | nil => rfl
  | cons x l ih =>
    simp only [List.countP_cons, List.length_cons]
    cases p x <;> simp <;> omega

theorem countP_not_mem_range (n : Nat) (A : Finset Nat) (hA : A ⊆ Finset.range n) :
    (List.range n).countP (fun j => !decide (j ∈ A)) = n - A.card := by
  have h := countP_add_countP_not (fun j => decide (j ∈ A)) (List.range n)
  rw [List.length_range, countP_mem_range n A hA] at h
  omega

theorem unreduced_i_somo (csf : List Nat) (a b : List Int) (alpha : Nat → Bool) (m : Nat)
    (hm : m ≤ csf.length) :
    (unreducedUpTo csf a b alpha m).i_somo = (csf.take m).count 1 + (csf.take m).count 2 := by
  induction m with
  | zero => rfl
  | succ m ih =>
    rw [unreducedUpTo_succ, take_succ_getD csf m (by omega)]
    simp only [stepRule, List.count_append, ih (by omega)]
    rcases hc : csf.getD m 0 with _ | _ | _ | _ | n
    · simp
    · simp; omega
    · simp; omega
    · simp
    · simp

theorem unreduced_i_alpha (csf : List Nat) (a b : List Int) (alpha : Nat → Bool) (m : Nat)
    (hm : m ≤ csf.length) :
    (unreducedUpTo csf a b alpha m).i_alpha = ((csf.take m).count 3 : Int)
        + ((List.range ((csf.take m).count 1 + (csf.take m).count 2)).countP alpha : Int) ∧
    (unreducedUpTo csf a b alpha m).i_beta = ((csf.take m).count 3 : Int)
        + ((List.range ((csf.take m).count 1 + (csf.take m).count 2)).countP
            (fun j => !alpha j) : Int) := by
  induction m with
  | zero => exact ⟨rfl, rfl⟩
  | succ m ih =>
    obtain ⟨ih1, ih2⟩ := ih (by omega)
    have hs := unreduced_i_somo csf a b alpha m (by omega)
    rw [unreducedUpTo_succ, take_succ_getD csf m (by omega)]
    simp only [stepRule, List.count_append, ih1, ih2, hs]
    rcases hc : csf.getD m 0 with _ | _ | _ | _ | n
    · simp
    · by_cases hal : alpha ((csf.take m).count 1 + (csf.take m).count 2) = true
      · simp [hal, ← Nat.add_assoc, Nat.add_right_comm _ 1, List.range_succ]
        ring
      · simp only [Bool.not_eq_true] at hal
        simp [hal, ← Nat.add_assoc, Nat.add_right_comm _ 1, List.range_succ]
        ring
    · by_cases hal : alpha ((csf.take m).count 1 + (csf.take m).count 2) = true
      · simp [hal, ← Nat.add_assoc, List.range_succ]
        ring
      · simp only [Bool.not_eq_true] at hal
        simp [hal, ← Nat.add_assoc, List.range_succ]
        ring
    · simp
      constructor <;> ring
    · simp

/-- The state of the step rules after `m` orbitals depends on the assignment
only through the singly-occupied orbitals met so far. -/
theorem unreduced_congr (csf : List Nat) (a b : List Int) (alpha alpha' : Nat → Bool) (m : Nat)
    (hm : m ≤ csf.length)
    (h : ∀ j, j < (csf.take m).count 1 + (csf.take m).count 2 → alpha j = alpha' j) :
    unreducedUpTo csf a b alpha m = unreducedUpTo csf a b alpha' m := by
  induction m with
  | zero => rfl
  | succ m ih =>
    have hs := unreduced_i_somo csf a b alpha' m (by omega)
    have htake := take_succ_getD csf m (by omega)
    rw [htake] at h
    simp only [List.count_append] at h
    have ih' := ih (by omega) (fun j hj => h j (by omega))
    rw [unreducedUpTo_succ, unreducedUpTo_succ, ih']
    simp only [stepRule, hs]
    rcases hc : csf.getD m 0 with _ | _ | _ | _ | n
    · simp [numFactor]
    · have hal := h ((csf.take m).count 1 + (csf.take m).count 2) (by rw [hc]; simp)
      rw [hal]
    · have hal := h ((csf.take m).count 1 + (csf.take m).count 2) (by rw [hc]; simp)
      rw [hal]
    · simp [numFactor]
    · simp [numFactor]

/-- The step of orbital `m` for a subset `B` of the singly-occupied orbitals met
so far: orbital `m`, if singly occupied, is beta. -/
theorem step_beta (csf : List Nat) (m : Nat) (hm : m < csf.length) (B : Finset Nat)
    (hB : B ⊆ Finset.range ((csf.take m).count 1 + (csf.take m).count 2)) :
    (csf.getD m 0 = 1 →
      (unreducedUpTo csf (aArr csf) (bArr csf) (fun j => decide (j ∈ B)) (m + 1)).P
        = (unreducedUpTo csf (aArr csf) (bArr csf) (fun j => decide (j ∈ B)) m).P
          * (((csf.take m).count 1 : Int) + 1 - B.card) ∧
      (unreducedUpTo csf (aArr csf) (bArr csf) (fun j => decide (j ∈ B)) (m + 1)).Q
        = (unreducedUpTo csf (aArr csf) (bArr csf) (fun j => decide (j ∈ B)) m).Q
          * (((csf.take m).count 1 : Int) + 1 - (csf.take m).count 2)) ∧
    (csf.getD m 0 = 2 →
      (unreducedUpTo csf (aArr csf) (bArr csf) (fun j => decide (j ∈ B)) (m + 1)).P
        = (unreducedUpTo csf (aArr csf) (bArr csf) (fun j => decide (j ∈ B)) m).P
          * ((B.card : Int) - (csf.take m).count 2) ∧
      (unreducedUpTo csf (aArr csf) (bArr csf) (fun j => decide (j ∈ B)) (m + 1)).Q
        = (unreducedUpTo csf (aArr csf) (bArr csf) (fun j => decide (j ∈ B)) m).Q
          * (((csf.take m).count 1 : Int) - (csf.take m).count 2 + 1)) ∧
    (csf.getD m 0 ≠ 1 → csf.getD m 0 ≠ 2 →
      (unreducedUpTo csf (aArr csf) (bArr csf) (fun j => decide (j ∈ B)) (m + 1)).P
        = (unreducedUpTo csf (aArr csf) (bArr csf) (fun j => decide (j ∈ B)) m).P ∧
      (unreducedUpTo csf (aArr csf) (bArr csf) (fun j => decide (j ∈ B)) (m + 1)).Q
        = (unreducedUpTo csf (aArr csf) (bArr csf) (fun j => decide (j ∈ B)) m).Q) := by
  have hs := unreduced_i_somo csf (aArr csf) (bArr csf) (fun j => decide (j ∈ B)) m (by omega)
  obtain ⟨ha, _⟩ := unreduced_i_alpha csf (aArr csf) (bArr csf) (fun j => decide (j ∈ B)) m
    (by omega)
  rw [countP_mem_range _ B hB] at ha
  have hnot : decide ((csf.take m).count 1 + (csf.take m).count 2 ∈ B) = false := by
    simp only [decide_eq_false_iff_not]
    intro h
    exact absurd (Finset.mem_range.mp (hB h)) (lt_irrefl _)
  have hA := aArr_getD csf m hm
  have hBb := bArr_getD csf m hm
  rw [take_succ_getD csf m hm] at hA hBb
  simp only [tally, List.count_append] at hA hBb
  rw [unreducedUpTo_succ]
  simp only [stepRule, hs, hnot, ha, hA, hBb]
  refine ⟨?_, ?_, ?_⟩
  · intro hc
    rw [hc]
    simp only [numFactor, denFactor]
    constructor
    · congr 1
      simp
      try ring
    · congr 1
      try simp
      try ring
  · intro hc
    rw [hc]
    simp only [numFactor, denFactor]
    constructor
    · congr 1
      simp
      try ring
    · congr 1
      try simp
      try ring
  · intro h1 h2
    rcases hc : csf.getD m 0 with _ | _ | _ | _ | n
    · simp [numFactor, denFactor]
    · exact absurd hc h1
    · exact absurd hc h2
    · simp [numFactor, denFactor]
    · simp [numFactor, denFactor]

/-- The step of orbital `m` for a subset `B` of the singly-occupied orbitals met
so far to which the singly-occupied orbital `m` is added as alpha. -/
theorem step_alpha (csf : List Nat) (m : Nat) (hm : m < csf.length) (B : Finset Nat)
    (hB : B ⊆ Finset.range ((csf.take m).count 1 + (csf.take m).count 2)) :
    (csf.getD m 0 = 1 →
      (unreducedUpTo csf (aArr csf) (bArr csf)
          (fun j => decide (j ∈ insert ((csf.take m).count 1 + (csf.take m).count 2) B))
          (m + 1)).P
        = (unreducedUpTo csf (aArr csf) (bArr csf) (fun j => decide (j ∈ B)) m).P
          * ((B.card : Int) + 1 - (csf.take m).count 2) ∧
      (unreducedUpTo csf (aArr csf) (bArr csf)
          (fun j => decide (j ∈ insert ((csf.take m).count 1 + (csf.take m).count 2) B))
          (m + 1)).Q
        = (unreducedUpTo csf (aArr csf) (bArr csf) (fun j => decide (j ∈ B)) m).Q
          * (((csf.take m).count 1 : Int) + 1 - (csf.take m).count 2)) ∧
    (csf.getD m 0 = 2 →
      (unreducedUpTo csf (aArr csf) (bArr csf)
          (fun j => decide (j ∈ insert ((csf.take m).count 1 + (csf.take m).count 2) B))
          (m + 1)).P
        = (unreducedUpTo csf (aArr csf) (bArr csf) (fun j => decide (j ∈ B)) m).P
          * (((csf.take m).count 1 : Int) - B.card) ∧
      (unreducedUpTo csf (aArr csf) (bArr csf)
          (fun j => decide (j ∈ insert ((csf.take m).count 1 + (csf.take m).count 2) B))
          (m + 1)).Q
        = (unreducedUpTo csf (aArr csf) (bArr csf) (fun j => decide (j ∈ B)) m).Q
          * (((csf.take m).count 1 : Int) - (csf.take m).count 2 + 1)) := by
  have hcong := unreduced_congr csf (aArr csf) (bArr csf)
    (fun j => decide (j ∈ insert ((csf.take m).count 1 + (csf.take m).count 2) B))
    (fun j => decide (j ∈ B)) m (by omega)
    (by
      intro j hj
      have : j ≠ (csf.take m).count 1 + (csf.take m).count 2 := by omega
      simp [this])
  have hs := unreduced_i_somo csf (aArr csf) (bArr csf) (fun j => decide (j ∈ B)) m (by omega)
  obtain ⟨_, hbeta⟩ := unreduced_i_alpha csf (aArr csf) (bArr csf) (fun j => decide (j ∈ B)) m
    (by omega)
  rw [countP_not_mem_range _ B hB] at hbeta
  have hcard : B.card ≤ (csf.take m).count 1 + (csf.take m).count 2 := by
    have := Finset.card_le_card hB
    rwa [Finset.card_range] at this
  have hyes : decide ((csf.take m).count 1 + (csf.take m).count 2
      ∈ insert ((csf.take m).count 1 + (csf.take m).count 2) B) = true := by
    simp
  have hA := aArr_getD csf m hm
  have hBb := bArr_getD csf m hm
  rw [take_succ_getD csf m hm] at hA hBb
  simp only [tally, List.count_append] at hA hBb
  rw [unreducedUpTo_succ, hcong]
  simp only [stepRule, hs, hyes, hbeta, hA, hBb]
  refine ⟨?_, ?_⟩
  · intro hc
    rw [hc]
    simp only [numFactor, denFactor]
    constructor
    · congr 1
      simp
      try omega
    · congr 1
      try simp
      try ring
  · intro hc
    rw [hc]
    simp only [numFactor, denFactor]
    constructor
    · congr 1
      simp
      try omega
    · congr 1
      try simp
      try ring

/-! ### Summing the weights over the alpha subsets -/

/-- Splitting the `k`-subsets of `{0,...,n}` by whether they contain `n`. -/
theorem sum_powersetCard_succ (f g : Finset Nat → ℚ) (n k : Nat) (bf af : ℚ)
    (hbeta : ∀ B ∈ Finset.powersetCard k (Finset.range n), g B = f B * bf)
    (halpha : ∀ B ∈ Finset.powersetCard (k - 1) (Finset.range n), g (insert n B) = f B * af) :
    ∑ A ∈ Finset.powersetCard k (Finset.range (n + 1)), g A
      = (∑ B ∈ Finset.powersetCard k (Finset.range n), f B) * bf
        + (if k = 0 then 0
            else (∑ B ∈ Finset.powersetCard (k - 1) (Finset.range n), f B) * af) := by
  cases k with
  | zero =>
    simp only [Finset.powersetCard_zero, Finset.sum_singleton, if_true, add_zero]
    exact hbeta ∅ (by simp)
  | succ k =>
    simp only [Nat.add_sub_cancel, Nat.add_one_ne_zero, if_false] at halpha ⊢
    rw [Finset.range_succ, Finset.powersetCard_succ_insert Finset.not_mem_range_self,
      Finset.sum_union, Finset.sum_image, Finset.sum_mul, Finset.sum_mul]
    · congr 1
      · exact Finset.sum_congr rfl hbeta
      · exact Finset.sum_congr rfl halpha
    · intro B hB B' hB' heq
      have h1 : n ∉ B := fun h =>
        absurd (Finset.mem_range.mp ((Finset.mem_powersetCard.mp hB).1 h)) (lt_irrefl _)
      have h2 : n ∉ B' := fun h =>
        absurd (Finset.mem_range.mp ((Finset.mem_powersetCard.mp hB').1 h)) (lt_irrefl _)
      rw [← Finset.erase_insert h1, ← Finset.erase_insert h2, heq]
    · rw [Finset.disjoint_left]
      intro A hA hA'
      obtain ⟨B, _, rfl⟩ := Finset.mem_image.mp hA'
      have := (Finset.mem_powersetCard.mp hA).1 (Finset.mem_insert_self n B)
      exact absurd (Finset.mem_range.mp this) (lt_irrefl _)

theorem up_arith (U Dn k : Nat) (h : Dn ≤ U) :
    (if Dn ≤ k ∧ k ≤ U then (1 : ℚ) else 0) * (((U : ℚ) + 1 - k) / ((U : ℚ) + 1 - Dn))
      + (if k = 0 then 0
          else (if Dn ≤ k - 1 ∧ k - 1 ≤ U then (1 : ℚ) else 0)
            * ((((k - 1 : Nat) : ℚ) + 1 - Dn) / ((U : ℚ) + 1 - Dn)))
      = if Dn ≤ k ∧ k ≤ U + 1 then 1 else 0 := by
  have hden : ((U : ℚ) + 1 - Dn) ≠ 0 := by
    have : (Dn : ℚ) ≤ U := by exact_mod_cast h
    linarith
  cases k with
  | zero =>
    simp only [if_true, add_zero, Nat.cast_zero, sub_zero]
    by_cases hd : Dn = 0
    · subst hd; simp
      exact div_self (by positivity)
    · simp [hd]
  | succ k =>
    simp only [Nat.add_one_ne_zero, if_false, Nat.add_sub_cancel]
    by_cases h1 : Dn ≤ k + 1 ∧ k + 1 ≤ U
    · by_cases h2 : Dn ≤ k ∧ k ≤ U
      · rw [if_pos h1, if_pos h2, if_pos ⟨h1.1, by omega⟩]
        push_cast
        field_simp
        ring
      · have hk : k + 1 = Dn := by omega
        rw [if_pos h1, if_neg h2, if_pos ⟨h1.1, by omega⟩]
        subst hk
        rw [div_self hden]
        simp
    · by_cases h2 : Dn ≤ k ∧ k ≤ U
      · have hk : k = U := by omega
        rw [if_neg h1, if_pos h2, if_pos ⟨by omega, by omega⟩]
        rw [hk]
        field_simp
      · rw [if_neg h1, if_neg h2, if_neg (by omega)]
        simp

theorem down_arith (U Dn k : Nat) (h : Dn ≤ U) :
    (if Dn ≤ k ∧ k ≤ U then (1 : ℚ) else 0) * (((k : ℚ) - Dn) / ((U : ℚ) - Dn + 1))
      + (if k = 0 then 0
          else (if Dn ≤ k - 1 ∧ k - 1 ≤ U then (1 : ℚ) else 0)
            * (((U : ℚ) - ((k - 1 : Nat) : ℚ)) / ((U : ℚ) - Dn + 1)))
      = if Dn + 1 ≤ k ∧ k ≤ U then 1 else 0 := by
  have hden : ((U : ℚ) - Dn + 1) ≠ 0 := by
    have : (Dn : ℚ) ≤ U := by exact_mod_cast h
    linarith
  cases k with
  | zero =>
    simp only [if_true, add_zero, Nat.cast_zero, zero_sub]
    rw [if_neg (show ¬(Dn + 1 ≤ 0 ∧ 0 ≤ U) by omega)]
    by_cases hd : Dn = 0
    · subst hd; simp
    · simp [hd]
  | succ k =>
    simp only [Nat.add_one_ne_zero, if_false, Nat.add_sub_cancel]
    by_cases h1 : Dn ≤ k + 1 ∧ k + 1 ≤ U
    · by_cases h2 : Dn ≤ k ∧ k ≤ U
      · rw [if_pos h1, if_pos h2, if_pos ⟨by omega, h1.2⟩]
        push_cast
        field_simp
        ring
      · have hk : k + 1 = Dn := by omega
        rw [if_pos h1, if_neg h2, if_neg (show ¬(Dn + 1 ≤ k + 1 ∧ k + 1 ≤ U) by omega)]
        rw [← hk]
        push_cast
        simp
    · by_cases h2 : Dn ≤ k ∧ k ≤ U
      · have hk : k = U := by omega
        rw [if_neg h1, if_pos h2, if_neg (show ¬(Dn + 1 ≤ k + 1 ∧ k + 1 ≤ U) by omega)]
        rw [hk]
        simp
      · rw [if_neg h1, if_neg h2, if_neg (show ¬(Dn + 1 ≤ k + 1 ∧ k + 1 ≤ U) by omega)]
        simp

theorem weight_succ_of (csf : List Nat) (m : Nat) (A B : Finset Nat) (x y : Int)
    (hP : (unreducedUpTo csf (aArr csf) (bArr csf) (fun j => decide (j ∈ A)) (m + 1)).P
      = (unreducedUpTo csf (aArr csf) (bArr csf) (fun j => decide (j ∈ B)) m).P * x)
    (hQ : (unreducedUpTo csf (aArr csf) (bArr csf) (fun j => decide (j ∈ A)) (m + 1)).Q
      = (unreducedUpTo csf (aArr csf) (bArr csf) (fun j => decide (j ∈ B)) m).Q * y) :
    weight csf (m + 1) A = weight csf m B * ((x : ℚ) / (y : ℚ)) := by
  unfold weight
  rw [hP, hQ]
  push_cast
  rw [mul_div_mul_comm]

/-- The weights of all assignments of `k` alphas to the singly-occupied
orbitals among the first `m` orbitals sum to 1 if `k` lies between the number
of `d` and the number of `u` among them, and to 0 otherwise. -/
theorem weight_sum (csf : List Nat) (hb : ∀ x ∈ bArr csf, 0 ≤ x) :
    ∀ m, m ≤ csf.length → ∀ k : Nat,
    ∑ A ∈ Finset.powersetCard k (Finset.range ((csf.take m).count 1 + (csf.take m).count 2)),
        weight csf m A
      = if (csf.take m).count 2 ≤ k ∧ k ≤ (csf.take m).count 1 then 1 else 0 := by
  intro m
  induction m with
  | zero =>
    intro _ k
    cases k with
    | zero => simp [weight, unreducedUpTo, Unreduced.init]
    | succ k =>
      have hempty : Finset.powersetCard (k + 1) (∅ : Finset Nat) = ∅ :=
        Finset.powersetCard_eq_empty.mpr (by simp)
      simp [hempty]
  | succ m ih =>
    intro hm k
    have ih' := ih (by omega)
    have hvalid := valid_initial csf hb m
    have hbeta := fun B hB => step_beta csf m (by omega) B hB
    have halpha := fun B hB => step_alpha csf m (by omega) B hB
    rw [take_succ_getD csf m (by omega)]
    simp only [List.count_append]
    rcases hc : csf.getD m 0 with _ | _ | _ | _ | c
    · -- unoccupied
      simp only [List.count_singleton', Nat.add_zero, if_false, Nat.zero_ne_one,
        show ¬ (0 : Nat) = 2 by omega]
      rw [← ih' k]
      apply Finset.sum_congr rfl
      intro B hB
      have h := (hbeta B (Finset.mem_powersetCard.mp hB).1).2.2 (by rw [hc]; omega)
        (by rw [hc]; omega)
      unfold weight
      rw [h.1, h.2]
    · -- singly occupied, up
      have e : (csf.take m).count 1 + List.count 1 [0 + 1]
          + ((csf.take m).count 2 + List.count 2 [0 + 1])
          = (csf.take m).count 1 + (csf.take m).count 2 + 1 := by simp; omega
      have e1 : List.count 1 [0 + 1] = 1 := by simp
      have e2 : List.count 2 [0 + 1] = 0 := by simp
      rw [e, e1, e2, Nat.add_zero]
      rw [sum_powersetCard_succ (weight csf m) (weight csf (m + 1)) _ k
        ((((csf.take m).count 1 : ℚ) + 1 - k) / (((csf.take m).count 1 : ℚ) + 1
          - (csf.take m).count 2))
        ((((k - 1 : Nat) : ℚ) + 1 - (csf.take m).count 2) / (((csf.take m).count 1 : ℚ) + 1
          - (csf.take m).count 2))]
      · rw [ih' k, ih' (k - 1)]
        exact up_arith _ _ k hvalid
      · intro B hB
        obtain ⟨hsub, hcard⟩ := Finset.mem_powersetCard.mp hB
        have h := (hbeta B hsub).1 hc
        rw [weight_succ_of csf m B B _ _ h.1 h.2, hcard]
        push_cast
        rfl
      · intro B hB
        obtain ⟨hsub, hcard⟩ := Finset.mem_powersetCard.mp hB
        have h := (halpha B hsub).1 hc
        rw [weight_succ_of csf m _ B _ _ h.1 h.2, hcard]
        push_cast
        rfl
    · -- singly occupied, down
      have e : (csf.take m).count 1 + List.count 1 [0 + 1 + 1]
          + ((csf.take m).count 2 + List.count 2 [0 + 1 + 1])
          = (csf.take m).count 1 + (csf.take m).count 2 + 1 := by simp; omega
      have e1 : List.count 1 [0 + 1 + 1] = 0 := by simp
      have e2 : List.count 2 [0 + 1 + 1] = 1 := by simp
      rw [e, e1, e2, Nat.add_zero]
      rw [sum_powersetCard_succ (weight csf m) (weight csf (m + 1)) _ k
        (((k : ℚ) - (csf.take m).count 2) / (((csf.take m).count 1 : ℚ)
          - (csf.take m).count 2 + 1))
        ((((csf.take m).count 1 : ℚ) - ((k - 1 : Nat) : ℚ)) / (((csf.take m).count 1 : ℚ)
          - (csf.take m).count 2 + 1))]
      · rw [ih' k, ih' (k - 1)]
        exact down_arith _ _ k hvalid
      · intro B hB
        obtain ⟨hsub, hcard⟩ := Finset.mem_powersetCard.mp hB
        have h := (hbeta B hsub).2.1 hc
        rw [weight_succ_of csf m B B _ _ h.1 h.2, hcard]
        push_cast
        rfl
      · intro B hB
        obtain ⟨hsub, hcard⟩ := Finset.mem_powersetCard.mp hB
        have h := (halpha B hsub).2 hc
        rw [weight_succ_of csf m _ B _ _ h.1 h.2, hcard]
        push_cast
        rfl
    · -- doubly occupied
      have e1 : List.count 1 [0 + 1 + 1 + 1] = 0 := by simp
      have e2 : List.count 2 [0 + 1 + 1 + 1] = 0 := by simp
      rw [e1, e2, Nat.add_zero, Nat.add_zero]
      rw [← ih' k]
      apply Finset.sum_congr rfl
      intro B hB
      have h := (hbeta B (Finset.mem_powersetCard.mp hB).1).2.2 (by rw [hc]; omega)
        (by rw [hc]; omega)
      unfold weight
      rw [h.1, h.2]
    · -- no other code occurs
      have e1 : List.count 1 [c + 1 + 1 + 1 + 1] = 0 := by simp
      have e2 : List.count 2 [c + 1 + 1 + 1 + 1] = 0 := by simp
      rw [e1, e2, Nat.add_zero, Nat.add_zero]
      rw [← ih' k]
      apply Finset.sum_congr rfl
      intro B hB
      have h := (hbeta B (Finset.mem_powersetCard.mp hB).1).2.2 (by rw [hc]; omega)
        (by rw [hc]; omega)
      unfold weight
      rw [h.1, h.2]

/-! ### The printed lines -/

theorem sum_flatMap_map (L : List (List Nat)) (f : List Nat → List Line) (g : Line → ℚ) :
    ((L.flatMap f).map g).sum = (L.map (fun l => ((f l).map g).sum)).sum := by
  induction L with
  | nil => rfl
  | cons l L ih => simp [List.flatMap_cons, ih]

/-- The value printed for a combination is its weight (nothing is printed
when the weight is zero). -/
theorem determinant_sum (csf : List Nat) (hb : ∀ x ∈ bArr csf, 0 ≤ x) (n_somo : Nat)
    (n_alpha : Int) (lex : List Nat) (hlex : IsComb n_somo n_alpha.toNat lex) :
    ((determinant csf (aArr csf) (bArr csf) csf.length n_somo n_alpha lex).map
        (fun l => (l.num : ℚ) / (l.den : ℚ))).sum
      = weight csf csf.length lex.toFinset := by
  have hQ := denFactors_pos csf hb csf.length (le_refl _)
  have hred := walk_reduced csf (aArr csf) (bArr csf) n_somo n_alpha lex hlex csf.length
  have hfun : (fun j => decide (j ∈ lex.toFinset)) = (fun j => decide (j ∈ lex)) := by
    funext j; simp
  unfold weight
  rw [hfun, ← numFactors_prod, ← denFactors_prod]
  rw [determinant_eq]
  by_cases h0 : (walkUpTo csf (aArr csf) (bArr csf) (spinEigv n_somo n_alpha lex)
      csf.length).frac.1 ≠ 0
  · rw [if_pos h0]
    have hP : (numFactors csf (aArr csf) (bArr csf) (fun j => decide (j ∈ lex))
        csf.length).prod ≠ 0 := fun h => h0 (hred.1 h)
    obtain ⟨_, heq, _⟩ := hred.2 hP
    have hden : (walkUpTo csf (aArr csf) (bArr csf) (spinEigv n_somo n_alpha lex)
        csf.length).frac.2 ≠ 0 := by
      intro hd
      rw [hd, mul_zero] at heq
      exact (mul_ne_zero h0 (ne_of_gt hQ)) heq
    simp only [List.map_cons, List.map_nil, List.sum_cons, List.sum_nil, add_zero]
    rw [div_eq_div_iff (by exact_mod_cast hden) (by exact_mod_cast (ne_of_gt hQ))]
    exact_mod_cast heq
  · rw [if_neg h0]
    have hP : (numFactors csf (aArr csf) (bArr csf) (fun j => decide (j ∈ lex))
        csf.length).prod = 0 := by
      by_contra hne
      exact h0 (hred.2 hne).1
    rw [hP]
    simp

/-- The combinations, as finite sets, are the `k`-subsets of `{0,...,n-1}`. -/
theorem combs_toFinset (n k : Nat) (L : List (List Nat)) (hnd : L.Nodup)
    (hmem : ∀ l, l ∈ L ↔ IsComb n k l) :
    (L.map List.toFinset).Nodup ∧
    (L.map List.toFinset).toFinset = Finset.powersetCard k (Finset.range n) := by
  constructor
  · apply List.Nodup.map_on _ hnd
    intro x hx y hy hxy
    have cx := (hmem x).mp hx
    have cy := (hmem y).mp hy
    have nx : x.Nodup := cx.2.1.imp (fun h => Nat.ne_of_lt h)
    have ny : y.Nodup := cy.2.1.imp (fun h => Nat.ne_of_lt h)
    have hperm := List.perm_of_nodup_nodup_toFinset_eq nx ny hxy
    exact List.eq_of_perm_of_sorted (r := (· ≤ ·)) hperm (cx.2.1.imp (fun h => Nat.le_of_lt h))
      (cy.2.1.imp (fun h => Nat.le_of_lt h))
  · ext A
    simp only [List.mem_toFinset, List.mem_map, Finset.mem_powersetCard]
    constructor
    · rintro ⟨l, hl, rfl⟩
      have c := (hmem l).mp hl
      have nl : l.Nodup := c.2.1.imp (fun h => Nat.ne_of_lt h)
      refine ⟨?_, ?_⟩
      · intro x hx
        exact Finset.mem_range.mpr (c.2.2 x (List.mem_toFinset.mp hx))
      · rw [List.toFinset_card_of_nodup nl, c.1]
    · rintro ⟨hsub, hcard⟩
      refine ⟨A.sort (· ≤ ·), ?_, Finset.sort_toFinset _ A⟩
      rw [hmem]
      refine ⟨by rw [Finset.length_sort, hcard], Finset.sort_sorted_lt A, ?_⟩
      intro x hx
      exact Finset.mem_range.mp (hsub ((Finset.mem_sort _).mp hx))

/-- Claim C1.  For a step-vector of valid symbols with at least one orbital
whose `b` counters are all non-negative, and `twoms` with `|twoms| ≤ S = b[last]`
and `S + twoms` even, `csf2det` succeeds and the printed fractions
`num/den`, as exact rationals, sum to 1. -/
theorem normalization (s : List Char) (twoms S : Int)
    (hv : ∀ ch ∈ s, validSymbol ch = true) (hb : ∀ x ∈ bArr (csfOf s), 0 ≤ x)
    (hS : (bArr (csfOf s)).getLast? = some S) (hr : |twoms| ≤ S) (hp : Even (S + twoms)) :
    ∃ n_e n_mo lines, csf2det s twoms = .ok n_e n_mo lines ∧
      (lines.map (fun l => (l.num : ℚ) / (l.den : ℚ))).sum = 1 := by
  obtain ⟨hne, hSeq⟩ := (bArr_getLast? _ _).mp hS
  have hlen := countMo_eq_length s hv
  have hmo : 0 < countMo s := by rw [hlen]; exact List.length_pos.mpr hne
  subst hSeq
  rcases csf2det_cases s twoms hv hmo with h | h | h | h
  · obtain ⟨⟨x, hx, hlt⟩, _⟩ := h
    exact absurd (hb x hx) (not_le.mpr hlt)
  · exact absurd h.2.1 (not_lt.mpr hr)
  · exact absurd h.2.2.1 (Int.not_odd_iff_even.mpr hp)
  · obtain ⟨_, _, _, L, hrun, hnd, _, hmem⟩ := h
    refine ⟨_, _, _, hrun, ?_⟩
    have hns := nSomoOf_eq_count s hv
    have hab := alpha_bounds ((csfOf s).count 1) ((csfOf s).count 2) twoms
      (by simpa [tally] using hr) (by simpa [tally] using hp)
    rw [← hns] at hab
    obtain ⟨hk1, hk2, _⟩ := hab
    rw [sum_flatMap_map, hlen]
    have hterm : L.map (fun l => ((determinant (csfOf s) (aArr (csfOf s)) (bArr (csfOf s))
          (csfOf s).length (nSomoOf s) (((nSomoOf s : Int) + twoms).tdiv 2) l).map
          (fun l => (l.num : ℚ) / (l.den : ℚ))).sum)
        = (L.map List.toFinset).map (weight (csfOf s) (csfOf s).length) := by
      rw [List.map_map]
      apply List.map_congr_left
      intro l hl
      exact determinant_sum (csfOf s) hb _ _ l ((hmem l).mp hl)
    obtain ⟨hnd2, hset⟩ := combs_toFinset _ _ L hnd hmem
    rw [hterm, ← List.sum_toFinset _ hnd2, hset]
    have hsum := weight_sum (csfOf s) hb (csfOf s).length (le_refl _)
      (((nSomoOf s : Int) + twoms).tdiv 2).toNat
    rw [List.take_length, ← hns] at hsum
    rw [hsum, if_pos]
    constructor <;> omega

/-- The theorem `normalization` at a concrete input. -/
theorem normalization_witness :
    (∀ ch ∈ ['u', 'u', 'd', 'd'], validSymbol ch = true) ∧
    (∀ x ∈ bArr (csfOf ['u', 'u', 'd', 'd']), 0 ≤ x) ∧
    (bArr (csfOf ['u', 'u', 'd', 'd'])).getLast? = some 0 ∧ |(0 : Int)| ≤ 0 ∧
    Even ((0 : Int) + 0) ∧
    ∃ n_e n_mo lines, csf2det ['u', 'u', 'd', 'd'] 0 = .ok n_e n_mo lines ∧
      (lines.map (fun l => (l.num : ℚ) / (l.den : ℚ))).sum = 1 :=
  ⟨by decide, by decide, by decide, by decide, by decide,
    normalization ['u', 'u', 'd', 'd'] 0 0 (by decide) (by decide) (by decide) (by decide)
      (by decide)⟩

/-! ### `gcd` and `simplify`, continued -/

theorem gcdOpt_eq : ∀ (f : Nat) (a b : Int), b.natAbs < f → gcdOpt f a b = some (gcdAux f a b) := by
  intro f
  induction f with
  | zero => intro a b h; omega
  | succ f ih =>
    intro a b hf
    simp only [gcdOpt, gcdAux]
    by_cases hb : b = 0
    · simp [hb]
    · simp only [hb, if_false]
      have hlt : (a.tmod b).natAbs < b.natAbs := by
        rw [natAbs_tmod]
        exact Nat.mod_lt _ (Int.natAbs_pos.mpr hb)
      exact ih b (a.tmod b) (by omega)

theorem gcdAux_nonneg : ∀ (f : Nat) (a b : Int), 0 ≤ a → 0 ≤ b → 0 ≤ gcdAux f a b := by
  intro f
  induction f with
  | zero => intro a b ha _; exact ha
  | succ f ih =>
    intro a b ha hb
    simp only [gcdAux]
    by_cases h : b = 0
    · simp [h, ha]
    · simp only [h, if_false]
      apply ih b (a.tmod b) hb
      rw [Int.tmod_eq_emod ha hb]
      exact Int.emod_nonneg a h

theorem gcd_nonneg (a b : Int) (ha : 0 ≤ a) (hb : 0 ≤ b) : 0 ≤ gcd a b :=
  gcdAux_nonneg _ a b ha hb

theorem gcd_eq_int_gcd (a b : Int) (ha : 0 ≤ a) (hb : 0 ≤ b) :
    gcd a b = ((Int.gcd a b : Nat) : Int) := by
  rw [← gcd_natAbs a b, Int.natAbs_of_nonneg (gcd_nonneg a b ha hb)]

/-- Claim C20.  The recursion of `gcd` terminates for every pair of integers
(with `|b| + 1` calls or any larger budget it returns `gcd a b`, which satisfies
the defining equation with the truncated remainder); for `a ≥ 0` and `b ≥ 0`
the result is the greatest common divisor of `a` and `b`: it is `Int.gcd a b`,
divides both, is divided by every common divisor, and is positive when `a > 0`
or `b > 0`; and `gcd a 0 = a`. -/
theorem gcd_terminates_correct (a b : Int) :
    (∀ fuel, b.natAbs < fuel → gcdOpt fuel a b = some (gcd a b)) ∧
    gcd a b = (if b = 0 then a else gcd b (a.tmod b)) ∧
    gcd a 0 = a ∧
    (0 ≤ a → 0 ≤ b →
      gcd a b = ((Int.gcd a b : Nat) : Int) ∧ gcd a b ∣ a ∧ gcd a b ∣ b ∧
      (∀ d : Int, d ∣ a → d ∣ b → d ∣ gcd a b) ∧
      (0 < a ∨ 0 < b → 0 < gcd a b)) := by
  refine ⟨?_, gcd_unfold a b, ?_, ?_⟩
  · intro fuel hf
    rw [gcdOpt_eq fuel a b hf]
    unfold gcd
    rw [gcdAux_budget fuel (b.natAbs + 1) a b hf (Nat.lt_succ_self _)]
  · rw [gcd_unfold]; simp
  · intro ha hb
    have he := gcd_eq_int_gcd a b ha hb
    refine ⟨he, gcd_dvd_left a b, gcd_dvd_right a b, ?_, ?_⟩
    · intro d h1 h2
      rw [he]
      exact Int.dvd_gcd h1 h2
    · intro hpos
      rw [he]
      have : Int.gcd a b ≠ 0 := by
        rw [Ne, Int.gcd_eq_zero_iff]
        rintro ⟨h1, h2⟩
        rcases hpos with h | h <;> omega
      exact_mod_cast Nat.pos_of_ne_zero this

/-- Claim C14.  `simplify` never divides by zero: for `num = 0` it returns 0
and leaves the pair unchanged; for `num ≠ 0` the divisor `gcd(num, den)` that
it returns is non-zero (also when `den = 0`), divides both entries exactly, and
the new pair `(num', den')` satisfies `num' * den = num * den'`. -/
theorem simplify_guarded (num den : Int) :
    (num = 0 → simplify (num, den) = (0, (num, den))) ∧
    (num ≠ 0 →
      (simplify (num, den)).1 = gcd num den ∧ gcd num den ≠ 0 ∧
      gcd num den ∣ num ∧ gcd num den ∣ den ∧
      (simplify (num, den)).2.1 = num.tdiv (gcd num den) ∧
      (simplify (num, den)).2.2 = den.tdiv (gcd num den) ∧
      (simplify (num, den)).2.1 * gcd num den = num ∧
      (simplify (num, den)).2.2 * gcd num den = den ∧
      (simplify (num, den)).2.1 * den = num * (simplify (num, den)).2.2) := by
  constructor
  · intro h; subst h; exact simplify_zero den
  · intro h
    have hg := gcd_ne_zero num den h
    have h1 : num.tdiv (gcd num den) * gcd num den = num :=
      Int.tdiv_mul_cancel (gcd_dvd_left num den)
    have h2 : den.tdiv (gcd num den) * gcd num den = den :=
      Int.tdiv_mul_cancel (gcd_dvd_right num den)
    have hs : simplify (num, den) = (gcd num den, (num.tdiv (gcd num den),
        den.tdiv (gcd num den))) := by
      simp [simplify, h]
    rw [hs]
    refine ⟨rfl, hg, gcd_dvd_left num den, gcd_dvd_right num den, rfl, rfl, h1, h2, ?_⟩
    simp only
    calc num.tdiv (gcd num den) * den
        = num.tdiv (gcd num den) * (den.tdiv (gcd num den) * gcd num den) := by rw [h2]
      _ = (num.tdiv (gcd num den) * gcd num den) * den.tdiv (gcd num den) := by ring
      _ = num * den.tdiv (gcd num den) := by rw [h1]

/-- Claim C16.  For the step-vector `ud` and `twoms = 0` the `b` counters are
`[1, 0]` and `csf2det` prints exactly two determinants, in this order: `a b`
with sign `+` and fraction `1/2`, then `b a` with sign `-` and fraction `1/2`;
the fractions sum to 1. -/
theorem singlet_scenario :
    bArr (csfOf ['u', 'd']) = [1, 0] ∧
    csf2det ['u', 'd'] 0
      = Outcome.ok 2 2 [⟨'+', 1, 2, ['a', 'b']⟩, ⟨'-', 1, 2, ['b', 'a']⟩] ∧
    (([⟨'+', 1, 2, ['a', 'b']⟩, ⟨'-', 1, 2, ['b', 'a']⟩] : List Line).map
      (fun l => (l.num : ℚ) / (l.den : ℚ))).sum = 1 := by
  refine ⟨by decide, by decide, ?_⟩
  norm_num

/-! ### Counts of symbols -/

theorem count_symbols_length (p : List Char)
    (hp : ∀ ch ∈ p, ch = '0' ∨ ch = 'u' ∨ ch = 'd' ∨ ch = '2') :
    p.count '0' + p.count 'u' + p.count 'd' + p.count '2' = p.length := by
  induction p with
  | nil => rfl
  | cons ch p ih =>
    have ih' := ih (fun c hc => hp c (List.mem_cons_of_mem _ hc))
    rcases hp ch (List.mem_cons_self _ _) with h | h | h | h <;> subst h <;>
      simp [List.count_cons] <;> omega

theorem nDomoOf_valid (s : List Char) (hv : ∀ ch ∈ s, validSymbol ch = true) :
    nDomoOf s = (orbitalSymbols s).count '2' := by
  simp only [nDomoOf, parseLoop_valid s hv, Nat.zero_add]
  rfl

/-- Claim C19.  For a step-vector of valid symbols and every position `i` of
its orbital sequence, `a[i] + b[i] + c[i] = i + 1`. -/
theorem paldus_sum (s : List Char) (hv : ∀ ch ∈ s, validSymbol ch = true) (i : Nat)
    (hi : i < (orbitalSymbols s).length) :
    (aArr (csfOf s)).getD i 0 + (bArr (csfOf s)).getD i 0 + (cArr (csfOf s)).getD i 0
      = (i : Int) + 1 := by
  obtain ⟨h1, h2, h3⟩ := paldus_chars s hv i hi
  have hp : ∀ ch ∈ (orbitalSymbols s).take (i + 1), ch = '0' ∨ ch = 'u' ∨ ch = 'd' ∨ ch = '2' :=
    fun ch hch => orbitalSymbols_valid s hv ch (List.mem_of_mem_take hch)
  have hlen := count_symbols_length _ hp
  rw [List.length_take] at hlen
  rw [h1, h2, h3]
  omega

/-- The theorem `paldus_sum` at a concrete input. -/
theorem paldus_sum_witness :
    (∀ ch ∈ ['2', 'u', ' ', 'd', '0'], validSymbol ch = true) ∧
    3 < (orbitalSymbols ['2', 'u', ' ', 'd', '0']).length ∧
    (aArr (csfOf ['2', 'u', ' ', 'd', '0'])).getD 3 0
      + (bArr (csfOf ['2', 'u', ' ', 'd', '0'])).getD 3 0
      + (cArr (csfOf ['2', 'u', ' ', 'd', '0'])).getD 3 0 = ((3 : Nat) : Int) + 1 :=
  ⟨by decide, by decide, paldus_sum ['2', 'u', ' ', 'd', '0'] (by decide) 3 (by decide)⟩

/-- Claim C13.  For a step-vector of valid symbols with at least one orbital,
`n_e = 2 * a[last] + b[last]` is the number of electrons `2 * n_domo + n_somo`,
two per `2` and one per `u` or `d`; this is the `n_e` that a successful call
reports. -/
theorem electron_count (s : List Char) (twoms : Int) (hv : ∀ ch ∈ s, validSymbol ch = true)
    (hmo : 0 < countMo s) :
    2 * (aArr (csfOf s)).getD (countMo s - 1) 0 + (bArr (csfOf s)).getD (countMo s - 1) 0
      = 2 * (nDomoOf s : Int) + (nSomoOf s : Int) ∧
    nDomoOf s = (orbitalSymbols s).count '2' ∧
    nSomoOf s = (orbitalSymbols s).count 'u' + (orbitalSymbols s).count 'd' ∧
    (∀ n_e n_mo lines, csf2det s twoms = .ok n_e n_mo lines →
      n_e = 2 * (nDomoOf s : Int) + (nSomoOf s : Int) ∧ n_mo = countMo s) := by
  have hnd := nDomoOf_valid s hv
  have hns : nSomoOf s = (orbitalSymbols s).count 'u' + (orbitalSymbols s).count 'd' := by
    rw [nSomoOf_valid s hv, countP_u_d]
  have hlen : countMo s = (orbitalSymbols s).length := countMo_eq s
  obtain ⟨h1, h2, _⟩ := paldus_chars s hv (countMo s - 1) (by omega)
  have htake : (orbitalSymbols s).take (countMo s - 1 + 1) = orbitalSymbols s := by
    rw [List.take_of_length_le (by omega)]
  rw [htake] at h1 h2
  have hne : 2 * (aArr (csfOf s)).getD (countMo s - 1) 0
      + (bArr (csfOf s)).getD (countMo s - 1) 0
      = 2 * (nDomoOf s : Int) + (nSomoOf s : Int) := by
    rw [h1, h2, hnd, hns]; push_cast; ring
  refine ⟨hne, hnd, hns, ?_⟩
  intro n_e n_mo lines hrun
  have hlen2 := countMo_eq_length s hv
  have hcs : csfOf s ≠ [] := by
    intro h; rw [h] at hlen2; simp at hlen2; omega
  have hspin := spin_eq (csfOf s) hcs
  have ha : (aArr (csfOf s)).getD ((csfOf s).length - 1) 0 = (tally (csfOf s)).1 := by
    have hl : 0 < (csfOf s).length := List.length_pos.mpr hcs
    rw [aArr_getD _ _ (by omega)]
    have : (csfOf s).length - 1 + 1 = (csfOf s).length := by omega
    rw [this, List.take_length]
  rw [hlen2, ha, hspin] at hne
  rcases csf2det_cases s twoms hv hmo with h | h | h | h
  · rw [h.2] at hrun; exact Outcome.noConfusion hrun
  · rw [h.2.2] at hrun; exact Outcome.noConfusion hrun
  · rw [h.2.2.2] at hrun; exact Outcome.noConfusion hrun
  · obtain ⟨_, _, _, L, hrun2, _⟩ := h
    rw [hrun2] at hrun
    injection hrun with e1 e2 _
    exact ⟨by rw [← e1]; exact hne, e2.symm⟩

/-- The theorem `electron_count` at a concrete input. -/
theorem electron_count_witness :
    (∀ ch ∈ ['2', 'u', ' ', 'd', 'u'], validSymbol ch = true) ∧
    0 < countMo ['2', 'u', ' ', 'd', 'u'] ∧
    (2 * (aArr (csfOf ['2', 'u', ' ', 'd', 'u'])).getD (countMo ['2', 'u', ' ', 'd', 'u'] - 1) 0
        + (bArr (csfOf ['2', 'u', ' ', 'd', 'u'])).getD (countMo ['2', 'u', ' ', 'd', 'u'] - 1) 0
      = 2 * (nDomoOf ['2', 'u', ' ', 'd', 'u'] : Int) + (nSomoOf ['2', 'u', ' ', 'd', 'u'] : Int) ∧
    nDomoOf ['2', 'u', ' ', 'd', 'u'] = (orbitalSymbols ['2', 'u', ' ', 'd', 'u']).count '2' ∧
    nSomoOf ['2', 'u', ' ', 'd', 'u'] = (orbitalSymbols ['2', 'u', ' ', 'd', 'u']).count 'u'
      + (orbitalSymbols ['2', 'u', ' ', 'd', 'u']).count 'd' ∧
    (∀ n_e n_mo lines, csf2det ['2', 'u', ' ', 'd', 'u'] 1 = .ok n_e n_mo lines →
      n_e = 2 * (nDomoOf ['2', 'u', ' ', 'd', 'u'] : Int)
        + (nSomoOf ['2', 'u', ' ', 'd', 'u'] : Int) ∧
      n_mo = countMo ['2', 'u', ' ', 'd', 'u'])) :=
  ⟨by decide, by decide, electron_count ['2', 'u', ' ', 'd', 'u'] 1 (by decide) (by decide)⟩

/-- Claim C15 as stated fails: for the step-vector `ud` at position 1 the
counter `a[1]` is 1 although no orbital among `0..1` is doubly occupied, and
`c[1]` is 1 although none is unoccupied. -/
theorem counter_meaning_counterexample :
    (aArr (csfOf ['u', 'd'])).getD 1 0 = 1 ∧
    ((orbitalSymbols ['u', 'd']).take (1 + 1)).count '2' = 0 ∧
    (cArr (csfOf ['u', 'd'])).getD 1 0 = 1 ∧
    ((orbitalSymbols ['u', 'd']).take (1 + 1)).count '0' = 0 ∧
    ¬ (∀ (s : List Char) (i : Nat), (∀ ch ∈ s, validSymbol ch = true) →
        i < (orbitalSymbols s).length →
        (aArr (csfOf s)).getD i 0 = (((orbitalSymbols s).take (i + 1)).count '2' : Int) ∧
        (cArr (csfOf s)).getD i 0 = (((orbitalSymbols s).take (i + 1)).count '0' : Int)) := by
  refine ⟨by decide, by decide, by decide, by decide, ?_⟩
  intro h
  have h1 := (h ['u', 'd'] 1 (by decide) (by decide)).1
  revert h1
  decide

/-- Claim C15, as amended.  For a step-vector of valid symbols and a position
`i` of its orbital sequence, counted over the orbitals `0..i`: `a[i]` is the
number of doubly-occupied plus the number of down-coupled orbitals, `b[i]` is
the number of up-coupled minus the number of down-coupled orbitals, and `c[i]`
is the number of unoccupied plus the number of down-coupled orbitals; when no
`d` occurs among them, `a[i]` is the number of doubly-occupied, `b[i]` the
number of singly-occupied and `c[i]` the number of unoccupied orbitals. -/
theorem counter_meaning (s : List Char) (hv : ∀ ch ∈ s, validSymbol ch = true) (i : Nat)
    (hi : i < (orbitalSymbols s).length) :
    ((aArr (csfOf s)).getD i 0 = (((orbitalSymbols s).take (i + 1)).count '2' : Int)
        + ((orbitalSymbols s).take (i + 1)).count 'd' ∧
      (bArr (csfOf s)).getD i 0 = (((orbitalSymbols s).take (i + 1)).count 'u' : Int)
        - ((orbitalSymbols s).take (i + 1)).count 'd' ∧
      (cArr (csfOf s)).getD i 0 = (((orbitalSymbols s).take (i + 1)).count '0' : Int)
        + ((orbitalSymbols s).take (i + 1)).count 'd') ∧
    ('d' ∉ (orbitalSymbols s).take (i + 1) →
      (aArr (csfOf s)).getD i 0 = (((orbitalSymbols s).take (i + 1)).count '2' : Int) ∧
      (bArr (csfOf s)).getD i 0 = (((orbitalSymbols s).take (i + 1)).count 'u' : Int) ∧
      (cArr (csfOf s)).getD i 0 = (((orbitalSymbols s).take (i + 1)).count '0' : Int)) := by
  obtain ⟨h1, h2, h3⟩ := paldus_chars s hv i hi
  refine ⟨⟨by rw [h1]; ring, h2, h3⟩, ?_⟩
  intro hd
  have h0 : ((orbitalSymbols s).take (i + 1)).count 'd' = 0 := List.count_eq_zero.mpr hd
  rw [h1, h2, h3, h0]
  simp

/-- The theorem `counter_meaning` at a concrete input. -/
theorem counter_meaning_witness :
    (∀ ch ∈ ['u', 'd'], validSymbol ch = true) ∧ 1 < (orbitalSymbols ['u', 'd']).length ∧
    (((aArr (csfOf ['u', 'd'])).getD 1 0 = (((orbitalSymbols ['u', 'd']).take (1 + 1)).count '2' : Int)
        + ((orbitalSymbols ['u', 'd']).take (1 + 1)).count 'd' ∧
      (bArr (csfOf ['u', 'd'])).getD 1 0 = (((orbitalSymbols ['u', 'd']).take (1 + 1)).count 'u' : Int)
        - ((orbitalSymbols ['u', 'd']).take (1 + 1)).count 'd' ∧
      (cArr (csfOf ['u', 'd'])).getD 1 0 = (((orbitalSymbols ['u', 'd']).take (1 + 1)).count '0' : Int)
        + ((orbitalSymbols ['u', 'd']).take (1 + 1)).count 'd') ∧
    ('d' ∉ (orbitalSymbols ['u', 'd']).take (1 + 1) →
      (aArr (csfOf ['u', 'd'])).getD 1 0
        = (((orbitalSymbols ['u', 'd']).take (1 + 1)).count '2' : Int) ∧
      (bArr (csfOf ['u', 'd'])).getD 1 0
        = (((orbitalSymbols ['u', 'd']).take (1 + 1)).count 'u' : Int) ∧
      (cArr (csfOf ['u', 'd'])).getD 1 0
        = (((orbitalSymbols ['u', 'd']).take (1 + 1)).count '0' : Int))) :=
  ⟨by decide, by decide, counter_meaning ['u', 'd'] (by decide) 1 (by decide)⟩

/-! ### Spaces -/

theorem orbitalSymbols_idem (s : List Char) : orbitalSymbols (orbitalSymbols s) = orbitalSymbols s := by
  simp [orbitalSymbols, List.filter_filter]

theorem orbitalSymbols_append (s t : List Char) :
    orbitalSymbols (s ++ t) = orbitalSymbols s ++ orbitalSymbols t := by
  simp [orbitalSymbols]

theorem orbitalSymbols_all_valid (s : List Char) (hv : ∀ ch ∈ s, validSymbol ch = true) :
    ∀ ch ∈ orbitalSymbols s, validSymbol ch = true := by
  intro ch hch
  simp only [orbitalSymbols, List.mem_filter] at hch
  exact hv ch hch.1

/-- Claim C12.  For a step-vector `s` with at least one character other than
the space, `csf2det` has the same outcome on `s` and on `s` with all spaces
removed; `n_mo` is the number of characters other than the space and, when all
characters are valid symbols, `n_somo` is the number of `u` and `d` and `n_domo`
the number of `2`. -/
theorem spaces_insignificant (s : List Char) (twoms : Int) (_hne : 0 < countMo s) :
    csf2det s twoms = csf2det (s.filter (fun ch => ch != ' ')) twoms ∧
    countMo s = (s.filter (fun ch => ch != ' ')).length ∧
    ((∀ ch ∈ s, validSymbol ch = true) →
      nSomoOf s = s.count 'u' + s.count 'd' ∧ nDomoOf s = s.count '2' ∧
      (csfOf s).length = countMo s) := by
  have hfilter : s.filter (fun ch => ch != ' ') = orbitalSymbols s := rfl
  rw [hfilter]
  refine ⟨?_, countMo_eq s, ?_⟩
  · rcases valid_or_first_invalid s with hv | ⟨pre, c, post, hs, hpre, hc⟩
    · have hv' := orbitalSymbols_all_valid s hv
      have h1 : csfOf (orbitalSymbols s) = csfOf s := by
        rw [csfOf_valid _ hv', csfOf_valid s hv, orbitalSymbols_idem]
      have h2 : nSomoOf (orbitalSymbols s) = nSomoOf s := by
        rw [nSomoOf_valid _ hv', nSomoOf_valid s hv, orbitalSymbols_idem]
      have h3 : countMo (orbitalSymbols s) = countMo s := by
        rw [countMo_eq, countMo_eq, orbitalSymbols_idem]
      rw [csf2det_valid s twoms hv, csf2det_valid _ twoms hv', h1, h2, h3]
    · have hcs : c ≠ ' ' := by
        rintro rfl
        revert hc
        decide
      have hsplit : orbitalSymbols s = orbitalSymbols pre ++ c :: orbitalSymbols post := by
        rw [hs, orbitalSymbols_append]
        congr 1
        simp [orbitalSymbols, hcs]
      rw [hsplit, csf2det_invalid _ _ c twoms (orbitalSymbols_all_valid pre hpre) hc]
      rw [hs, csf2det_invalid pre post c twoms hpre hc]
  · intro hv
    have hcount : ∀ c : Char, c ≠ ' ' → (orbitalSymbols s).count c = s.count c := by
      intro c hc
      unfold orbitalSymbols
      rw [List.count_filter]
      simp [hc]
    refine ⟨?_, ?_, (countMo_eq_length s hv).symm⟩
    · rw [nSomoOf_valid s hv, countP_u_d, hcount 'u' (by decide), hcount 'd' (by decide)]
    · rw [nDomoOf_valid s hv, hcount '2' (by decide)]

/-- The theorem `spaces_insignificant` at a concrete input. -/
theorem spaces_insignificant_witness :
    0 < countMo ['2', 'u', ' ', 'd', ' ', 'u'] ∧
    (csf2det ['2', 'u', ' ', 'd', ' ', 'u'] 1
        = csf2det (['2', 'u', ' ', 'd', ' ', 'u'].filter (fun ch => ch != ' ')) 1 ∧
    countMo ['2', 'u', ' ', 'd', ' ', 'u']
      = (['2', 'u', ' ', 'd', ' ', 'u'].filter (fun ch => ch != ' ')).length ∧
    ((∀ ch ∈ ['2', 'u', ' ', 'd', ' ', 'u'], validSymbol ch = true) →
      nSomoOf ['2', 'u', ' ', 'd', ' ', 'u'] = ['2', 'u', ' ', 'd', ' ', 'u'].count 'u'
        + ['2', 'u', ' ', 'd', ' ', 'u'].count 'd' ∧
      nDomoOf ['2', 'u', ' ', 'd', ' ', 'u'] = ['2', 'u', ' ', 'd', ' ', 'u'].count '2' ∧
      (csfOf ['2', 'u', ' ', 'd', ' ', 'u']).length = countMo ['2', 'u', ' ', 'd', ' ', 'u'])) :=
  ⟨by decide, spaces_insignificant ['2', 'u', ' ', 'd', ' ', 'u'] 1 (by decide)⟩

/-! ### The determinant string -/

theorem walk_det_succ (csf : List Nat) (a b ev : List Int) (m : Nat) :
    (walkUpTo csf a b ev (m + 1)).det = (walkUpTo csf a b ev m).det ++
      (if csf.getD m 0 = 0 then ['0']
        else if csf.getD m 0 = 3 then ['2']
        else if csf.getD m 0 = 1 ∨ csf.getD m 0 = 2 then
          [if ev.getD (walkUpTo csf a b ev m).i_somo 0 = 1 then 'a' else 'b']
        else []) := by
  rw [walkUpTo_succ]
  simp only [orbital, orbitalSwitch]
  rcases hc : csf.getD m 0 with _ | _ | _ | _ | n
  · simp
  · by_cases h : ev.getD (walkUpTo csf a b ev m).i_somo 0 = 1
    · simp only [h, if_true]; simp
    · simp only [h, if_false]; simp
  · by_cases h : ev.getD (walkUpTo csf a b ev m).i_somo 0 = 1
    · simp only [h, if_true]; simp
    · simp only [h, if_false]; simp
  · simp
  · simp

theorem getD_map_codeOf (orb : List Char) (m : Nat) (hm : m < orb.length) :
    (orb.map codeOf).getD m 0 = codeOf (orb.getD m ' ') := by
  rw [List.getD_eq_getElem?_getD, List.getD_eq_getElem?_getD, List.getElem?_map,
    List.getElem?_eq_getElem hm]
  rfl

theorem somoIndex_eq (s : List Char) (hv : ∀ ch ∈ s, validSymbol ch = true) (m : Nat) :
    ((csfOf s).take m).count 1 + ((csfOf s).take m).count 2 = somoIndex (orbitalSymbols s) m := by
  have hp : ∀ ch ∈ (orbitalSymbols s).take m, ch = '0' ∨ ch = 'u' ∨ ch = 'd' ∨ ch = '2' :=
    fun ch hch => orbitalSymbols_valid s hv ch (List.mem_of_mem_take hch)
  have h := count_codeOf _ hp
  rw [csfOf_valid s hv, ← List.map_take, h.2.1, h.2.2.1]
  rfl

/-- The symbols written to `det` by the first `m` orbitals. -/
theorem walk_det (s : List Char) (hv : ∀ ch ∈ s, validSymbol ch = true) (n_somo : Nat)
    (n_alpha : Int) (lex : List Nat) (hlex : IsComb n_somo n_alpha.toNat lex) (m : Nat)
    (hm : m ≤ countMo s) :
    (walkUpTo (csfOf s) (aArr (csfOf s)) (bArr (csfOf s)) (spinEigv n_somo n_alpha lex) m).det
      = (List.range m).map (fun i => detSymbol ((orbitalSymbols s).getD i ' ')
          (decide (somoIndex (orbitalSymbols s) i ∈ lex))) := by
  induction m with
  | zero => rfl
  | succ m ih =>
    have hlen : countMo s = (orbitalSymbols s).length := countMo_eq s
    have hlen2 := countMo_eq_length s hv
    have hsomo := (walk_unreduced (csfOf s) (aArr (csfOf s)) (bArr (csfOf s))
      (spinEigv n_somo n_alpha lex) (fun j => decide (j ∈ lex))
      (spinEigv_getD n_somo n_alpha lex hlex) m).1
    rw [unreduced_i_somo _ _ _ _ m (by omega), somoIndex_eq s hv m] at hsomo
    have hcode : (csfOf s).getD m 0 = codeOf ((orbitalSymbols s).getD m ' ') := by
      rw [csfOf_valid s hv]
      exact getD_map_codeOf _ m (by omega)
    have hsym := orbitalSymbols_valid s hv ((orbitalSymbols s).getD m ' ') (by
      rw [List.getD_eq_getElem?_getD, List.getElem?_eq_getElem (by omega)]
      exact List.getElem_mem _)
    have hev := spinEigv_getD n_somo n_alpha lex hlex (somoIndex (orbitalSymbols s) m)
    have hif : (if (spinEigv n_somo n_alpha lex).getD (somoIndex (orbitalSymbols s) m) 0 = 1
          then 'a' else 'b')
        = (if decide (somoIndex (orbitalSymbols s) m ∈ lex) = true then 'a' else 'b') := by
      by_cases hin : decide (somoIndex (orbitalSymbols s) m ∈ lex) = true
      · rw [if_pos hin, if_pos (hev.mpr hin)]
      · rw [if_neg hin, if_neg (fun h => hin (hev.mp h))]
    rw [walk_det_succ, ih (by omega), List.range_succ, List.map_append, hsomo, hcode, hif]
    congr 1
    simp only [List.map_cons, List.map_nil]
    generalize (orbitalSymbols s).getD m ' ' = c at hsym
    rcases hsym with h | h | h | h <;> subst h <;> simp [codeOf, detSymbol]

theorem somoIndex_succ (orb : List Char) (m : Nat) (hm : m < orb.length) :
    somoIndex orb (m + 1) = somoIndex orb m
      + (if orb.getD m ' ' = 'u' ∨ orb.getD m ' ' = 'd' then 1 else 0) := by
  have htake : orb.take (m + 1) = orb.take m ++ [orb.getD m ' '] := by
    rw [List.take_succ, List.getD_eq_getElem?_getD, List.getElem?_eq_getElem hm]
    rfl
  unfold somoIndex
  rw [htake, List.count_append, List.count_append]
  generalize orb.getD m ' ' = c
  by_cases h1 : c = 'u'
  · subst h1; simp; omega
  · by_cases h2 : c = 'd'
    · subst h2; simp; omega
    · have e1 : List.count 'u' [c] = 0 := by
        rw [List.count_eq_zero]; simpa using fun h => h1 h.symm
      have e2 : List.count 'd' [c] = 0 := by
        rw [List.count_eq_zero]; simpa using fun h => h2 h.symm
      simp [h1, h2, e1, e2]

/-- The numbers of `a` and `b` among the first `m` symbols of the determinant
are the numbers of singly-occupied orbitals met so far inside and outside `lex`. -/
theorem det_counts (orb : List Char) (hp : ∀ ch ∈ orb, ch = '0' ∨ ch = 'u' ∨ ch = 'd' ∨ ch = '2')
    (lex : List Nat) (m : Nat) (hm : m ≤ orb.length) :
    ((List.range m).map (fun i => detSymbol (orb.getD i ' ')
        (decide (somoIndex orb i ∈ lex)))).count 'a'
      = (List.range (somoIndex orb m)).countP (fun j => decide (j ∈ lex)) ∧
    ((List.range m).map (fun i => detSymbol (orb.getD i ' ')
        (decide (somoIndex orb i ∈ lex)))).count 'b'
      = (List.range (somoIndex orb m)).countP (fun j => !decide (j ∈ lex)) := by
  induction m with
  | zero => simp [somoIndex]
  | succ m ih =>
    obtain ⟨ih1, ih2⟩ := ih (by omega)
    have hsym := hp (orb.getD m ' ') (by
      rw [List.getD_eq_getElem?_getD, List.getElem?_eq_getElem (by omega)]
      exact List.getElem_mem _)
    rw [List.range_succ, List.map_append, List.count_append, List.count_append, ih1, ih2,
      somoIndex_succ orb m (by omega)]
    simp only [List.map_cons, List.map_nil]
    generalize orb.getD m ' ' = c at hsym
    rcases hsym with h | h | h | h <;> subst h
    · simp [detSymbol]
    · by_cases hin : somoIndex orb m ∈ lex
      · simp [detSymbol, hin, List.range_succ]
      · simp [detSymbol, hin, List.range_succ]
    · by_cases hin : somoIndex orb m ∈ lex
      · simp [detSymbol, hin, List.range_succ]
      · simp [detSymbol, hin, List.range_succ]
    · simp [detSymbol]

theorem countP_mem_list (n k : Nat) (lex : List Nat) (hlex : IsComb n k lex) :
    (List.range n).countP (fun j => decide (j ∈ lex)) = k ∧
    (List.range n).countP (fun j => !decide (j ∈ lex)) = n - k := by
  have hsub : lex.toFinset ⊆ Finset.range n := by
    intro x hx
    exact Finset.mem_range.mpr (hlex.2.2 x (List.mem_toFinset.mp hx))
  have hcard : lex.toFinset.card = k := by
    rw [List.toFinset_card_of_nodup (hlex.2.1.imp (fun h => Nat.ne_of_lt h)), hlex.1]
  have hfun : (fun j => decide (j ∈ lex.toFinset)) = (fun j => decide (j ∈ lex)) := by
    funext j; simp
  have h1 := countP_mem_range n lex.toFinset hsub
  have h2 := countP_not_mem_range n lex.toFinset hsub
  have hfun2 : (fun j => !decide (j ∈ lex.toFinset)) = (fun j => !decide (j ∈ lex)) := by
    funext j; simp
  rw [hfun] at h1
  rw [hfun2] at h2
  rw [h1, h2, hcard]
  exact ⟨rfl, rfl⟩

/-- The determinant string of one alpha subset `lex` of a validated input. -/
theorem det_string_lex (s : List Char) (twoms S : Int) (lex : List Nat)
    (hv : ∀ ch ∈ s, validSymbol ch = true)
    (hS : (bArr (csfOf s)).getLast? = some S) (hr : |twoms| ≤ S) (hp : Even (S + twoms))
    (hlex : IsComb (nSomoOf s) (((nSomoOf s : Int) + twoms).tdiv 2).toNat lex) :
    (walkUpTo (csfOf s) (aArr (csfOf s)) (bArr (csfOf s))
      (spinEigv (nSomoOf s) (((nSomoOf s : Int) + twoms).tdiv 2) lex) (countMo s)).det.length
      = countMo s ∧
    (∀ i, i < countMo s →
      (walkUpTo (csfOf s) (aArr (csfOf s)) (bArr (csfOf s))
        (spinEigv (nSomoOf s) (((nSomoOf s : Int) + twoms).tdiv 2) lex) (countMo s)).det.getD i ' '
      = detSymbol ((orbitalSymbols s).getD i ' ')
          (decide (somoIndex (orbitalSymbols s) i ∈ lex))) ∧
    (((walkUpTo (csfOf s) (aArr (csfOf s)) (bArr (csfOf s))
      (spinEigv (nSomoOf s) (((nSomoOf s : Int) + twoms).tdiv 2) lex) (countMo s)).det.count 'a'
        : Nat) : Int) = ((nSomoOf s : Int) + twoms).tdiv 2 ∧
    (((walkUpTo (csfOf s) (aArr (csfOf s)) (bArr (csfOf s))
      (spinEigv (nSomoOf s) (((nSomoOf s : Int) + twoms).tdiv 2) lex) (countMo s)).det.count 'a'
        : Nat) : Int)
      - (((walkUpTo (csfOf s) (aArr (csfOf s)) (bArr (csfOf s))
      (spinEigv (nSomoOf s) (((nSomoOf s : Int) + twoms).tdiv 2) lex) (countMo s)).det.count 'b'
        : Nat) : Int) = twoms ∧
    (∀ line ∈ determinant (csfOf s) (aArr (csfOf s)) (bArr (csfOf s)) (countMo s) (nSomoOf s)
        (((nSomoOf s : Int) + twoms).tdiv 2) lex,
      line.det = (walkUpTo (csfOf s) (aArr (csfOf s)) (bArr (csfOf s))
        (spinEigv (nSomoOf s) (((nSomoOf s : Int) + twoms).tdiv 2) lex) (countMo s)).det) := by
  obtain ⟨_, hSeq⟩ := (bArr_getLast? _ _).mp hS
  subst hSeq
  have hns := nSomoOf_eq_count s hv
  have hab := alpha_bounds ((csfOf s).count 1) ((csfOf s).count 2) twoms
    (by simpa [tally] using hr) (by simpa [tally] using hp)
  rw [← hns] at hab
  obtain ⟨hk1, hk2, hk3⟩ := hab
  have hlen : countMo s = (orbitalSymbols s).length := countMo_eq s
  have hdet := walk_det s hv (nSomoOf s) (((nSomoOf s : Int) + twoms).tdiv 2) lex hlex
    (countMo s) (le_refl _)
  have hcounts := det_counts (orbitalSymbols s) (orbitalSymbols_valid s hv) lex (countMo s)
    (by omega)
  have hsomo : somoIndex (orbitalSymbols s) (countMo s) = nSomoOf s := by
    rw [← somoIndex_eq s hv, countMo_eq_length s hv, List.take_length, hns]
  rw [hsomo] at hcounts
  obtain ⟨hc1, hc2⟩ := countP_mem_list _ _ lex hlex
  rw [hc1] at hcounts
  rw [hc2] at hcounts
  rw [hdet]
  refine ⟨by simp, ?_, ?_, ?_, ?_⟩
  · intro i hi
    rw [List.getD_eq_getElem?_getD, List.getElem?_map, List.getElem?_range hi]
    rfl
  · rw [hcounts.1]
    omega
  · rw [hcounts.1, hcounts.2]
    omega
  · intro line hline
    rw [determinant_eq] at hline
    rw [← hdet]
    split_ifs at hline with h0
    · simp only [List.mem_singleton] at hline
      rw [hline]
    · simp only [List.mem_singleton] at hline
      rw [hline]
    · simp at hline

/-- Claim C11.  For a validated input (valid symbols, all `b[i] ≥ 0`,
`|twoms| ≤ S = b[last]`, `S + twoms` even) and every alpha subset `lex`, the
array `det` after the loop over the orbitals has exactly `n_mo` symbols: at
orbital `i` it holds `0` if the step-vector symbol is `0`, `2` if it is `2`,
and at the `j`-th singly-occupied orbital `a` if `j` is in `lex` and `b`
otherwise; it has exactly `n_alpha` symbols `a`, and the number of `a` minus
the number of `b` is `twoms`; a line printed for `lex` carries this `det`.
Hence `csf2det` succeeds and every line it prints has `n_mo` symbols, `n_alpha`
of them `a`, with `#a - #b = twoms`, and is the string of some alpha subset. -/
theorem determinant_string (s : List Char) (twoms S : Int)
    (hv : ∀ ch ∈ s, validSymbol ch = true) (hb : ∀ x ∈ bArr (csfOf s), 0 ≤ x)
    (hS : (bArr (csfOf s)).getLast? = some S) (hr : |twoms| ≤ S) (hp : Even (S + twoms)) :
    (∀ lex, IsComb (nSomoOf s) (((nSomoOf s : Int) + twoms).tdiv 2).toNat lex →
      (walkUpTo (csfOf s) (aArr (csfOf s)) (bArr (csfOf s))
        (spinEigv (nSomoOf s) (((nSomoOf s : Int) + twoms).tdiv 2) lex) (countMo s)).det.length
        = countMo s ∧
      (∀ i, i < countMo s →
        (walkUpTo (csfOf s) (aArr (csfOf s)) (bArr (csfOf s))
          (spinEigv (nSomoOf s) (((nSomoOf s : Int) + twoms).tdiv 2) lex)
            (countMo s)).det.getD i ' '
        = detSymbol ((orbitalSymbols s).getD i ' ')
            (decide (somoIndex (orbitalSymbols s) i ∈ lex))) ∧
      (((walkUpTo (csfOf s) (aArr (csfOf s)) (bArr (csfOf s))
        (spinEigv (nSomoOf s) (((nSomoOf s : Int) + twoms).tdiv 2) lex) (countMo s)).det.count 'a'
          : Nat) : Int) = ((nSomoOf s : Int) + twoms).tdiv 2 ∧
      (((walkUpTo (csfOf s) (aArr (csfOf s)) (bArr (csfOf s))
        (spinEigv (nSomoOf s) (((nSomoOf s : Int) + twoms).tdiv 2) lex) (countMo s)).det.count 'a'
          : Nat) : Int)
        - (((walkUpTo (csfOf s) (aArr (csfOf s)) (bArr (csfOf s))
        (spinEigv (nSomoOf s) (((nSomoOf s : Int) + twoms).tdiv 2) lex) (countMo s)).det.count 'b'
          : Nat) : Int) = twoms ∧
      (∀ line ∈ determinant (csfOf s) (aArr (csfOf s)) (bArr (csfOf s)) (countMo s) (nSomoOf s)
          (((nSomoOf s : Int) + twoms).tdiv 2) lex,
        line.det = (walkUpTo (csfOf s) (aArr (csfOf s)) (bArr (csfOf s))
          (spinEigv (nSomoOf s) (((nSomoOf s : Int) + twoms).tdiv 2) lex) (countMo s)).det)) ∧
    (∃ n_e lines, csf2det s twoms = .ok n_e (countMo s) lines ∧
      ∀ line ∈ lines,
        line.det.length = countMo s ∧
        ((line.det.count 'a' : Nat) : Int) = ((nSomoOf s : Int) + twoms).tdiv 2 ∧
        ((line.det.count 'a' : Nat) : Int) - ((line.det.count 'b' : Nat) : Int) = twoms ∧
        ∃ lex, IsComb (nSomoOf s) (((nSomoOf s : Int) + twoms).tdiv 2).toNat lex ∧
          ∀ i, i < countMo s →
            line.det.getD i ' ' = detSymbol ((orbitalSymbols s).getD i ' ')
              (decide (somoIndex (orbitalSymbols s) i ∈ lex))) := by
  refine ⟨fun lex hlex => det_string_lex s twoms S lex hv hS hr hp hlex, ?_⟩
  obtain ⟨hne, hSeq⟩ := (bArr_getLast? _ _).mp hS
  have hlen := countMo_eq_length s hv
  have hmo : 0 < countMo s := by rw [hlen]; exact List.length_pos.mpr hne
  rcases csf2det_cases s twoms hv hmo with h | h | h | h
  · obtain ⟨⟨x, hx, hlt⟩, _⟩ := h
    exact absurd (hb x hx) (not_le.mpr hlt)
  · rw [hSeq] at hr
    exact absurd h.2.1 (not_lt.mpr hr)
  · rw [hSeq] at hp
    exact absurd h.2.2.1 (Int.not_odd_iff_even.mpr hp)
  · obtain ⟨_, _, _, L, hrun, _, _, hmem⟩ := h
    refine ⟨_, _, hrun, ?_⟩
    intro line hline
    rw [List.mem_flatMap] at hline
    obtain ⟨lex, hlexL, hl⟩ := hline
    have hlex := (hmem lex).mp hlexL
    obtain ⟨h1, h2, h3, h4, h5⟩ := det_string_lex s twoms S lex hv hS hr hp hlex
    rw [h5 line hl]
    exact ⟨h1, h3, h4, lex, hlex, h2⟩

/-- The theorem `determinant_string` at a concrete input. -/
theorem determinant_string_witness :
    (∀ ch ∈ ['2', 'u', '0', 'd'], validSymbol ch = true) ∧
    (∀ x ∈ bArr (csfOf ['2', 'u', '0', 'd']), 0 ≤ x) ∧
    (bArr (csfOf ['2', 'u', '0', 'd'])).getLast? = some 0 ∧ |(0 : Int)| ≤ 0 ∧
    Even ((0 : Int) + 0) ∧
    ∃ n_e lines, csf2det ['2', 'u', '0', 'd'] 0 = .ok n_e (countMo ['2', 'u', '0', 'd']) lines ∧
      ∀ line ∈ lines,
        line.det.length = countMo ['2', 'u', '0', 'd'] ∧
        ((line.det.count 'a' : Nat) : Int) = ((nSomoOf ['2', 'u', '0', 'd'] : Int) + 0).tdiv 2 ∧
        ((line.det.count 'a' : Nat) : Int) - ((line.det.count 'b' : Nat) : Int) = 0 ∧
        ∃ lex, IsComb (nSomoOf ['2', 'u', '0', 'd'])
            (((nSomoOf ['2', 'u', '0', 'd'] : Int) + 0).tdiv 2).toNat lex ∧
          ∀ i, i < countMo ['2', 'u', '0', 'd'] →
            line.det.getD i ' ' = detSymbol ((orbitalSymbols ['2', 'u', '0', 'd']).getD i ' ')
              (decide (somoIndex (orbitalSymbols ['2', 'u', '0', 'd']) i ∈ lex)) :=
  ⟨by decide, by decide, by decide, by decide, by decide,
    (determinant_string ['2', 'u', '0', 'd'] 0 0 (by decide) (by decide) (by decide) (by decide)
      (by decide)).2⟩

/-! ### Positivity -/

/-- One orbital of the step rules inside the feasibility window: with `U`, `Dn`,
`T` the numbers of `u`, `d`, `2` before orbital `m`, if the alphas so far number
between `Dn + T` and `U + T` then the numerator factor of orbital `m` is not
negative, and if it is not zero the window holds after orbital `m`. -/
theorem window_step (csf : List Nat) (alpha : Nat → Bool) (m : Nat) (hm : m < csf.length)
    (hsum : (unreducedUpTo csf (aArr csf) (bArr csf) alpha m).i_alpha
        + (unreducedUpTo csf (aArr csf) (bArr csf) alpha m).i_beta
      = ((csf.take m).count 1 : Int) + (csf.take m).count 2 + 2 * (csf.take m).count 3)
    (hlo : ((csf.take m).count 2 : Int) + (csf.take m).count 3
      ≤ (unreducedUpTo csf (aArr csf) (bArr csf) alpha m).i_alpha)
    (hhi : (unreducedUpTo csf (aArr csf) (bArr csf) alpha m).i_alpha
      ≤ ((csf.take m).count 1 : Int) + (csf.take m).count 3) :
    0 ≤ numFactor (csf.getD m 0) (alpha (unreducedUpTo csf (aArr csf) (bArr csf) alpha m).i_somo)
        ((aArr csf).getD m 0) ((bArr csf).getD m 0)
        (unreducedUpTo csf (aArr csf) (bArr csf) alpha m).i_alpha
        (unreducedUpTo csf (aArr csf) (bArr csf) alpha m).i_beta ∧
    (numFactor (csf.getD m 0) (alpha (unreducedUpTo csf (aArr csf) (bArr csf) alpha m).i_somo)
        ((aArr csf).getD m 0) ((bArr csf).getD m 0)
        (unreducedUpTo csf (aArr csf) (bArr csf) alpha m).i_alpha
        (unreducedUpTo csf (aArr csf) (bArr csf) alpha m).i_beta ≠ 0 →
      ((csf.take (m + 1)).count 2 : Int) + (csf.take (m + 1)).count 3
        ≤ (unreducedUpTo csf (aArr csf) (bArr csf) alpha (m + 1)).i_alpha ∧
      (unreducedUpTo csf (aArr csf) (bArr csf) alpha (m + 1)).i_alpha
        ≤ ((csf.take (m + 1)).count 1 : Int) + (csf.take (m + 1)).count 3) := by
  rw [unreducedUpTo_succ, aArr_getD csf m hm, bArr_getD csf m hm, take_succ_getD csf m hm]
  generalize unreducedUpTo csf (aArr csf) (bArr csf) alpha m = u at hsum hlo hhi ⊢
  simp only [stepRule, tally, List.count_append]
  rcases hc : csf.getD m 0 with _ | _ | _ | _ | n
  · simp [numFactor]
    omega
  · cases hal : alpha u.i_somo
    · simp [numFactor]
      omega
    · simp [numFactor]
      omega
  · cases hal : alpha u.i_somo
    · simp [numFactor]
      omega
    · simp [numFactor]
      omega
  · simp [numFactor]
    omega
  · simp [numFactor]
    omega

theorem unreduced_sum (csf : List Nat) (a b : List Int) (alpha : Nat → Bool) (m : Nat)
    (hm : m ≤ csf.length) :
    (unreducedUpTo csf a b alpha m).i_alpha + (unreducedUpTo csf a b alpha m).i_beta
      = ((csf.take m).count 1 : Int) + (csf.take m).count 2 + 2 * (csf.take m).count 3 := by
  obtain ⟨h1, h2⟩ := unreduced_i_alpha csf a b alpha m hm
  have h3 := countP_add_countP_not alpha
    (List.range ((csf.take m).count 1 + (csf.take m).count 2))
  rw [List.length_range] at h3
  rw [h1, h2]
  omega

theorem unreduced_P_succ (csf : List Nat) (a b : List Int) (alpha : Nat → Bool) (m : Nat) :
    (unreducedUpTo csf a b alpha (m + 1)).P = (unreducedUpTo csf a b alpha m).P
      * numFactor (csf.getD m 0) (alpha (unreducedUpTo csf a b alpha m).i_somo)
        (a.getD m 0) (b.getD m 0) (unreducedUpTo csf a b alpha m).i_alpha
        (unreducedUpTo csf a b alpha m).i_beta := by
  rw [unreducedUpTo_succ]
  rfl

/-- While the product of the numerator factors is not zero, the number of
alphas stays in the feasibility window and the product is positive. -/
theorem unreduced_window (csf : List Nat) (alpha : Nat → Bool) (m : Nat) (hm : m ≤ csf.length)
    (hP : (unreducedUpTo csf (aArr csf) (bArr csf) alpha m).P ≠ 0) :
    ((csf.take m).count 2 : Int) + (csf.take m).count 3
      ≤ (unreducedUpTo csf (aArr csf) (bArr csf) alpha m).i_alpha ∧
    (unreducedUpTo csf (aArr csf) (bArr csf) alpha m).i_alpha
      ≤ ((csf.take m).count 1 : Int) + (csf.take m).count 3 ∧
    0 < (unreducedUpTo csf (aArr csf) (bArr csf) alpha m).P := by
  induction m with
  | zero => simp [unreducedUpTo, Unreduced.init]
  | succ m ih =>
    rw [unreduced_P_succ] at hP
    have hPm := left_ne_zero_of_mul hP
    have hf := right_ne_zero_of_mul hP
    obtain ⟨hlo, hhi, hpos⟩ := ih (by omega) hPm
    obtain ⟨h0, hstep⟩ := window_step csf alpha m (by omega)
      (unreduced_sum csf _ _ alpha m (by omega)) hlo hhi
    obtain ⟨hlo', hhi'⟩ := hstep hf
    refine ⟨hlo', hhi', ?_⟩
    rw [unreduced_P_succ]
    exact mul_pos hpos (lt_of_le_of_ne h0 (Ne.symm hf))

/-- A numerator factor is negative only after the product of the earlier
factors has become zero. -/
theorem factor_nonneg (csf : List Nat) (alpha : Nat → Bool) (m : Nat) (hm : m < csf.length)
    (hP : (unreducedUpTo csf (aArr csf) (bArr csf) alpha m).P ≠ 0) :
    0 ≤ numFactor (csf.getD m 0) (alpha (unreducedUpTo csf (aArr csf) (bArr csf) alpha m).i_somo)
        ((aArr csf).getD m 0) ((bArr csf).getD m 0)
        (unreducedUpTo csf (aArr csf) (bArr csf) alpha m).i_alpha
        (unreducedUpTo csf (aArr csf) (bArr csf) alpha m).i_beta := by
  obtain ⟨hlo, hhi, _⟩ := unreduced_window csf alpha m (by omega) hP
  exact (window_step csf alpha m hm (unreduced_sum csf _ _ alpha m (by omega)) hlo hhi).1

theorem gcd_pos (n d : Int) (hn : 0 < n) (hd : 0 < d) : 0 < gcd n d :=
  lt_of_le_of_ne (gcd_nonneg n d (le_of_lt hn) (le_of_lt hd))
    (Ne.symm (gcd_ne_zero n d (ne_of_gt hn)))

/-- On a pair of positive integers `simplify` gives a pair of positive integers. -/
theorem simplify_pos (n d : Int) (hn : 0 < n) (hd : 0 < d) :
    0 < (simplify (n, d)).2.1 ∧ 0 < (simplify (n, d)).2.2 := by
  have hg := gcd_pos n d hn hd
  have h1 : n.tdiv (gcd n d) * gcd n d = n := Int.tdiv_mul_cancel (gcd_dvd_left n d)
  have h2 : d.tdiv (gcd n d) * gcd n d = d := Int.tdiv_mul_cancel (gcd_dvd_right n d)
  have hs : simplify (n, d) = (gcd n d, (n.tdiv (gcd n d), d.tdiv (gcd n d))) := by
    simp [simplify, ne_of_gt hn]
  rw [hs]
  constructor
  · exact pos_of_mul_pos_left (by rw [h1]; exact hn) (le_of_lt hg)
  · exact pos_of_mul_pos_left (by rw [h2]; exact hd) (le_of_lt hg)

theorem orbital_frac (csf : List Nat) (a b ev : List Int) (i : Nat) (w : Walk) :
    (orbital csf a b ev i w).frac = (simplify (orbitalSwitch csf a b ev i w).frac).2 := rfl

/-- The pair handed to `simplify` at orbital `m`: if its numerator is not zero,
both entries are positive, and so are both entries after `simplify`. -/
theorem walk_pos (csf : List Nat) (hb : ∀ x ∈ bArr csf, 0 ≤ x) (ev : List Int)
    (alpha : Nat → Bool) (hev : ∀ j, ev.getD j 0 = 1 ↔ alpha j = true) (m : Nat)
    (hm : m ≤ csf.length) :
    ((walkUpTo csf (aArr csf) (bArr csf) ev m).frac.1 ≠ 0 →
      0 < (walkUpTo csf (aArr csf) (bArr csf) ev m).frac.1 ∧
      0 < (walkUpTo csf (aArr csf) (bArr csf) ev m).frac.2) ∧
    (m < csf.length →
      (orbitalSwitch csf (aArr csf) (bArr csf) ev m
        (walkUpTo csf (aArr csf) (bArr csf) ev m)).frac.1 ≠ 0 →
      0 < (orbitalSwitch csf (aArr csf) (bArr csf) ev m
        (walkUpTo csf (aArr csf) (bArr csf) ev m)).frac.1 ∧
      0 < (orbitalSwitch csf (aArr csf) (bArr csf) ev m
        (walkUpTo csf (aArr csf) (bArr csf) ev m)).frac.2) := by
  have hsw : ∀ k, k < csf.length →
      ((walkUpTo csf (aArr csf) (bArr csf) ev k).frac.1 ≠ 0 →
        0 < (walkUpTo csf (aArr csf) (bArr csf) ev k).frac.1 ∧
        0 < (walkUpTo csf (aArr csf) (bArr csf) ev k).frac.2) →
      (orbitalSwitch csf (aArr csf) (bArr csf) ev k
        (walkUpTo csf (aArr csf) (bArr csf) ev k)).frac.1 ≠ 0 →
      0 < (orbitalSwitch csf (aArr csf) (bArr csf) ev k
        (walkUpTo csf (aArr csf) (bArr csf) ev k)).frac.1 ∧
      0 < (orbitalSwitch csf (aArr csf) (bArr csf) ev k
        (walkUpTo csf (aArr csf) (bArr csf) ev k)).frac.2 := by
    intro k hk hw
    obtain ⟨h1, h2, h3, h4⟩ := walk_unreduced csf (aArr csf) (bArr csf) ev alpha hev k
    obtain ⟨_, _, _, s4⟩ := orbitalSwitch_spec csf (aArr csf) (bArr csf) ev alpha k _ _ hev h1 h2 h3
    rw [s4]
    intro hne
    simp only at hne ⊢
    have hw1 := left_ne_zero_of_mul hne
    have hf := right_ne_zero_of_mul hne
    obtain ⟨hp1, hp2⟩ := hw hw1
    have hP : (unreducedUpTo csf (aArr csf) (bArr csf) alpha k).P ≠ 0 := fun h => hw1 (h4.1 h)
    have hf0 := factor_nonneg csf alpha k hk hP
    exact ⟨mul_pos hp1 (lt_of_le_of_ne hf0 (Ne.symm hf)), mul_pos hp2 (denFactor_pos csf hb k hk)⟩
  induction m with
  | zero =>
    have h0 : (walkUpTo csf (aArr csf) (bArr csf) ev 0).frac.1 ≠ 0 →
        0 < (walkUpTo csf (aArr csf) (bArr csf) ev 0).frac.1 ∧
        0 < (walkUpTo csf (aArr csf) (bArr csf) ev 0).frac.2 := by
      intro _
      simp [walkUpTo, Walk.init]
    exact ⟨h0, fun hk => hsw 0 hk h0⟩
  | succ m ih =>
    obtain ⟨ih1, ih2⟩ := ih (by omega)
    have hnew : (walkUpTo csf (aArr csf) (bArr csf) ev (m + 1)).frac.1 ≠ 0 →
        0 < (walkUpTo csf (aArr csf) (bArr csf) ev (m + 1)).frac.1 ∧
        0 < (walkUpTo csf (aArr csf) (bArr csf) ev (m + 1)).frac.2 := by
      rw [walkUpTo_succ, orbital_frac]
      intro hne
      have hsw0 : (orbitalSwitch csf (aArr csf) (bArr csf) ev m
          (walkUpTo csf (aArr csf) (bArr csf) ev m)).frac.1 ≠ 0 := by
        intro h0
        apply hne
        have : (orbitalSwitch csf (aArr csf) (bArr csf) ev m
            (walkUpTo csf (aArr csf) (bArr csf) ev m)).frac
          = (0, (orbitalSwitch csf (aArr csf) (bArr csf) ev m
            (walkUpTo csf (aArr csf) (bArr csf) ev m)).frac.2) := by
          rw [← h0]
        rw [this, simplify_zero]
      obtain ⟨p1, p2⟩ := ih2 (by omega) hsw0
      exact simplify_pos _ _ p1 p2
    exact ⟨hnew, fun hk => hsw (m + 1) hk hnew⟩

/-- With a budget above `|b|` the list of calls is complete: it ends with the
call that returns, whose second argument is 0 and whose first is the result. -/
theorem gcdArgs_last : ∀ (f : Nat) (a b : Int), b.natAbs < f →
    (gcdArgs f a b).getLast? = some (gcdAux f a b, 0) := by
  intro f
  induction f with
  | zero => intro a b h; omega
  | succ f ih =>
    intro a b hf
    simp only [gcdArgs, gcdAux]
    by_cases hb : b = 0
    · simp [hb]
    · simp only [hb, if_false]
      have hlt : (a.tmod b).natAbs < b.natAbs := by
        rw [natAbs_tmod]
        exact Nat.mod_lt _ (Int.natAbs_pos.mpr hb)
      have h := ih b (a.tmod b) (by omega)
      cases hl : gcdArgs f b (a.tmod b) with
      | nil => rw [hl] at h; simp at h
      | cons x xs =>
        rw [hl] at h
        rw [List.getLast?_cons_cons]
        exact h

theorem gcdArgs_nonneg : ∀ (f : Nat) (a b : Int), 0 ≤ a → 0 ≤ b →
    ∀ p ∈ gcdArgs f a b, 0 ≤ p.1 ∧ 0 ≤ p.2 := by
  intro f
  induction f with
  | zero => intro a b _ _ p hp; simp [gcdArgs] at hp
  | succ f ih =>
    intro a b ha hb p hp
    simp only [gcdArgs, List.mem_cons] at hp
    rcases hp with hp | hp
    · rw [hp]; exact ⟨ha, hb⟩
    · by_cases h : b = 0
      · simp [h] at hp
      · simp only [h, if_false] at hp
        apply ih b (a.tmod b) hb _ p hp
        rw [Int.tmod_eq_emod ha hb]
        exact Int.emod_nonneg a h

theorem walk_phase (csf : List Nat) (a b ev : List Int) (m : Nat) :
    (walkUpTo csf a b ev m).phase = 1 ∨ (walkUpTo csf a b ev m).phase = -1 := by
  induction m with
  | zero => left; rfl
  | succ m ih =>
    rw [walkUpTo_succ]
    generalize walkUpTo csf a b ev m = w at ih
    have hneg : w.phase * (-1) = 1 ∨ w.phase * (-1) = -1 := by
      rcases ih with i | i <;> rw [i] <;> simp
    simp only [orbital, orbitalSwitch]
    rcases hc : csf.getD m 0 with _ | _ | _ | _ | n
    · simpa using ih
    · split_ifs <;> exact ih
    · split_ifs <;> first | exact ih | exact hneg
    · split_ifs <;> first | exact ih | exact hneg
    · simpa using ih

theorem numFactors_getD (csf : List Nat) (a b : List Int) (alpha : Nat → Bool) (n m : Nat)
    (hm : m < n) :
    (numFactors csf a b alpha n).getD m 1
      = numFactor (csf.getD m 0) (alpha (unreducedUpTo csf a b alpha m).i_somo) (a.getD m 0)
          (b.getD m 0) (unreducedUpTo csf a b alpha m).i_alpha
          (unreducedUpTo csf a b alpha m).i_beta := by
  unfold numFactors
  rw [List.getD_eq_getElem?_getD, List.getElem?_map, List.getElem?_range hm]
  rfl

theorem denFactors_getD (csf : List Nat) (b : List Int) (n m : Nat) (hm : m < n) :
    (denFactors csf b n).getD m 1 = denFactor (csf.getD m 0) (b.getD m 0) := by
  unfold denFactors
  rw [List.getD_eq_getElem?_getD, List.getElem?_map, List.getElem?_range hm]
  rfl

/-- Positivity for one alpha subset `lex` of a step-vector of valid symbols
with all `b[i] ≥ 0`. -/
theorem positivity_lex (s : List Char) (twoms : Int) (lex : List Nat)
    (hv : ∀ ch ∈ s, validSymbol ch = true) (hb : ∀ x ∈ bArr (csfOf s), 0 ≤ x)
    (hlex : IsComb (nSomoOf s) (((nSomoOf s : Int) + twoms).tdiv 2).toNat lex) :
    (∀ line ∈ determinant (csfOf s) (aArr (csfOf s)) (bArr (csfOf s)) (countMo s) (nSomoOf s)
        (((nSomoOf s : Int) + twoms).tdiv 2) lex,
      0 < line.num ∧ 0 < line.den ∧
      ((walkUpTo (csfOf s) (aArr (csfOf s)) (bArr (csfOf s))
          (spinEigv (nSomoOf s) (((nSomoOf s : Int) + twoms).tdiv 2) lex) (countMo s)).phase = 1 ∧
          line.sign = '+' ∨
       (walkUpTo (csfOf s) (aArr (csfOf s)) (bArr (csfOf s))
          (spinEigv (nSomoOf s) (((nSomoOf s : Int) + twoms).tdiv 2) lex) (countMo s)).phase = -1 ∧
          line.sign = '-')) ∧
    (∀ m, m < countMo s →
      (orbitalSwitch (csfOf s) (aArr (csfOf s)) (bArr (csfOf s))
          (spinEigv (nSomoOf s) (((nSomoOf s : Int) + twoms).tdiv 2) lex) m
          (walkUpTo (csfOf s) (aArr (csfOf s)) (bArr (csfOf s))
            (spinEigv (nSomoOf s) (((nSomoOf s : Int) + twoms).tdiv 2) lex) m)).frac
        = ((walkUpTo (csfOf s) (aArr (csfOf s)) (bArr (csfOf s))
            (spinEigv (nSomoOf s) (((nSomoOf s : Int) + twoms).tdiv 2) lex) m).frac.1
              * (numFactors (csfOf s) (aArr (csfOf s)) (bArr (csfOf s))
                  (fun j => decide (j ∈ lex)) (countMo s)).getD m 1,
           (walkUpTo (csfOf s) (aArr (csfOf s)) (bArr (csfOf s))
            (spinEigv (nSomoOf s) (((nSomoOf s : Int) + twoms).tdiv 2) lex) m).frac.2
              * (denFactors (csfOf s) (bArr (csfOf s)) (countMo s)).getD m 1) ∧
      ((numFactors (csfOf s) (aArr (csfOf s)) (bArr (csfOf s))
          (fun j => decide (j ∈ lex)) (countMo s)).getD m 1 < 0 →
        (walkUpTo (csfOf s) (aArr (csfOf s)) (bArr (csfOf s))
          (spinEigv (nSomoOf s) (((nSomoOf s : Int) + twoms).tdiv 2) lex) m).frac.1 = 0) ∧
      ((orbitalSwitch (csfOf s) (aArr (csfOf s)) (bArr (csfOf s))
          (spinEigv (nSomoOf s) (((nSomoOf s : Int) + twoms).tdiv 2) lex) m
          (walkUpTo (csfOf s) (aArr (csfOf s)) (bArr (csfOf s))
            (spinEigv (nSomoOf s) (((nSomoOf s : Int) + twoms).tdiv 2) lex) m)).frac.1 ≠ 0 →
        0 < (orbitalSwitch (csfOf s) (aArr (csfOf s)) (bArr (csfOf s))
          (spinEigv (nSomoOf s) (((nSomoOf s : Int) + twoms).tdiv 2) lex) m
          (walkUpTo (csfOf s) (aArr (csfOf s)) (bArr (csfOf s))
            (spinEigv (nSomoOf s) (((nSomoOf s : Int) + twoms).tdiv 2) lex) m)).frac.1 ∧
        0 < (orbitalSwitch (csfOf s) (aArr (csfOf s)) (bArr (csfOf s))
          (spinEigv (nSomoOf s) (((nSomoOf s : Int) + twoms).tdiv 2) lex) m
          (walkUpTo (csfOf s) (aArr (csfOf s)) (bArr (csfOf s))
            (spinEigv (nSomoOf s) (((nSomoOf s : Int) + twoms).tdiv 2) lex) m)).frac.2 ∧
        ∀ p ∈ gcdArgs
            ((orbitalSwitch (csfOf s) (aArr (csfOf s)) (bArr (csfOf s))
              (spinEigv (nSomoOf s) (((nSomoOf s : Int) + twoms).tdiv 2) lex) m
              (walkUpTo (csfOf s) (aArr (csfOf s)) (bArr (csfOf s))
                (spinEigv (nSomoOf s) (((nSomoOf s : Int) + twoms).tdiv 2) lex) m)).frac.2.natAbs
              + 1)
            (orbitalSwitch (csfOf s) (aArr (csfOf s)) (bArr (csfOf s))
              (spinEigv (nSomoOf s) (((nSomoOf s : Int) + twoms).tdiv 2) lex) m
              (walkUpTo (csfOf s) (aArr (csfOf s)) (bArr (csfOf s))
                (spinEigv (nSomoOf s) (((nSomoOf s : Int) + twoms).tdiv 2) lex) m)).frac.1
            (orbitalSwitch (csfOf s) (aArr (csfOf s)) (bArr (csfOf s))
              (spinEigv (nSomoOf s) (((nSomoOf s : Int) + twoms).tdiv 2) lex) m
              (walkUpTo (csfOf s) (aArr (csfOf s)) (bArr (csfOf s))
                (spinEigv (nSomoOf s) (((nSomoOf s : Int) + twoms).tdiv 2) lex) m)).frac.2,
          0 ≤ p.1 ∧ 0 ≤ p.2)) := by
  have hlen := countMo_eq_length s hv
  have hev := spinEigv_getD (nSomoOf s) (((nSomoOf s : Int) + twoms).tdiv 2) lex hlex
  have hev' : ∀ j, (spinEigv (nSomoOf s) (((nSomoOf s : Int) + twoms).tdiv 2) lex).getD j 0 = 1
      ↔ (fun j => decide (j ∈ lex)) j = true := hev
  constructor
  · intro line hline
    rw [determinant_eq] at hline
    have hph := walk_phase (csfOf s) (aArr (csfOf s)) (bArr (csfOf s))
      (spinEigv (nSomoOf s) (((nSomoOf s : Int) + twoms).tdiv 2) lex) (countMo s)
    by_cases h0 : (walkUpTo (csfOf s) (aArr (csfOf s)) (bArr (csfOf s))
        (spinEigv (nSomoOf s) (((nSomoOf s : Int) + twoms).tdiv 2) lex) (countMo s)).frac.1 ≠ 0
    · rw [if_pos h0, List.mem_singleton] at hline
      obtain ⟨p1, p2⟩ := (walk_pos (csfOf s) hb _ _ hev' (countMo s) (le_of_eq hlen)).1 h0
      subst hline
      refine ⟨p1, p2, ?_⟩
      rcases hph with h | h
      · left; rw [h]; exact ⟨rfl, by simp⟩
      · right; rw [h]; exact ⟨rfl, by simp⟩
    · rw [if_neg h0] at hline
      simp at hline
  · intro m hm
    obtain ⟨h1, h2, h3, h4⟩ := walk_unreduced (csfOf s) (aArr (csfOf s)) (bArr (csfOf s))
      (spinEigv (nSomoOf s) (((nSomoOf s : Int) + twoms).tdiv 2) lex)
      (fun j => decide (j ∈ lex)) hev' m
    obtain ⟨_, _, _, s4⟩ := orbitalSwitch_spec (csfOf s) (aArr (csfOf s)) (bArr (csfOf s))
      (spinEigv (nSomoOf s) (((nSomoOf s : Int) + twoms).tdiv 2) lex)
      (fun j => decide (j ∈ lex)) m _ _ hev' h1 h2 h3
    rw [numFactors_getD _ _ _ _ _ _ hm, denFactors_getD _ _ _ _ hm]
    refine ⟨s4, ?_, ?_⟩
    · intro hneg
      by_contra hne
      have hP : (unreducedUpTo (csfOf s) (aArr (csfOf s)) (bArr (csfOf s))
          (fun j => decide (j ∈ lex)) m).P ≠ 0 := by
        intro hP0
        exact hne (h4.1 hP0)
      exact absurd hneg (not_lt.mpr (factor_nonneg (csfOf s) (fun j => decide (j ∈ lex)) m
        (by omega) hP))
    · intro hne
      obtain ⟨p1, p2⟩ := (walk_pos (csfOf s) hb _ _ hev' m (by omega)).2 (by omega) hne
      exact ⟨p1, p2, gcdArgs_nonneg _ _ _ (le_of_lt p1) (le_of_lt p2)⟩

/-- Claim C17.  For a validated input (valid symbols, all `b[i] ≥ 0`,
`|twoms| ≤ S = b[last]`, `S + twoms` even) `csf2det` succeeds and every printed
line has a strictly positive numerator and a strictly positive denominator.
For every alpha subset `lex`: the printed sign is `+` when `phase` is 1 and `-`
when it is -1 (the fraction carries no sign); at every orbital the `switch`
multiplies the fraction by the numerator and denominator factors, and a
negative numerator factor occurs only when the running numerator is already 0;
whenever the numerator handed to `simplify` is not zero (the only case in which
`gcd` is called) both entries of the fraction are positive, and no call of
`gcd`, recursive calls included, has a negative argument. -/
theorem positivity (s : List Char) (twoms S : Int)
    (hv : ∀ ch ∈ s, validSymbol ch = true) (hb : ∀ x ∈ bArr (csfOf s), 0 ≤ x)
    (hS : (bArr (csfOf s)).getLast? = some S) (hr : |twoms| ≤ S) (hp : Even (S + twoms)) :
    (∃ n_e lines, csf2det s twoms = .ok n_e (countMo s) lines ∧
      ∀ line ∈ lines, 0 < line.num ∧ 0 < line.den) ∧
    (∀ lex, IsComb (nSomoOf s) (((nSomoOf s : Int) + twoms).tdiv 2).toNat lex →
      (∀ line ∈ determinant (csfOf s) (aArr (csfOf s)) (bArr (csfOf s)) (countMo s) (nSomoOf s)
          (((nSomoOf s : Int) + twoms).tdiv 2) lex,
        0 < line.num ∧ 0 < line.den ∧
        ((walkUpTo (csfOf s) (aArr (csfOf s)) (bArr (csfOf s))
            (spinEigv (nSomoOf s) (((nSomoOf s : Int) + twoms).tdiv 2) lex) (countMo s)).phase = 1 ∧
            line.sign = '+' ∨
         (walkUpTo (csfOf s) (aArr (csfOf s)) (bArr (csfOf s))
            (spinEigv (nSomoOf s) (((nSomoOf s : Int) + twoms).tdiv 2) lex) (countMo s)).phase = -1 ∧
            line.sign = '-')) ∧
      (∀ m, m < countMo s →
        (orbitalSwitch (csfOf s) (aArr (csfOf s)) (bArr (csfOf s))
            (spinEigv (nSomoOf s) (((nSomoOf s : Int) + twoms).tdiv 2) lex) m
            (walkUpTo (csfOf s) (aArr (csfOf s)) (bArr (csfOf s))
              (spinEigv (nSomoOf s) (((nSomoOf s : Int) + twoms).tdiv 2) lex) m)).frac
          = ((walkUpTo (csfOf s) (aArr (csfOf s)) (bArr (csfOf s))
              (spinEigv (nSomoOf s) (((nSomoOf s : Int) + twoms).tdiv 2) lex) m).frac.1
                * (numFactors (csfOf s) (aArr (csfOf s)) (bArr (csfOf s))
                    (fun j => decide (j ∈ lex)) (countMo s)).getD m 1,
             (walkUpTo (csfOf s) (aArr (csfOf s)) (bArr (csfOf s))
              (spinEigv (nSomoOf s) (((nSomoOf s : Int) + twoms).tdiv 2) lex) m).frac.2
                * (denFactors (csfOf s) (bArr (csfOf s)) (countMo s)).getD m 1) ∧
        ((numFactors (csfOf s) (aArr (csfOf s)) (bArr (csfOf s))
            (fun j => decide (j ∈ lex)) (countMo s)).getD m 1 < 0 →
          (walkUpTo (csfOf s) (aArr (csfOf s)) (bArr (csfOf s))
            (spinEigv (nSomoOf s) (((nSomoOf s : Int) + twoms).tdiv 2) lex) m).frac.1 = 0) ∧
        ((orbitalSwitch (csfOf s) (aArr (csfOf s)) (bArr (csfOf s))
            (spinEigv (nSomoOf s) (((nSomoOf s : Int) + twoms).tdiv 2) lex) m
            (walkUpTo (csfOf s) (aArr (csfOf s)) (bArr (csfOf s))
              (spinEigv (nSomoOf s) (((nSomoOf s : Int) + twoms).tdiv 2) lex) m)).frac.1 ≠ 0 →
          0 < (orbitalSwitch (csfOf s) (aArr (csfOf s)) (bArr (csfOf s))
            (spinEigv (nSomoOf s) (((nSomoOf s : Int) + twoms).tdiv 2) lex) m
            (walkUpTo (csfOf s) (aArr (csfOf s)) (bArr (csfOf s))
              (spinEigv (nSomoOf s) (((nSomoOf s : Int) + twoms).tdiv 2) lex) m)).frac.1 ∧
          0 < (orbitalSwitch (csfOf s) (aArr (csfOf s)) (bArr (csfOf s))
            (spinEigv (nSomoOf s) (((nSomoOf s : Int) + twoms).tdiv 2) lex) m
            (walkUpTo (csfOf s) (aArr (csfOf s)) (bArr (csfOf s))
              (spinEigv (nSomoOf s) (((nSomoOf s : Int) + twoms).tdiv 2) lex) m)).frac.2 ∧
          ∀ p ∈ gcdArgs
              ((orbitalSwitch (csfOf s) (aArr (csfOf s)) (bArr (csfOf s))
                (spinEigv (nSomoOf s) (((nSomoOf s : Int) + twoms).tdiv 2) lex) m
                (walkUpTo (csfOf s) (aArr (csfOf s)) (bArr (csfOf s))
                  (spinEigv (nSomoOf s) (((nSomoOf s : Int) + twoms).tdiv 2) lex) m)).frac.2.natAbs
                + 1)
              (orbitalSwitch (csfOf s) (aArr (csfOf s)) (bArr (csfOf s))
                (spinEigv (nSomoOf s) (((nSomoOf s : Int) + twoms).tdiv 2) lex) m
                (walkUpTo (csfOf s) (aArr (csfOf s)) (bArr (csfOf s))
                  (spinEigv (nSomoOf s) (((nSomoOf s : Int) + twoms).tdiv 2) lex) m)).frac.1
              (orbitalSwitch (csfOf s) (aArr (csfOf s)) (bArr (csfOf s))
                (spinEigv (nSomoOf s) (((nSomoOf s : Int) + twoms).tdiv 2) lex) m
                (walkUpTo (csfOf s) (aArr (csfOf s)) (bArr (csfOf s))
                  (spinEigv (nSomoOf s) (((nSomoOf s : Int) + twoms).tdiv 2) lex) m)).frac.2,
            0 ≤ p.1 ∧ 0 ≤ p.2))) := by
  refine ⟨?_, fun lex hlex => positivity_lex s twoms lex hv hb hlex⟩
  obtain ⟨hne, hSeq⟩ := (bArr_getLast? _ _).mp hS
  have hlen := countMo_eq_length s hv
  have hmo : 0 < countMo s := by rw [hlen]; exact List.length_pos.mpr hne
  subst hSeq
  rcases csf2det_cases s twoms hv hmo with h | h | h | h
  · obtain ⟨⟨x, hx, hlt⟩, _⟩ := h
    exact absurd (hb x hx) (not_le.mpr hlt)
  · exact absurd h.2.1 (not_lt.mpr hr)
  · exact absurd h.2.2.1 (Int.not_odd_iff_even.mpr hp)
  · obtain ⟨_, _, _, L, hrun, _, _, hmem⟩ := h
    refine ⟨_, _, hrun, ?_⟩
    intro line hline
    rw [List.mem_flatMap] at hline
    obtain ⟨lex, hlexL, hl⟩ := hline
    obtain ⟨h1, h2, _⟩ := (positivity_lex s twoms lex hv hb ((hmem lex).mp hlexL)).1 line hl
    exact ⟨h1, h2⟩

/-- The theorem `positivity` at a concrete input. -/
theorem positivity_witness :
    (∀ ch ∈ ['u', 'd', 'u', 'd'], validSymbol ch = true) ∧
    (∀ x ∈ bArr (csfOf ['u', 'd', 'u', 'd']), 0 ≤ x) ∧
    (bArr (csfOf ['u', 'd', 'u', 'd'])).getLast? = some 0 ∧ |(0 : Int)| ≤ 0 ∧
    Even ((0 : Int) + 0) ∧
    ∃ n_e lines, csf2det ['u', 'd', 'u', 'd'] 0 = .ok n_e (countMo ['u', 'd', 'u', 'd']) lines ∧
      ∀ line ∈ lines, 0 < line.num ∧ 0 < line.den :=
  ⟨by decide, by decide, by decide, by decide, by decide,
    (positivity ['u', 'd', 'u', 'd'] 0 0 (by decide) (by decide) (by decide) (by decide)
      (by decide)).1⟩

/-! ### High-spin step-vectors: no down-coupled orbital -/

theorem count_two_take (csf : List Nat) (hno : ∀ x ∈ csf, x ≠ 2) (m : Nat) :
    (csf.take m).count 2 = 0 := by
  rw [List.count_eq_zero]
  intro h
  exact hno 2 (List.mem_of_mem_take h) rfl

theorem getD_mem (csf : List Nat) (m : Nat) (hm : m < csf.length) : csf.getD m 0 ∈ csf := by
  rw [List.getD_eq_getElem?_getD, List.getElem?_eq_getElem hm]
  exact List.getElem_mem _

theorem unreduced_Q_succ (csf : List Nat) (a b : List Int) (alpha : Nat → Bool) (m : Nat) :
    (unreducedUpTo csf a b alpha (m + 1)).Q = (unreducedUpTo csf a b alpha m).Q
      * denFactor (csf.getD m 0) (b.getD m 0) := by
  rw [unreducedUpTo_succ]
  rfl

/-- Without down-coupled orbitals the product of the numerator factors after
`m` orbitals is `k! (U - k)!` and the product of the denominator factors is
`U!`, where `U` is the number of `u` so far and `k` the number of them
assigned alpha. -/
theorem highspin_unreduced (csf : List Nat) (hno : ∀ x ∈ csf, x ≠ 2) (alpha : Nat → Bool)
    (m : Nat) (hm : m ≤ csf.length) :
    (unreducedUpTo csf (aArr csf) (bArr csf) alpha m).P
      = ((((List.range ((csf.take m).count 1)).countP alpha).factorial
          * ((csf.take m).count 1 - (List.range ((csf.take m).count 1)).countP alpha).factorial
            : Nat) : Int) ∧
    (unreducedUpTo csf (aArr csf) (bArr csf) alpha m).Q
      = ((((csf.take m).count 1).factorial : Nat) : Int) := by
  induction m with
  | zero => simp [unreducedUpTo, Unreduced.init]
  | succ m ih =>
    obtain ⟨ihP, ihQ⟩ := ih (by omega)
    have hm' : m < csf.length := by omega
    have h2 := count_two_take csf hno m
    have hs := unreduced_i_somo csf (aArr csf) (bArr csf) alpha m (by omega)
    obtain ⟨ha, hbeta⟩ := unreduced_i_alpha csf (aArr csf) (bArr csf) alpha m (by omega)
    have hsum := countP_add_countP_not alpha (List.range ((csf.take m).count 1))
    have hc2 : csf.getD m 0 ≠ 2 := hno _ (getD_mem csf m hm')
    rw [h2, Nat.add_zero] at hs ha hbeta
    rw [List.length_range] at hsum
    rw [unreduced_P_succ, unreduced_Q_succ, ihP, ihQ, hs, ha, hbeta, aArr_getD csf m hm',
      bArr_getD csf m hm', take_succ_getD csf m hm']
    simp only [tally, List.count_append, h2]
    generalize hk : (List.range ((csf.take m).count 1)).countP alpha = k at hsum ⊢
    generalize hkb : (List.range ((csf.take m).count 1)).countP (fun j => !alpha j) = kb at hsum ⊢
    generalize hU : (csf.take m).count 1 = U at hsum hk hkb ⊢
    rcases hc : csf.getD m 0 with _ | _ | _ | _ | n
    · simp [numFactor, denFactor, hk]
    · cases hal : alpha U
      · simp [numFactor, denFactor, List.range_succ, hal, hk]
        subst hsum
        have e1 : k + kb - k = kb := by omega
        have e2 : k + kb + 1 - k = kb + 1 := by omega
        rw [e1, e2, Nat.factorial_succ (k + kb), Nat.factorial_succ kb]
        push_cast
        constructor <;> ring
      · simp [numFactor, denFactor, List.range_succ, hal, hk]
        subst hsum
        have e1 : k + kb - k = kb := by omega
        rw [e1, Nat.factorial_succ (k + kb), Nat.factorial_succ k]
        push_cast
        constructor <;> ring
    · exact absurd hc hc2
    · simp [numFactor, denFactor, hk]
    · simp [numFactor, denFactor, hk]

theorem highspin_b_nonneg (csf : List Nat) (hno : ∀ x ∈ csf, x ≠ 2) :
    ∀ x ∈ bArr csf, 0 ≤ x := by
  intro x hx
  obtain ⟨i, _, hxi⟩ := (mem_bArr csf x).mp hx
  rw [hxi]
  simp only [tally, count_two_take csf hno]
  omega

/-- Without down-coupled orbitals the phase after `m` orbitals is `-1` to the
number of doubly-occupied orbitals `i < m` with `b[i] % 2 != 0`, whatever the
alpha subset. -/
theorem highspin_phase (csf : List Nat) (hno : ∀ x ∈ csf, x ≠ 2) (a b ev : List Int) (m : Nat)
    (hm : m ≤ csf.length) :
    (walkUpTo csf a b ev m).phase
      = (-1) ^ ((List.range m).countP
          (fun i => decide (csf.getD i 0 = 3) && decide ((b.getD i 0).tmod 2 ≠ 0))) := by
  induction m with
  | zero => rfl
  | succ m ih =>
    have hc2 : csf.getD m 0 ≠ 2 := hno _ (getD_mem csf m (by omega))
    rw [walkUpTo_succ, List.range_succ, List.countP_append, pow_add, ← ih (by omega),
      List.countP_singleton]
    generalize walkUpTo csf a b ev m = w
    simp only [orbital, orbitalSwitch]
    rcases hc : csf.getD m 0 with _ | _ | _ | _ | n
    · simp
    · by_cases h : ev[w.i_somo]?.getD 0 = 1 <;> simp [h]
    · exact absurd hc hc2
    · by_cases h2 : (b.getD m 0).tmod 2 ≠ 0
      · simp [h2]
      · simp [h2]
    · simp

/-- Without down-coupled orbitals the reduced fraction of every alpha subset
with `k` elements is `1 / C(U, k)`, `U` the number of `u`. -/
theorem highspin_frac (csf : List Nat) (hno : ∀ x ∈ csf, x ≠ 2) (ev : List Int)
    (alpha : Nat → Bool) (hev : ∀ j, ev.getD j 0 = 1 ↔ alpha j = true) :
    (walkUpTo csf (aArr csf) (bArr csf) ev csf.length).frac
      = (1, ((Nat.choose (csf.count 1) ((List.range (csf.count 1)).countP alpha) : Nat) : Int)) := by
  have hb := highspin_b_nonneg csf hno
  obtain ⟨_, _, _, hred⟩ := walk_unreduced csf (aArr csf) (bArr csf) ev alpha hev csf.length
  obtain ⟨hP, hQ⟩ := highspin_unreduced csf hno alpha csf.length (le_refl _)
  rw [List.take_length] at hP hQ
  have hk : (List.range (csf.count 1)).countP alpha ≤ csf.count 1 := by
    have := countP_add_countP_not alpha (List.range (csf.count 1))
    rw [List.length_range] at this
    omega
  generalize (List.range (csf.count 1)).countP alpha = k at hP hk ⊢
  generalize csf.count 1 = U at hP hQ hk ⊢
  have hPpos : (0 : Int) < ((k.factorial * (U - k).factorial : Nat) : Int) := by
    exact_mod_cast Nat.mul_pos (Nat.factorial_pos _) (Nat.factorial_pos _)
  rw [hP, hQ] at hred
  obtain ⟨hne, heq, hcop⟩ := hred.2 (ne_of_gt hPpos)
  obtain ⟨p1, p2⟩ := (walk_pos csf hb ev alpha hev csf.length (le_refl _)).1 hne
  have hch : ((U.factorial : Nat) : Int)
      = ((Nat.choose U k : Nat) : Int) * ((k.factorial * (U - k).factorial : Nat) : Int) := by
    rw [← Nat.choose_mul_factorial_mul_factorial hk]
    push_cast
    ring
  rw [hch] at heq
  have heq2 : (walkUpTo csf (aArr csf) (bArr csf) ev csf.length).frac.1 * ((Nat.choose U k : Nat) : Int)
      = (walkUpTo csf (aArr csf) (bArr csf) ev csf.length).frac.2 := by
    apply mul_right_cancel₀ (ne_of_gt hPpos)
    rw [mul_assoc, heq]
    ring
  generalize (walkUpTo csf (aArr csf) (bArr csf) ev csf.length).frac = fr at hne heq heq2 hcop p1 p2 ⊢
  obtain ⟨n, d⟩ := fr
  simp only at hne heq2 hcop p1 p2 ⊢
  have hdvd : n ∣ d := ⟨_, heq2.symm⟩
  have hg : Int.gcd n d = n.natAbs := Int.gcd_eq_left hdvd
  have hn1 : n = 1 := by
    rw [hcop] at hg
    omega
  subst hn1
  rw [one_mul] at heq2
  rw [heq2]

theorem flatMap_singleton_map {α β : Type} (L : List α) (g : α → List β) (f : α → β)
    (h : ∀ x ∈ L, g x = [f x]) : L.flatMap g = L.map f := by
  induction L with
  | nil => rfl
  | cons x L ih =>
    rw [List.flatMap_cons, List.map_cons, h x (List.mem_cons_self _ _),
      ih (fun y hy => h y (List.mem_cons_of_mem _ hy))]
    rfl

theorem highspin_valid (s : List Char)
    (hv : ∀ ch ∈ s, ch = '0' ∨ ch = 'u' ∨ ch = '2' ∨ ch = ' ') :
    (∀ ch ∈ s, validSymbol ch = true) ∧ (∀ x ∈ csfOf s, x ≠ 2) := by
  have hv' : ∀ ch ∈ s, validSymbol ch = true := by
    intro ch hch
    rcases hv ch hch with h | h | h | h <;> subst h <;> rfl
  refine ⟨hv', ?_⟩
  intro x hx
  rw [csfOf_valid s hv', List.mem_map] at hx
  obtain ⟨ch, hch, hcx⟩ := hx
  have hmem : ch ∈ s := List.mem_of_mem_filter hch
  rw [← hcx]
  rcases hv ch hmem with h | h | h | h <;> subst h <;> decide

/-- The test `b[i] % 2 != 0` on the doubly-occupied orbitals, in terms of the
symbols of the step-vector. -/
theorem highspin_count (s : List Char) (hv : ∀ ch ∈ s, validSymbol ch = true) :
    (List.range (countMo s)).countP
        (fun i => decide ((csfOf s).getD i 0 = 3)
          && decide (((bArr (csfOf s)).getD i 0).tmod 2 ≠ 0))
      = (List.range (countMo s)).countP
        (fun i => decide ((orbitalSymbols s).getD i ' ' = '2')
          && decide (Odd ((bArr (csfOf s)).getD i 0))) := by
  apply List.countP_congr
  intro i hi
  rw [List.mem_range, countMo_eq s] at hi
  have hsym := orbitalSymbols_valid s hv ((orbitalSymbols s).getD i ' ') (by
    rw [List.getD_eq_getElem?_getD, List.getElem?_eq_getElem hi]
    exact List.getElem_mem _)
  have hcode : (csfOf s).getD i 0 = codeOf ((orbitalSymbols s).getD i ' ') := by
    rw [csfOf_valid s hv]
    exact getD_map_codeOf _ i hi
  have hodd := tmod_two_ne_zero_iff ((bArr (csfOf s)).getD i 0)
  rw [hcode]
  generalize (orbitalSymbols s).getD i ' ' = c at hsym
  simp only [Bool.and_eq_true, decide_eq_true_eq, hodd]
  rcases hsym with h | h | h | h <;> subst h <;> simp [codeOf]

/-- Claim C18.  For a step-vector of the symbols `0`, `u`, `2` and spaces only,
with at least one orbital, and `twoms` with `|twoms| ≤ S = b[last]` and
`S + twoms` even: `S` is `n_somo`; for every alpha subset the phase after the
last orbital is `-1` to the number of `2` orbitals `i` with `b[i]` odd and the
reduced fraction is `1 / C(n_somo, n_alpha)`; and `csf2det` prints one line for
each of the `C(n_somo, n_alpha)` alpha subsets, with the sign of that phase, the
fraction `1 / C(n_somo, n_alpha)` and the determinant string of the subset. -/
theorem high_spin_expansion (s : List Char) (twoms S : Int)
    (hv : ∀ ch ∈ s, ch = '0' ∨ ch = 'u' ∨ ch = '2' ∨ ch = ' ')
    (hS : (bArr (csfOf s)).getLast? = some S) (hr : |twoms| ≤ S) (hp : Even (S + twoms)) :
    S = nSomoOf s ∧
    (∀ lex, IsComb (nSomoOf s) (((nSomoOf s : Int) + twoms).tdiv 2).toNat lex →
      (walkUpTo (csfOf s) (aArr (csfOf s)) (bArr (csfOf s))
          (spinEigv (nSomoOf s) (((nSomoOf s : Int) + twoms).tdiv 2) lex) (countMo s)).phase
        = (-1) ^ ((List.range (countMo s)).countP
            (fun i => decide ((orbitalSymbols s).getD i ' ' = '2')
              && decide (Odd ((bArr (csfOf s)).getD i 0)))) ∧
      (walkUpTo (csfOf s) (aArr (csfOf s)) (bArr (csfOf s))
          (spinEigv (nSomoOf s) (((nSomoOf s : Int) + twoms).tdiv 2) lex) (countMo s)).frac
        = (1, ((Nat.choose (nSomoOf s) (((nSomoOf s : Int) + twoms).tdiv 2).toNat : Nat) : Int))) ∧
    (∃ (n_e : Int) (L : List (List Nat)), L.Nodup ∧
      (∀ l, l ∈ L ↔ IsComb (nSomoOf s) (((nSomoOf s : Int) + twoms).tdiv 2).toNat l) ∧
      L.length = Nat.choose (nSomoOf s) (((nSomoOf s : Int) + twoms).tdiv 2).toNat ∧
      csf2det s twoms = .ok n_e (countMo s) (L.map (fun lex =>
        { sign := if Even ((List.range (countMo s)).countP
              (fun i => decide ((orbitalSymbols s).getD i ' ' = '2')
                && decide (Odd ((bArr (csfOf s)).getD i 0)))) then '+' else '-'
          num := 1
          den := ((Nat.choose (nSomoOf s) (((nSomoOf s : Int) + twoms).tdiv 2).toNat : Nat) : Int)
          det := (List.range (countMo s)).map (fun i =>
            detSymbol ((orbitalSymbols s).getD i ' ')
              (decide (somoIndex (orbitalSymbols s) i ∈ lex))) }))) := by
  obtain ⟨hv', hno⟩ := highspin_valid s hv
  have hb := highspin_b_nonneg _ hno
  obtain ⟨hne, hSeq⟩ := (bArr_getLast? _ _).mp hS
  have hlen := countMo_eq_length s hv'
  have hmo : 0 < countMo s := by rw [hlen]; exact List.length_pos.mpr hne
  have hc2 : (csfOf s).count 2 = 0 := by
    have := count_two_take (csfOf s) hno (csfOf s).length
    rwa [List.take_length] at this
  have hns : nSomoOf s = (csfOf s).count 1 := by
    rw [nSomoOf_eq_count s hv', hc2, Nat.add_zero]
  have hSn : S = nSomoOf s := by
    rw [hSeq, hns]
    simp [tally, hc2]
  have hfacts : ∀ lex, IsComb (nSomoOf s) (((nSomoOf s : Int) + twoms).tdiv 2).toNat lex →
      (walkUpTo (csfOf s) (aArr (csfOf s)) (bArr (csfOf s))
          (spinEigv (nSomoOf s) (((nSomoOf s : Int) + twoms).tdiv 2) lex) (countMo s)).phase
        = (-1) ^ ((List.range (countMo s)).countP
            (fun i => decide ((orbitalSymbols s).getD i ' ' = '2')
              && decide (Odd ((bArr (csfOf s)).getD i 0)))) ∧
      (walkUpTo (csfOf s) (aArr (csfOf s)) (bArr (csfOf s))
          (spinEigv (nSomoOf s) (((nSomoOf s : Int) + twoms).tdiv 2) lex) (countMo s)).frac
        = (1, ((Nat.choose (nSomoOf s) (((nSomoOf s : Int) + twoms).tdiv 2).toNat : Nat)
            : Int)) := by
    intro lex hlex
    have hev : ∀ j, (spinEigv (nSomoOf s) (((nSomoOf s : Int) + twoms).tdiv 2) lex).getD j 0 = 1
        ↔ (fun j => decide (j ∈ lex)) j = true :=
      spinEigv_getD (nSomoOf s) (((nSomoOf s : Int) + twoms).tdiv 2) lex hlex
    constructor
    · rw [← highspin_count s hv']
      exact highspin_phase (csfOf s) hno _ _ _ (countMo s) (le_of_eq hlen)
    · have h := highspin_frac (csfOf s) hno _ _ hev
      rw [← hlen, ← hns, (countP_mem_list _ _ lex hlex).1] at h
      exact h
  refine ⟨hSn, hfacts, ?_⟩
  subst hSeq
  rcases csf2det_cases s twoms hv' hmo with h | h | h | h
  · obtain ⟨⟨x, hx, hlt⟩, _⟩ := h
    exact absurd (hb x hx) (not_le.mpr hlt)
  · exact absurd h.2.1 (not_lt.mpr hr)
  · exact absurd h.2.2.1 (Int.not_odd_iff_even.mpr hp)
  · obtain ⟨_, _, _, L, hrun, hnd, hlenL, hmem⟩ := h
    refine ⟨2 * (tally (csfOf s)).1 + (tally (csfOf s)).2.1, L, hnd, hmem, hlenL, ?_⟩
    rw [hrun]
    congr 1
    apply flatMap_singleton_map
    intro lex hl
    have hlex := (hmem lex).mp hl
    obtain ⟨hph, hfr⟩ := hfacts lex hlex
    have hdet := walk_det s hv' (nSomoOf s) (((nSomoOf s : Int) + twoms).tdiv 2) lex hlex
      (countMo s) (le_refl _)
    rw [determinant_eq, hfr, hph, hdet]
    simp only [ne_eq, one_ne_zero, not_false_eq_true, if_true]
    congr 2
    by_cases hev : Even ((List.range (countMo s)).countP
        (fun i => decide ((orbitalSymbols s).getD i ' ' = '2')
          && decide (Odd ((bArr (csfOf s)).getD i 0))))
    · rw [if_pos hev, Even.neg_one_pow hev]
      simp
    · rw [if_neg hev, Odd.neg_one_pow (Nat.not_even_iff_odd.mp hev)]
      simp

/-- The theorem `high_spin_expansion` at a concrete input. -/
theorem high_spin_expansion_witness :
    (∀ ch ∈ ['u', '2', ' ', 'u', '0'], ch = '0' ∨ ch = 'u' ∨ ch = '2' ∨ ch = ' ') ∧
    (bArr (csfOf ['u', '2', ' ', 'u', '0'])).getLast? = some 2 ∧ |(0 : Int)| ≤ 2 ∧
    Even ((2 : Int) + 0) ∧
    ∃ (n_e : Int) (L : List (List Nat)), L.Nodup ∧
      (∀ l, l ∈ L ↔ IsComb (nSomoOf ['u', '2', ' ', 'u', '0'])
        (((nSomoOf ['u', '2', ' ', 'u', '0'] : Int) + 0).tdiv 2).toNat l) ∧
      L.length = Nat.choose (nSomoOf ['u', '2', ' ', 'u', '0'])
        (((nSomoOf ['u', '2', ' ', 'u', '0'] : Int) + 0).tdiv 2).toNat ∧
      csf2det ['u', '2', ' ', 'u', '0'] 0
        = .ok n_e (countMo ['u', '2', ' ', 'u', '0']) (L.map (fun lex =>
        { sign := if Even ((List.range (countMo ['u', '2', ' ', 'u', '0'])).countP
              (fun i => decide ((orbitalSymbols ['u', '2', ' ', 'u', '0']).getD i ' ' = '2')
                && decide (Odd ((bArr (csfOf ['u', '2', ' ', 'u', '0'])).getD i 0))))
            then '+' else '-'
          num := 1
          den := ((Nat.choose (nSomoOf ['u', '2', ' ', 'u', '0'])
            (((nSomoOf ['u', '2', ' ', 'u', '0'] : Int) + 0).tdiv 2).toNat : Nat) : Int)
          det := (List.range (countMo ['u', '2', ' ', 'u', '0'])).map (fun i =>
            detSymbol ((orbitalSymbols ['u', '2', ' ', 'u', '0']).getD i ' ')
              (decide (somoIndex (orbitalSymbols ['u', '2', ' ', 'u', '0']) i ∈ lex))) })) :=
  ⟨by decide, by decide, by decide, by decide,
    (high_spin_expansion ['u', '2', ' ', 'u', '0'] 0 2 (by decide) (by decide) (by decide)
      (by decide)).2.2⟩

end Csf2det
